import Mathlib

/-!
Verification of the po-translate tool (src/po_translate.py) against its
natural-language specification.

Strings are modelled as `List Char`.  Python string primitives that the
source relies on (str.replace, str.strip, str.split, re.split on blank-line
runs, the anchored key/value regular expressions) are embedded as explicit
recursive functions with Python's documented semantics (left-to-right,
non-overlapping replacement; whitespace stripping at both ends; split
keeping empty pieces).
-/

namespace PoTranslate

/-- Python whitespace (the characters stripped by str.strip and matched by
the regex class backslash-s, restricted to ASCII). -/
def pyWs (c : Char) : Bool :=
  c = ' ' || c = '\t' || c = '\n' || c = '\r' || c = '\x0b' || c = '\x0c'

/-- Remove trailing whitespace, as Python str.rstrip. -/
def stripRight (s : List Char) : List Char :=
  ((s.reverse).dropWhile pyWs).reverse

/-- Python str.strip: remove whitespace at both ends. -/
def pyStrip (s : List Char) : List Char :=
  (stripRight s).dropWhile pyWs

/-- Helper for splitOnChar: accumulates the current piece (reversed). -/
def splitOnCharGo (sep : Char) : List Char → List Char → List (List Char)
  | acc, [] => [acc.reverse]
  | acc, c :: cs =>
    if c = sep then acc.reverse :: splitOnCharGo sep [] cs
    else splitOnCharGo sep (c :: acc) cs

/-- Python str.split(sep) for a one-character separator: keeps empty pieces,
never returns an empty list. -/
def splitOnChar (sep : Char) (s : List Char) : List (List Char) :=
  splitOnCharGo sep [] s

/-- Python str.replace for a one-character pattern: every occurrence of `a`
becomes `r`. -/
def pyReplace1 (a : Char) (r : List Char) : List Char → List Char
  | [] => []
  | c :: cs => if c = a then r ++ pyReplace1 a r cs else c :: pyReplace1 a r cs

/-- Python str.replace for a two-character pattern `a,b`: left-to-right,
non-overlapping; on a match both characters are consumed and `r` is emitted. -/
def pyReplace2 (a b : Char) (r : List Char) : List Char → List Char
  | [] => []
  | [c] => [c]
  | c :: d :: cs =>
    if c = a ∧ d = b then r ++ pyReplace2 a b r cs
    else c :: pyReplace2 a b r (d :: cs)

/-- POFile._unescape: sequential str.replace calls, in source order
(backslash-n, backslash-t, backslash-quote, double-backslash). -/
def unescape (s : List Char) : List Char :=
  pyReplace2 '\\' '\\' ['\\']
    (pyReplace2 '\\' '"' ['"']
      (pyReplace2 '\\' 't' ['\t']
        (pyReplace2 '\\' 'n' ['\n'] s)))

/-- POFile._escape: sequential str.replace calls, in source order
(backslash first, then quote, newline, tab). -/
def escape (s : List Char) : List Char :=
  pyReplace1 '\t' ['\\', 't']
    (pyReplace1 '\n' ['\\', 'n']
      (pyReplace1 '"' ['\\', '"']
        (pyReplace1 '\\' ['\\', '\\'] s)))

/-- Helper for re.split on blank-line runs: in skipping mode (first argument
true) consecutive newlines after a block separator are consumed. -/
def sbGo : Bool → List Char → List Char → List (List Char)
  | _, acc, [] => [acc.reverse]
  | true, acc, c :: cs =>
    if c = '\n' then sbGo true acc cs else sbGo false (c :: acc) cs
  | false, acc, [c] => [(c :: acc).reverse]
  | false, acc, c :: d :: rest =>
    if c = '\n' ∧ d = '\n' then acc.reverse :: sbGo true [] rest
    else sbGo false (c :: acc) (d :: rest)

/-- re.split on the pattern newline-newline-plus: pieces between maximal runs
of at least two newlines (leading and trailing empty pieces included, as in
Python). -/
def splitBlocks (s : List Char) : List (List Char) :=
  sbGo false [] s

/-- Abbreviation: the characters of a Lean string literal. -/
def str (s : String) : List Char := s.toList

/-- TranslationEntry (the dataclass): one translatable unit. -/
structure TranslationEntry where
  msgid : List Char := []
  msgstr : List Char := []
  msgctxt : List Char := []
  comments : List (List Char) := []
  flags : List (List Char) := []
  line : Nat := 0
deriving DecidableEq, Repr

def fuzzyFlag : List Char := ['f', 'u', 'z', 'z', 'y']

def unfinishedFlag : List Char := ['u', 'n', 'f', 'i', 'n', 'i', 's', 'h', 'e', 'd']

/-- TranslationEntry.needs_translation: false for the header (empty msgid),
false when already translated (non-empty msgstr), false when fuzzy-flagged,
true otherwise. -/
def TranslationEntry.needs_translation (e : TranslationEntry) : Bool :=
  if e.msgid = [] then false
  else if e.msgstr ≠ [] then false
  else if e.flags.contains fuzzyFlag then false
  else true

def msgctxtKey : List Char := ['m', 's', 'g', 'c', 't', 'x', 't']

def msgidKey : List Char := ['m', 's', 'g', 'i', 'd']

def msgidPluralKey : List Char :=
  ['m', 's', 'g', 'i', 'd', '_', 'p', 'l', 'u', 'r', 'a', 'l']

def msgstrKey : List Char := ['m', 's', 'g', 's', 't', 'r']

/-- The keyword list of _parse_block, in source order. -/
def poKeys : List (List Char) := [msgctxtKey, msgidKey, msgidPluralKey, msgstrKey]

/-- The group captured by the final quoted part of the key/value regex:
the text between the current position and the LAST double quote (the greedy
dot-star), or none when no quote remains. -/
def lastQuoteSplit (t : List Char) : Option (List Char) :=
  match (t.reverse).dropWhile (fun c => ¬ c = '"') with
  | [] => none
  | _ :: rest => some rest.reverse

/-- The optional index suffix of the key/value regex (opening bracket, one or
more digits, closing bracket): returns the matched suffix text and the rest of
the line; an absent or malformed suffix matches as empty. -/
def takeIdxSuffix (r : List Char) : List Char × List Char :=
  match r with
  | '[' :: rest =>
    let ds := rest.takeWhile Char.isDigit
    match ds, rest.drop ds.length with
    | _ :: _, ']' :: r2 => ('[' :: ds ++ [']'], r2)
    | _, _ => ([], r)
  | _ => ([], r)

/-- After the key and optional suffix the regex requires one or more
whitespace characters, an opening quote, then captures greedily up to the
last quote of the line. -/
def matchWsQuoted (r : List Char) : Option (List Char) :=
  match r with
  | c :: cs =>
    if pyWs c then
      match cs.dropWhile pyWs with
      | '"' :: t => lastQuoteSplit t
      | _ => none
    else none
  | [] => none

/-- re.match of the anchored pattern key + optional index + whitespace +
quoted string against a line: yields (suffix, captured group). -/
def matchKeyVal (key : List Char) (l : List Char) : Option (List Char × List Char) :=
  if key.isPrefixOf l then
    let r := l.drop key.length
    let p := takeIdxSuffix r
    match matchWsQuoted p.2 with
    | some v => some (p.1, v)
    | none => none
  else none

/-- The per-block parser state: the entry being built and current_key. -/
structure BlockState where
  entry : TranslationEntry
  currentKey : Option (List Char)
deriving DecidableEq, Repr

def initBlockState : BlockState :=
  { entry := { msgid := [], line := 0 }, currentKey := none }

/-- One iteration of the line loop of _parse_block (the line argument is
already stripped). -/
def parseLine (st : BlockState) (line : List Char) : BlockState :=
  if ['#'].isPrefixOf line then
    if ['#', ','].isPrefixOf line then
      { st with entry :=
          { st.entry with
            flags := (splitOnChar ',' (pyStrip (line.drop 2))).map pyStrip } }
    else
      { st with entry :=
          { st.entry with comments := st.entry.comments ++ [line] } }
  else
    match poKeys.find? (fun k => k.isPrefixOf line) with
    | some k =>
      match matchKeyVal k line with
      | some sv =>
        let value := unescape sv.2
        let e := st.entry
        let e :=
          if k = msgidKey then { e with msgid := value }
          else if k = msgstrKey then { e with msgstr := value }
          else if k = msgctxtKey then { e with msgctxt := value }
          else e
        { entry := e, currentKey := some (k ++ sv.1) }
      | none => st
    | none =>
      match line, st.currentKey with
      | '"' :: t, some ck =>
        match lastQuoteSplit t with
        | some raw =>
          let value := unescape raw
          let e := st.entry
          let e :=
            if ck = msgidKey then { e with msgid := e.msgid ++ value }
            else if ck = msgstrKey then { e with msgstr := e.msgstr ++ value }
            else if ck = msgctxtKey then { e with msgctxt := e.msgctxt ++ value }
            else e
          { st with entry := e }
        | none => st
      | _, _ => st

/-- POFile._parse_block: strip the block, split it into lines, run the line
loop, and keep the entry only when msgid or msgstr is non-empty. -/
def parse_block (block : List Char) : Option TranslationEntry :=
  let st := (splitOnChar '\n' (pyStrip block)).foldl
    (fun st l => parseLine st (pyStrip l)) initBlockState
  if st.entry.msgid ≠ [] ∨ st.entry.msgstr ≠ [] then some st.entry else none

/-- POFile._parse: split the content on blank-line runs, skip blocks that
strip to nothing, parse the rest. -/
def poParse (content : List Char) : List TranslationEntry :=
  (splitBlocks content).filterMap
    (fun b => if pyStrip b = [] then none else parse_block b)

/-- Python sep.join(pieces). -/
def joinSep (sep : List Char) : List (List Char) → List Char
  | [] => []
  | [l] => l
  | l :: ls => l ++ sep ++ joinSep sep ls

/-- The flags output line of POFile.save. -/
def flagsLineOf (flags : List (List Char)) : List Char :=
  '#' :: ',' :: ' ' :: joinSep [',', ' '] flags

/-- A key line of POFile.save: key, space, quoted escaped value. -/
def keyLine (key : List Char) (v : List Char) : List Char :=
  key ++ [' ', '"'] ++ escape v ++ ['"']

/-- The non-blank output lines POFile.save emits for one entry: comments,
optional flags line, optional msgctxt line, msgid line, msgstr line. -/
def blockLines (e : TranslationEntry) : List (List Char) :=
  e.comments
    ++ (if e.flags ≠ [] then [flagsLineOf e.flags] else [])
    ++ (if e.msgctxt ≠ [] then [keyLine msgctxtKey e.msgctxt] else [])
    ++ [keyLine msgidKey e.msgid, keyLine msgstrKey e.msgstr]

/-- The output lines POFile.save emits for one entry (a trailing blank line
follows the block). -/
def entryLines (e : TranslationEntry) : List (List Char) :=
  blockLines e ++ [[]]

/-- POFile.save: the file content written (newline-join of all lines). -/
def poSave (entries : List TranslationEntry) : List Char :=
  joinSep ['\n'] (entries.flatMap entryLines)

/-- POFile.get_untranslated. -/
def po_get_untranslated (entries : List TranslationEntry) : List TranslationEntry :=
  entries.filter (fun e => e.needs_translation)

/-- The per-character form of escape: each special character becomes its
two-character escape pair, everything else is unchanged. -/
def escChar (c : Char) : List Char :=
  if c = '\\' then ['\\', '\\']
  else if c = '"' then ['\\', '"']
  else if c = '\n' then ['\\', 'n']
  else if c = '\t' then ['\\', 't']
  else [c]

/-- A string is escape-safe when no backslash is immediately followed by the
letter n or the letter t (the two sequences the sequential unescape replaces
eagerly). -/
def noBadEsc : List Char → Bool
  | [] => true
  | [_] => true
  | a :: b :: rest =>
    (!(a = '\\' && (b = 'n' || b = 't'))) && noBadEsc (b :: rest)

theorem pyReplace1_append (a : Char) (r s t : List Char) :
    pyReplace1 a r (s ++ t) = pyReplace1 a r s ++ pyReplace1 a r t := by
  induction s with
  | nil => rfl
  | cons c cs ih =>
    by_cases hc : c = a <;> simp [pyReplace1, hc, ih]

theorem escape_append (s t : List Char) :
    escape (s ++ t) = escape s ++ escape t := by
  simp [escape, pyReplace1_append]

theorem escape_single (c : Char) : escape [c] = escChar c := by
  by_cases h1 : c = '\\'
  · subst h1; rfl
  · by_cases h2 : c = '"'
    · subst h2; rfl
    · by_cases h3 : c = '\n'
      · subst h3; rfl
      · by_cases h4 : c = '\t'
        · subst h4; rfl
        · simp [escape, pyReplace1, escChar, h1, h2, h3, h4]

theorem escape_eq_flatMap (s : List Char) : escape s = s.flatMap escChar := by
  induction s with
  | nil => rfl
  | cons c cs ih =>
    have : escape (c :: cs) = escape [c] ++ escape cs := by
      simpa using escape_append [c] cs
    simp [this, escape_single, ih]

theorem pyReplace2_cons_no (a b : Char) (r : List Char) (c : Char)
    (cs : List Char) (h : ¬(c = a ∧ cs.head? = some b)) :
    pyReplace2 a b r (c :: cs) = c :: pyReplace2 a b r cs := by
  cases cs with
  | nil => rfl
  | cons d ds =>
    have h2 : ¬(c = a ∧ d = b) := by
      intro hx
      exact h ⟨hx.1, by simp [hx.2]⟩
    simp [pyReplace2, h2]

/-- After the first unescape stage, escaped newlines are decoded. -/
def enc1 (c : Char) : List Char :=
  if c = '\n' then ['\n'] else escChar c

/-- After the second unescape stage, escaped tabs are also decoded. -/
def enc2 (c : Char) : List Char :=
  if c = '\n' then ['\n'] else if c = '\t' then ['\t'] else escChar c

/-- After the third unescape stage, only backslash pairs remain encoded. -/
def enc3 (c : Char) : List Char :=
  if c = '\\' then ['\\', '\\'] else [c]

theorem noBadEsc_tail {c : Char} {s : List Char}
    (h : noBadEsc (c :: s) = true) : noBadEsc s = true := by
  cases s with
  | nil => rfl
  | cons d ds =>
    have := h
    simp only [noBadEsc, Bool.and_eq_true] at this
    exact this.2

theorem noBadEsc_pair {c d : Char} {s : List Char}
    (h : noBadEsc (c :: d :: s) = true) (hc : c = '\\') :
    d ≠ 'n' ∧ d ≠ 't' := by
  simp only [noBadEsc, Bool.and_eq_true, Bool.not_eq_true',
    Bool.and_eq_false_iff, Bool.or_eq_false_iff] at h
  rcases h.1 with h1 | h1
  · exact absurd hc (by simpa using h1)
  · constructor
    · simpa using h1.1
    · simpa using h1.2

theorem escChar_ne_nil (c : Char) : escChar c ≠ [] := by
  by_cases e1 : c = '\\' <;> by_cases e2 : c = '"' <;>
    by_cases e3 : c = '\n' <;> by_cases e4 : c = '\t' <;>
    simp [escChar, e1, e2, e3, e4]

theorem head_flatMap_cons {f : Char → List Char} (hf : ∀ c, f c ≠ [])
    (c : Char) (cs : List Char) :
    ((c :: cs).flatMap f).head? = (f c).head? := by
  rcases h : f c with _ | ⟨x, xs⟩
  · exact absurd h (hf c)
  · simp [h]

/-- The head of an escape-encoded string is never the letter n or t, provided
the original string does not start with one of those letters. -/
theorem head_escChar_not {d : Char} {b : Char} (hb : b = 'n' ∨ b = 't')
    (hd : d ≠ b) : (escChar d).head? ≠ some b := by
  by_cases e1 : d = '\\'
  · rcases hb with hb | hb <;> simp [escChar, e1, hb]
  · by_cases e2 : d = '"'
    · rcases hb with hb | hb <;> simp [escChar, e1, e2, hb]
    · by_cases e3 : d = '\n'
      · rcases hb with hb | hb <;> simp [escChar, e1, e2, e3, hb]
      · by_cases e4 : d = '\t'
        · rcases hb with hb | hb <;> simp [escChar, e1, e2, e3, e4, hb]
        · simp [escChar, e1, e2, e3, e4, hd]

theorem stage1_eq (s : List Char) (h : noBadEsc s = true) :
    pyReplace2 '\\' 'n' ['\n'] (s.flatMap escChar) = s.flatMap enc1 := by
  induction s with
  | nil => rfl
  | cons c cs ih =>
    have htl := noBadEsc_tail h
    by_cases h1 : c = '\\'
    · subst h1
      -- escChar gives a backslash pair; the following character can only be
      -- the start of the next encoded character, never the letter n.
      have hhd : (cs.flatMap escChar).head? ≠ some 'n' := by
        cases cs with
        | nil => simp
        | cons d ds =>
          have hd := noBadEsc_pair h rfl
          rw [head_flatMap_cons escChar_ne_nil]
          exact head_escChar_not (Or.inl rfl) hd.1
      have hstep : pyReplace2 '\\' 'n' ['\n'] ('\\' :: '\\' :: cs.flatMap escChar) =
          '\\' :: '\\' :: pyReplace2 '\\' 'n' ['\n'] (cs.flatMap escChar) := by
        rw [pyReplace2_cons_no _ _ _ _ _ (by simp),
          pyReplace2_cons_no _ _ _ _ _ (by simp [hhd])]
      simp [escChar, enc1, hstep, ih htl]
    · by_cases h2 : c = '"'
      · subst h2
        have hstep : pyReplace2 '\\' 'n' ['\n'] ('\\' :: '"' :: cs.flatMap escChar) =
            '\\' :: '"' :: pyReplace2 '\\' 'n' ['\n'] (cs.flatMap escChar) := by
          rw [pyReplace2_cons_no _ _ _ _ _ (by simp),
            pyReplace2_cons_no _ _ _ _ _ (by simp)]
        simp [escChar, enc1, hstep, ih htl]
      · by_cases h3 : c = '\n'
        · subst h3
          have hstep : pyReplace2 '\\' 'n' ['\n'] ('\\' :: 'n' :: cs.flatMap escChar) =
              '\n' :: pyReplace2 '\\' 'n' ['\n'] (cs.flatMap escChar) := by
            simp [pyReplace2]
          simp [escChar, enc1, hstep, ih htl]
        · by_cases h4 : c = '\t'
          · subst h4
            have hstep : pyReplace2 '\\' 'n' ['\n'] ('\\' :: 't' :: cs.flatMap escChar) =
                '\\' :: 't' :: pyReplace2 '\\' 'n' ['\n'] (cs.flatMap escChar) := by
              rw [pyReplace2_cons_no _ _ _ _ _ (by simp),
                pyReplace2_cons_no _ _ _ _ _ (by simp)]
            simp [escChar, enc1, hstep, ih htl]
          · have hstep : pyReplace2 '\\' 'n' ['\n'] (c :: cs.flatMap escChar) =
                c :: pyReplace2 '\\' 'n' ['\n'] (cs.flatMap escChar) := by
              exact pyReplace2_cons_no _ _ _ _ _ (by simp [h1])
            simp [escChar, enc1, h1, h2, h3, h4, hstep, ih htl]

theorem enc1_ne_nil (c : Char) : enc1 c ≠ [] := by
  by_cases h : c = '\n'
  · simp [enc1, h]
  · simp [enc1, h, escChar_ne_nil]

theorem head_enc1_not_t {d : Char} (hd : d ≠ 't') :
    (enc1 d).head? ≠ some 't' := by
  by_cases h : d = '\n'
  · simp [enc1, h]
  · simp only [enc1, h, if_false]
    exact head_escChar_not (Or.inr rfl) hd

theorem stage2_eq (s : List Char) (h : noBadEsc s = true) :
    pyReplace2 '\\' 't' ['\t'] (s.flatMap enc1) = s.flatMap enc2 := by
  induction s with
  | nil => rfl
  | cons c cs ih =>
    have htl := noBadEsc_tail h
    by_cases h1 : c = '\\'
    · subst h1
      have hhd : (cs.flatMap enc1).head? ≠ some 't' := by
        cases cs with
        | nil => simp
        | cons d ds =>
          have hd := noBadEsc_pair h rfl
          rw [head_flatMap_cons enc1_ne_nil]
          exact head_enc1_not_t hd.2
      have hstep : pyReplace2 '\\' 't' ['\t'] ('\\' :: '\\' :: cs.flatMap enc1) =
          '\\' :: '\\' :: pyReplace2 '\\' 't' ['\t'] (cs.flatMap enc1) := by
        rw [pyReplace2_cons_no _ _ _ _ _ (by simp),
          pyReplace2_cons_no _ _ _ _ _ (by simp [hhd])]
      simp [enc1, enc2, escChar, hstep, ih htl]
    · by_cases h2 : c = '"'
      · subst h2
        have hstep : pyReplace2 '\\' 't' ['\t'] ('\\' :: '"' :: cs.flatMap enc1) =
            '\\' :: '"' :: pyReplace2 '\\' 't' ['\t'] (cs.flatMap enc1) := by
          rw [pyReplace2_cons_no _ _ _ _ _ (by simp),
            pyReplace2_cons_no _ _ _ _ _ (by simp)]
        simp [enc1, enc2, escChar, hstep, ih htl]
      · by_cases h3 : c = '\n'
        · subst h3
          have hstep : pyReplace2 '\\' 't' ['\t'] ('\n' :: cs.flatMap enc1) =
              '\n' :: pyReplace2 '\\' 't' ['\t'] (cs.flatMap enc1) := by
            exact pyReplace2_cons_no _ _ _ _ _ (by simp)
          simp [enc1, enc2, hstep, ih htl]
        · by_cases h4 : c = '\t'
          · subst h4
            have hstep : pyReplace2 '\\' 't' ['\t'] ('\\' :: 't' :: cs.flatMap enc1) =
                '\t' :: pyReplace2 '\\' 't' ['\t'] (cs.flatMap enc1) := by
              simp [pyReplace2]
            simp [enc1, enc2, escChar, hstep, ih htl]
          · have hstep : pyReplace2 '\\' 't' ['\t'] (c :: cs.flatMap enc1) =
                c :: pyReplace2 '\\' 't' ['\t'] (cs.flatMap enc1) := by
              exact pyReplace2_cons_no _ _ _ _ _ (by simp [h1])
            simp [enc1, enc2, escChar, h1, h2, h3, h4, hstep, ih htl]

theorem head_enc2_not_quote (d : Char) : (enc2 d).head? ≠ some '"' := by
  by_cases e0 : d = '\n'
  · simp [enc2, e0]
  · by_cases e5 : d = '\t'
    · simp [enc2, e0, e5]
    · by_cases e1 : d = '\\'
      · simp [enc2, escChar, e0, e5, e1]
      · by_cases e2 : d = '"'
        · simp [enc2, escChar, e0, e5, e1, e2]
        · simp [enc2, escChar, e0, e5, e1, e2]

theorem enc2_ne_nil (c : Char) : enc2 c ≠ [] := by
  by_cases h : c = '\n'
  · simp [enc2, h]
  · by_cases h5 : c = '\t'
    · simp [enc2, h, h5]
    · simp [enc2, h, h5, escChar_ne_nil]

theorem stage3_eq (s : List Char) :
    pyReplace2 '\\' '"' ['"'] (s.flatMap enc2) = s.flatMap enc3 := by
  induction s with
  | nil => rfl
  | cons c cs ih =>
    by_cases h1 : c = '\\'
    · subst h1
      have hhd : (cs.flatMap enc2).head? ≠ some '"' := by
        cases cs with
        | nil => simp
        | cons d ds =>
          rw [head_flatMap_cons enc2_ne_nil]
          exact head_enc2_not_quote d
      have hstep : pyReplace2 '\\' '"' ['"'] ('\\' :: '\\' :: cs.flatMap enc2) =
          '\\' :: '\\' :: pyReplace2 '\\' '"' ['"'] (cs.flatMap enc2) := by
        rw [pyReplace2_cons_no _ _ _ _ _ (by simp),
          pyReplace2_cons_no _ _ _ _ _ (by simp [hhd])]
      simp [enc2, enc3, escChar, hstep, ih]
    · by_cases h2 : c = '"'
      · subst h2
        have hstep : pyReplace2 '\\' '"' ['"'] ('\\' :: '"' :: cs.flatMap enc2) =
            '"' :: pyReplace2 '\\' '"' ['"'] (cs.flatMap enc2) := by
          simp [pyReplace2]
        simp [enc2, enc3, escChar, hstep, ih]
      · by_cases h3 : c = '\n'
        · subst h3
          have hstep : pyReplace2 '\\' '"' ['"'] ('\n' :: cs.flatMap enc2) =
              '\n' :: pyReplace2 '\\' '"' ['"'] (cs.flatMap enc2) := by
            exact pyReplace2_cons_no _ _ _ _ _ (by simp)
          simp [enc2, enc3, hstep, ih]
        · by_cases h4 : c = '\t'
          · subst h4
            have hstep : pyReplace2 '\\' '"' ['"'] ('\t' :: cs.flatMap enc2) =
                '\t' :: pyReplace2 '\\' '"' ['"'] (cs.flatMap enc2) := by
              exact pyReplace2_cons_no _ _ _ _ _ (by simp)
            simp [enc2, enc3, hstep, ih]
          · have hstep : pyReplace2 '\\' '"' ['"'] (c :: cs.flatMap enc2) =
                c :: pyReplace2 '\\' '"' ['"'] (cs.flatMap enc2) := by
              exact pyReplace2_cons_no _ _ _ _ _ (by simp [h1])
            simp [enc2, enc3, escChar, h1, h2, h3, h4, hstep, ih]

theorem stage4_eq (s : List Char) :
    pyReplace2 '\\' '\\' ['\\'] (s.flatMap enc3) = s := by
  induction s with
  | nil => rfl
  | cons c cs ih =>
    by_cases h1 : c = '\\'
    · subst h1
      have hstep : pyReplace2 '\\' '\\' ['\\'] ('\\' :: '\\' :: cs.flatMap enc3) =
          '\\' :: pyReplace2 '\\' '\\' ['\\'] (cs.flatMap enc3) := by
        simp [pyReplace2]
      simp [enc3, hstep, ih]
    · have hstep : pyReplace2 '\\' '\\' ['\\'] (c :: cs.flatMap enc3) =
          c :: pyReplace2 '\\' '\\' ['\\'] (cs.flatMap enc3) := by
        exact pyReplace2_cons_no _ _ _ _ _ (by simp [h1])
      simp [enc3, h1, hstep, ih]

/-- The codec theorem: unescape undoes escape on every escape-safe string
(no backslash immediately followed by the letter n or t). -/
theorem unescape_escape (s : List Char) (h : noBadEsc s = true) :
    unescape (escape s) = s := by
  rw [escape_eq_flatMap]
  show pyReplace2 '\\' '\\' ['\\']
    (pyReplace2 '\\' '"' ['"']
      (pyReplace2 '\\' 't' ['\t']
        (pyReplace2 '\\' 'n' ['\n'] (s.flatMap escChar)))) = s
  rw [stage1_eq s h, stage2_eq s h, stage3_eq s, stage4_eq s]

theorem dropWhile_eq_self_of_head {p : Char → Bool} {s : List Char}
    (h : ∀ x, s.head? = some x → p x = false) : s.dropWhile p = s := by
  cases s with
  | nil => rfl
  | cons c cs => simp [List.dropWhile, h c rfl]

theorem stripRight_eq_self {s : List Char}
    (h : ∀ x, s.getLast? = some x → pyWs x = false) : stripRight s = s := by
  unfold stripRight
  rw [dropWhile_eq_self_of_head, List.reverse_reverse]
  intro x hx
  rw [List.head?_reverse] at hx
  exact h x hx

theorem pyStrip_eq_self {s : List Char}
    (hh : ∀ x, s.head? = some x → pyWs x = false)
    (hl : ∀ x, s.getLast? = some x → pyWs x = false) : pyStrip s = s := by
  unfold pyStrip
  rw [stripRight_eq_self hl]
  exact dropWhile_eq_self_of_head hh

theorem stripRight_cons_of_ne {c : Char} {s : List Char}
    (h : stripRight s ≠ []) : stripRight (c :: s) = c :: stripRight s := by
  unfold stripRight at *
  rw [List.reverse_cons, List.dropWhile_append]
  have he : (List.dropWhile pyWs s.reverse).isEmpty = false := by
    cases hd : List.dropWhile pyWs s.reverse with
    | nil => exact absurd (by rw [hd]; rfl) h
    | cons _ _ => rfl
  simp [he]

theorem stripRight_cons_of_nil {c : Char} {s : List Char}
    (h : stripRight s = []) :
    stripRight (c :: s) = if pyWs c then [] else [c] := by
  unfold stripRight at *
  rw [List.reverse_cons, List.dropWhile_append]
  have he : (List.dropWhile pyWs s.reverse).isEmpty = true := by
    cases hd : List.dropWhile pyWs s.reverse with
    | nil => rfl
    | cons x xs => rw [hd] at h; simp at h
  by_cases hc : pyWs c <;> simp [he, List.dropWhile, hc]

theorem stripRight_append_single_ws {s : List Char} {c : Char}
    (hc : pyWs c = true) : stripRight (s ++ [c]) = stripRight s := by
  unfold stripRight
  rw [List.reverse_append]
  simp [List.dropWhile, hc]

theorem dropWhile_eq_nil_all {p : Char → Bool} :
    ∀ {s : List Char}, s.dropWhile p = [] → ∀ c ∈ s, p c = true := by
  intro s
  induction s with
  | nil =>
    intro _ c hc
    cases hc
  | cons x xs ih =>
    intro h c hc
    by_cases hx : p x
    · rcases List.mem_cons.mp hc with hc1 | hc1
      · rw [hc1]; exact hx
      · exact ih (by simpa [List.dropWhile_cons, hx] using h) _ hc1
    · rw [List.dropWhile_cons_of_neg (by simpa using hx)] at h
      cases h

theorem stripRight_ne_nil_of_mem {s : List Char} {c : Char}
    (hc : c ∈ s) (hw : pyWs c = false) : stripRight s ≠ [] := by
  intro h
  unfold stripRight at h
  have h2 : List.dropWhile pyWs s.reverse = [] := by
    cases hd : List.dropWhile pyWs s.reverse with
    | nil => rfl
    | cons x xs => rw [hd] at h; simp at h
  have := dropWhile_eq_nil_all h2 c (by simpa using hc)
  rw [hw] at this
  cases this

theorem head_dropWhile_false {p : Char → Bool} (s : List Char) :
    ∀ x, (s.dropWhile p).head? = some x → p x = false := by
  induction s with
  | nil => intro x hx; cases hx
  | cons c cs ih =>
    intro x hx
    by_cases hc : p c
    · exact ih x (by simpa [List.dropWhile, hc] using hx)
    · rw [List.dropWhile_cons_of_neg (by simpa using hc)] at hx
      cases hx
      simpa using hc

theorem head_pyStrip_false (s : List Char) :
    ∀ x, (pyStrip s).head? = some x → pyWs x = false := by
  intro x hx
  exact head_dropWhile_false (stripRight s) x hx

theorem getLast_stripRight_false (s : List Char) :
    ∀ x, (stripRight s).getLast? = some x → pyWs x = false := by
  intro x hx
  unfold stripRight at hx
  rw [List.getLast?_reverse] at hx
  exact head_dropWhile_false s.reverse x hx

theorem dropWhile_suffix_aux {p : Char → Bool} (s : List Char) :
    ∃ t, s = t ++ s.dropWhile p := by
  induction s with
  | nil => exact ⟨[], rfl⟩
  | cons c cs ih =>
    by_cases hc : p c
    · rcases ih with ⟨t, ht⟩
      exact ⟨c :: t, by simpa [List.dropWhile, hc] using congrArg (c :: ·) ht⟩
    · exact ⟨[], by simp [List.dropWhile, hc]⟩

theorem getLast_append_ne_nil {a b : List Char} (h : b ≠ []) :
    (a ++ b).getLast? = b.getLast? := by
  induction a with
  | nil => rfl
  | cons x xs ih =>
    rw [List.cons_append, List.getLast?_cons, ih]
    cases b with
    | nil => exact absurd rfl h
    | cons y ys => simp [List.getLast?_cons]

theorem getLast_pyStrip_false (s : List Char) :
    ∀ x, (pyStrip s).getLast? = some x → pyWs x = false := by
  intro x hx
  unfold pyStrip at hx
  rcases dropWhile_suffix_aux (p := pyWs) (stripRight s) with ⟨t, ht⟩
  have hne : (stripRight s).dropWhile pyWs ≠ [] := by
    intro h0
    rw [h0] at hx
    cases hx
  have : (stripRight s).getLast? = some x := by
    rw [ht, getLast_append_ne_nil hne]
    exact hx
  exact getLast_stripRight_false s x this

theorem pyStrip_idem (s : List Char) : pyStrip (pyStrip s) = pyStrip s :=
  pyStrip_eq_self (head_pyStrip_false s) (getLast_pyStrip_false s)

theorem stripRight_of_pyStrip_self {s : List Char} (h : pyStrip s = s) :
    stripRight s = s := by
  apply stripRight_eq_self
  intro x hx
  exact getLast_pyStrip_false s x (by rwa [h])

theorem dropWhile_of_pyStrip_self {s : List Char} (h : pyStrip s = s) :
    s.dropWhile pyWs = s := by
  apply dropWhile_eq_self_of_head
  intro x hx
  exact head_pyStrip_false s x (by rwa [h])

theorem pyStrip_cons_ws {c : Char} {s : List Char} (hc : pyWs c = true) :
    pyStrip (c :: s) = pyStrip s := by
  by_cases h : stripRight s = []
  · unfold pyStrip
    rw [stripRight_cons_of_nil h, h]
    simp [hc, List.dropWhile]
  · unfold pyStrip
    rw [stripRight_cons_of_ne h]
    simp [List.dropWhile, hc]

theorem mem_dropWhile {p : Char → Bool} {s : List Char} {c : Char}
    (h : c ∈ s.dropWhile p) : c ∈ s := by
  rcases dropWhile_suffix_aux (p := p) s with ⟨t, ht⟩
  rw [ht]
  exact List.mem_append_right t h

theorem mem_stripRight {s : List Char} {c : Char}
    (h : c ∈ stripRight s) : c ∈ s := by
  unfold stripRight at h
  rw [List.mem_reverse] at h
  simpa using mem_dropWhile h

theorem mem_pyStrip {s : List Char} {c : Char} (h : c ∈ pyStrip s) : c ∈ s :=
  mem_stripRight (mem_dropWhile h)

theorem splitOnChar_ne_nil (sep : Char) (s : List Char) :
    splitOnChar sep s ≠ [] := by
  unfold splitOnChar
  suffices h : ∀ acc, splitOnCharGo sep acc s ≠ [] from h []
  induction s with
  | nil =>
    intro acc h
    cases h
  | cons c cs ih =>
    intro acc
    by_cases hc : c = sep <;> simp [splitOnCharGo, hc, ih]

theorem splitOnCharGo_eq (sep : Char) (s : List Char) : ∀ acc,
    splitOnCharGo sep acc s =
      (acc.reverse ++ (splitOnChar sep s).headI) :: (splitOnChar sep s).tail := by
  induction s with
  | nil =>
    intro acc
    simp [splitOnChar, splitOnCharGo]
  | cons c cs ih =>
    intro acc
    by_cases hc : c = sep
    · simp [splitOnChar, splitOnCharGo, hc]
    · have h1 := ih (c :: acc)
      have h2 := ih [c]
      simp only [splitOnCharGo, if_neg hc]
      rw [h1]
      have : splitOnChar sep (c :: cs) =
          (c :: (splitOnChar sep cs).headI) :: (splitOnChar sep cs).tail := by
        unfold splitOnChar
        simp only [splitOnCharGo, if_neg hc]
        simpa using h2
      rw [this]
      simp

theorem splitOnChar_cons_sep (sep : Char) (s : List Char) :
    splitOnChar sep (sep :: s) = [] :: splitOnChar sep s := by
  unfold splitOnChar
  simp [splitOnCharGo]

theorem splitOnChar_cons_ne {sep c : Char} (s : List Char) (hc : c ≠ sep) :
    splitOnChar sep (c :: s) =
      (c :: (splitOnChar sep s).headI) :: (splitOnChar sep s).tail := by
  unfold splitOnChar
  simp only [splitOnCharGo, if_neg hc]
  simpa using splitOnCharGo_eq sep s [c]

theorem splitOnChar_no_sep {sep : Char} {a : List Char}
    (h : ∀ c ∈ a, c ≠ sep) : splitOnChar sep a = [a] := by
  induction a with
  | nil => rfl
  | cons c cs ih =>
    have hc : c ≠ sep := h c (by simp)
    rw [splitOnChar_cons_ne cs hc, ih (fun x hx => h x (by simp [hx]))]
    simp

theorem splitOnChar_append_sep {sep : Char} {a : List Char} (s : List Char)
    (h : ∀ c ∈ a, c ≠ sep) :
    splitOnChar sep (a ++ sep :: s) = a :: splitOnChar sep s := by
  induction a with
  | nil => simpa using splitOnChar_cons_sep sep s
  | cons c cs ih =>
    have hc : c ≠ sep := h c (by simp)
    rw [List.cons_append, splitOnChar_cons_ne _ hc,
      ih (fun x hx => h x (by simp [hx]))]
    simp

theorem headI_mem {l : List (List Char)} (h : l ≠ []) : l.headI ∈ l := by
  cases l with
  | nil => exact absurd rfl h
  | cons x xs => simp [List.headI]

theorem mem_splitOnChar_no_sep {sep : Char} :
    ∀ {s p : List Char}, p ∈ splitOnChar sep s → sep ∉ p := by
  intro s
  induction s with
  | nil =>
    intro p hp
    simp [splitOnChar, splitOnCharGo] at hp
    simp [hp]
  | cons c cs ih =>
    intro p hp
    by_cases hc : c = sep
    · subst hc
      rw [splitOnChar_cons_sep] at hp
      rcases List.mem_cons.mp hp with h1 | h1
      · simp [h1]
      · exact ih h1
    · rw [splitOnChar_cons_ne cs hc] at hp
      rcases List.mem_cons.mp hp with h1 | h1
      · subst h1
        intro hmem
        rcases List.mem_cons.mp hmem with h2 | h2
        · exact hc h2.symm
        · exact ih (headI_mem (splitOnChar_ne_nil sep cs)) h2
      · have : p ∈ splitOnChar sep cs := by
          cases hsp : splitOnChar sep cs with
          | nil => exact absurd hsp (splitOnChar_ne_nil sep cs)
          | cons x xs =>
            rw [hsp] at h1
            simp only [List.tail_cons] at h1
            simp [hsp, h1]
        exact ih this

theorem joinSep_cons (sep : List Char) (l : List Char) {ls : List (List Char)}
    (h : ls ≠ []) : joinSep sep (l :: ls) = l ++ sep ++ joinSep sep ls := by
  cases ls with
  | nil => exact absurd rfl h
  | cons x xs => rfl

theorem joinSep_append (sep : List Char) {a b : List (List Char)}
    (ha : a ≠ []) (hb : b ≠ []) :
    joinSep sep (a ++ b) = joinSep sep a ++ sep ++ joinSep sep b := by
  induction a with
  | nil => exact absurd rfl ha
  | cons x xs ih =>
    cases xs with
    | nil =>
      rw [List.cons_append, List.nil_append, joinSep_cons sep x hb]
      rfl
    | cons y ys =>
      rw [List.cons_append,
        joinSep_cons sep x (by simp : (y :: ys) ++ b ≠ []),
        joinSep_cons sep x (by simp : (y :: ys : List (List Char)) ≠ []),
        ih (by simp)]
      simp

theorem splitOnChar_joinSep {sep : Char} :
    ∀ {L : List (List Char)}, L ≠ [] → (∀ l ∈ L, sep ∉ l) →
      splitOnChar sep (joinSep [sep] L) = L := by
  intro L
  induction L with
  | nil => intro h; exact absurd rfl h
  | cons l ls ih =>
    intro _ hsep
    cases ls with
    | nil =>
      show splitOnChar sep l = [l]
      exact splitOnChar_no_sep (fun c hc hceq => hsep l (by simp) (by rwa [hceq] at hc))
    | cons m ms =>
      rw [joinSep_cons [sep] l (by simp)]
      have : l ++ [sep] ++ joinSep [sep] (m :: ms) =
          l ++ sep :: joinSep [sep] (m :: ms) := by simp
      rw [this,
        splitOnChar_append_sep _ (fun c hc hceq => hsep l (by simp) (by rwa [hceq] at hc)),
        ih (by simp) (fun x hx => hsep x (by simp [hx]))]

/-- No two consecutive newline characters. -/
def noDoubleNl : List Char → Bool
  | [] => true
  | [_] => true
  | a :: b :: rest => (!(a = '\n' && b = '\n')) && noDoubleNl (b :: rest)

theorem noDoubleNl_tail {c : Char} {s : List Char}
    (h : noDoubleNl (c :: s) = true) : noDoubleNl s = true := by
  cases s with
  | nil => rfl
  | cons d ds =>
    have := h
    simp only [noDoubleNl, Bool.and_eq_true] at this
    exact this.2

theorem noDoubleNl_pair {c d : Char} {s : List Char}
    (h : noDoubleNl (c :: d :: s) = true) : ¬(c = '\n' ∧ d = '\n') := by
  simp only [noDoubleNl, Bool.and_eq_true, Bool.not_eq_true',
    Bool.and_eq_false_iff] at h
  intro hx
  rcases h.1 with h1 | h1
  · exact absurd hx.1 (by simpa using h1)
  · exact absurd hx.2 (by simpa using h1)

theorem noDoubleNl_of_no_nl {s : List Char} (h : '\n' ∉ s) :
    noDoubleNl s = true := by
  induction s with
  | nil => rfl
  | cons c cs ih =>
    cases cs with
    | nil => rfl
    | cons d ds =>
      have hc : ¬ c = '\n' := fun hx => h (by simp [hx])
      simp only [noDoubleNl, Bool.and_eq_true]
      exact ⟨by simp [hc], ih (fun hx => h (List.mem_cons_of_mem c hx))⟩

theorem noDoubleNl_append {a b : List Char} (ha : noDoubleNl a = true)
    (hb : noDoubleNl b = true)
    (hab : ¬(a.getLast? = some '\n' ∧ b.head? = some '\n')) :
    noDoubleNl (a ++ b) = true := by
  induction a with
  | nil => simpa using hb
  | cons x xs ih =>
    cases xs with
    | nil =>
      cases b with
      | nil => rfl
      | cons y ys =>
        simp only [List.singleton_append, noDoubleNl, Bool.and_eq_true]
        refine ⟨?_, hb⟩
        simp only [List.getLast?_singleton, List.head?_cons] at hab
        by_cases hx : x = '\n'
        · by_cases hy : y = '\n'
          · exact absurd ⟨by simp [hx], by simp [hy]⟩ hab
          · simp [hy]
        · simp [hx]
    | cons z zs =>
      have hpair := noDoubleNl_pair ha
      simp only [List.cons_append, noDoubleNl, Bool.and_eq_true]
      constructor
      · by_cases hx : x = '\n'
        · by_cases hz : z = '\n'
          · exact absurd ⟨hx, hz⟩ hpair
          · simp [hz]
        · simp [hx]
      · have hlast : (z :: zs).getLast? = (x :: z :: zs).getLast? := by
          simp [List.getLast?_cons]
        exact ih (noDoubleNl_tail ha) (by rw [hlast]; exact hab)

theorem sbGo_false_step {c : Char} {cs : List Char} (acc : List Char)
    (h : ¬(c = '\n' ∧ cs.head? = some '\n')) :
    sbGo false acc (c :: cs) = sbGo false (c :: acc) cs := by
  cases cs with
  | nil => rfl
  | cons d ds =>
    have h2 : ¬(c = '\n' ∧ d = '\n') := by
      intro hx
      exact h ⟨hx.1, by simp [hx.2]⟩
    simp [sbGo, h2]

theorem sbGo_true_nl (acc : List Char) (cs : List Char) :
    sbGo true acc ('\n' :: cs) = sbGo true acc cs := by
  simp [sbGo]

theorem sbGo_true_step {c : Char} (acc : List Char) (cs : List Char)
    (h : ¬ c = '\n') : sbGo true acc (c :: cs) = sbGo false (c :: acc) cs := by
  simp [sbGo, h]

theorem sbGo_false_sep (acc : List Char) (r : List Char) :
    sbGo false acc ('\n' :: '\n' :: r) = acc.reverse :: sbGo true [] r := by
  simp [sbGo]

theorem sbGo_true_start {r : List Char} (h : r.head? ≠ some '\n') :
    sbGo true [] r = splitBlocks r := by
  cases r with
  | nil => rfl
  | cons c r' =>
    have hc : ¬ c = '\n' := fun hx => h (by simp [hx])
    rw [sbGo_true_step [] r' hc]
    unfold splitBlocks
    rw [sbGo_false_step [] (by simp [hc])]

theorem sb_block {b : List Char} (hb : noDoubleNl (b ++ ['\n']) = true) :
    ∀ (acc r : List Char), r.head? ≠ some '\n' →
      sbGo false acc (b ++ '\n' :: '\n' :: r) =
        (acc.reverse ++ b) :: splitBlocks r := by
  induction b with
  | nil =>
    intro acc r hr
    rw [List.nil_append, sbGo_false_sep, sbGo_true_start hr]
    simp
  | cons c b' ih =>
    intro acc r hr
    have hstep : ¬(c = '\n' ∧ (b' ++ '\n' :: '\n' :: r).head? = some '\n') := by
      cases b' with
      | nil =>
        intro hx
        have hp := noDoubleNl_pair (by simpa using hb)
        exact hp ⟨hx.1, rfl⟩
      | cons d ds =>
        intro hx
        have hp := noDoubleNl_pair (by simpa using hb)
        exact hp ⟨hx.1, by simpa using hx.2⟩
    rw [List.cons_append, sbGo_false_step acc hstep,
      ih (by simpa using noDoubleNl_tail (by simpa using hb)) (c :: acc) r hr]
    simp

theorem stripRight_nil : stripRight [] = [] := rfl

theorem pyStrip_nil : pyStrip [] = [] := rfl

theorem stripRight_append_of_ne {a b : List Char} (h : stripRight b ≠ []) :
    stripRight (a ++ b) = a ++ stripRight b := by
  induction a with
  | nil => rfl
  | cons c a' ih =>
    rw [List.cons_append, stripRight_cons_of_ne (by rw [ih]; simp [h]), ih]
    rfl

theorem dropWhile_all_true {p : Char → Bool} :
    ∀ {l : List Char}, (∀ c ∈ l, p c = true) → l.dropWhile p = [] := by
  intro l
  induction l with
  | nil => intro _; rfl
  | cons c cs ih =>
    intro h
    rw [List.dropWhile_cons_of_pos (by simpa using h c (by simp))]
    exact ih (fun x hx => h x (by simp [hx]))

theorem stripRight_all_ws {s : List Char} (h : ∀ c ∈ s, pyWs c = true) :
    stripRight s = [] := by
  unfold stripRight
  rw [dropWhile_all_true (fun c hc => h c (by simpa using hc))]
  rfl

theorem pyStrip_head_nonws {s : List Char} {c : Char} (h : s.head? = some c)
    (hc : pyWs c = false) : pyStrip s = stripRight s := by
  cases s with
  | nil => cases h
  | cons x s' =>
    have hx : x = c := by
      injection h
    subst hx
    unfold pyStrip
    by_cases h0 : stripRight s' = []
    · rw [stripRight_cons_of_nil h0]
      simp [hc, List.dropWhile]
    · rw [stripRight_cons_of_ne h0]
      simp [List.dropWhile, hc]

theorem map_pyStrip_split_cons_ws {sep c : Char} (s : List Char)
    (hw : pyWs c = true) (hc : c ≠ sep) :
    ((splitOnChar sep (c :: s)).map pyStrip) =
      ((splitOnChar sep s).map pyStrip) := by
  rw [splitOnChar_cons_ne s hc]
  cases hs : splitOnChar sep s with
  | nil => exact absurd hs (splitOnChar_ne_nil sep s)
  | cons h r =>
    simp only [hs, List.headI, List.tail_cons, List.map_cons]
    rw [pyStrip_cons_ws hw]

theorem stripRight_idem (s : List Char) : stripRight (stripRight s) = stripRight s :=
  stripRight_eq_self (getLast_stripRight_false s)

theorem pyStrip_stripRight (s : List Char) : pyStrip (stripRight s) = pyStrip s := by
  unfold pyStrip
  rw [stripRight_idem]

theorem head_mem_joinSep {u : List Char} {x : Char} (sep : List Char)
    (us : List (List Char)) (hu : u.head? = some x) :
    x ∈ joinSep sep (u :: us) := by
  cases u with
  | nil => cases hu
  | cons y u' =>
    have hx : y = x := by injection hu
    cases us with
    | nil =>
      rw [← hx]
      simp [joinSep]
    | cons v vs =>
      rw [joinSep_cons sep (y :: u') (show (v :: vs : List (List Char)) ≠ [] by simp), ← hx]
      simp

/-- The flags-line core round trip: stripping and re-splitting the
comma-space join recovers the exact token list, provided tokens are stripped
and comma-free. -/
theorem flags_core_sr : ∀ (ts : List (List Char)), ts ≠ [] →
    (∀ t ∈ ts, pyStrip t = t ∧ (',' : Char) ∉ t) →
    ((splitOnChar ',' (stripRight (joinSep [',', ' '] ts))).map pyStrip) = ts := by
  intro ts
  induction ts with
  | nil => intro h; exact absurd rfl h
  | cons t ts' ih =>
    intro _ hwf
    have hwt := hwf t (by simp)
    have hts : pyStrip t = t := hwt.1
    have htc : (',' : Char) ∉ t := hwt.2
    cases ts' with
    | nil =>
      show ((splitOnChar ',' (stripRight t)).map pyStrip) = [t]
      rw [stripRight_of_pyStrip_self hts,
        splitOnChar_no_sep (fun c hc hceq => htc (by rwa [hceq] at hc))]
      simp [hts]
    | cons u us =>
      have hJ : joinSep [',', ' '] (t :: u :: us) =
          t ++ ',' :: ' ' :: joinSep [',', ' '] (u :: us) := by
        rw [joinSep_cons [',', ' '] t (by simp)]
        simp
      set J2 := joinSep [',', ' '] (u :: us) with hJ2
      by_cases hX : stripRight J2 = []
      · -- the tail join strips to nothing: only possible when the tail is
        -- the single empty token
        have hu : u = [] := by
          cases hu0 : u with
          | nil => rfl
          | cons y u' =>
            exfalso
            have hyin : y ∈ J2 := by
              rw [hJ2]
              exact head_mem_joinSep [',', ' '] us (by simp [hu0])
            have hstr : pyStrip u = u := (hwf u (by simp)).1
            have hy : pyWs y = false := by
              apply head_pyStrip_false u
              rw [hstr, hu0]
              rfl
            exact stripRight_ne_nil_of_mem hyin hy hX
        have hus : us = [] := by
          cases hus0 : us with
          | nil => rfl
          | cons v vs =>
            exfalso
            have hcomma : (',' : Char) ∈ J2 := by
              rw [hJ2, hu, joinSep_cons [',', ' '] [] (by simp [hus0])]
              simp
            exact stripRight_ne_nil_of_mem hcomma (by decide) hX
        subst hu
        subst hus
        have hJ' : joinSep [',', ' '] (t :: [[]]) = t ++ [','] ++ [' '] := by
          simp [joinSep]
        rw [hJ', stripRight_append_single_ws (by decide)]
        have hsr : stripRight (t ++ [',']) = t ++ [','] := by
          apply stripRight_eq_self
          intro x hx
          rw [getLast_append_ne_nil (by simp)] at hx
          simp only [List.getLast?_singleton, Option.some.injEq] at hx
          rw [← hx]
          decide
        rw [hsr]
        have : t ++ [','] = t ++ ',' :: ([] : List Char) := by simp
        rw [this, splitOnChar_append_sep _
          (fun c hc hceq => htc (by rwa [hceq] at hc))]
        simp [hts, splitOnChar, splitOnCharGo, pyStrip_nil]
      · -- main case: the tail join survives stripping
        have h1 : stripRight (' ' :: J2) = ' ' :: stripRight J2 :=
          stripRight_cons_of_ne hX
        have h2 : stripRight (',' :: ' ' :: J2) = ',' :: ' ' :: stripRight J2 := by
          rw [stripRight_cons_of_ne (by rw [h1]; simp), h1]
        have h3 : stripRight (t ++ ',' :: ' ' :: J2) =
            t ++ ',' :: ' ' :: stripRight J2 := by
          rw [stripRight_append_of_ne (by rw [h2]; simp), h2]
        rw [hJ, h3]
        have h4 : t ++ ',' :: ' ' :: stripRight J2 =
            t ++ ',' :: (' ' :: stripRight J2) := by simp
        rw [h4, splitOnChar_append_sep _
          (fun c hc hceq => htc (by rwa [hceq] at hc))]
        rw [List.map_cons, hts,
          map_pyStrip_split_cons_ws _ (by decide) (by decide)]
        rw [ih (by simp) (fun x hx => hwf x (by simp [hx]))]

theorem flags_core (ts : List (List Char)) (hne : ts ≠ [])
    (hwf : ∀ t ∈ ts, pyStrip t = t ∧ (',' : Char) ∉ t) :
    ((splitOnChar ',' (pyStrip (joinSep [',', ' '] ts))).map pyStrip) = ts := by
  cases ts with
  | nil => exact absurd rfl hne
  | cons t ts' =>
    by_cases ht : t = []
    · cases ts' with
      | nil =>
        subst ht
        simp [joinSep, pyStrip_nil, splitOnChar, splitOnCharGo]
      | cons u us =>
        subst ht
        have hJ : joinSep [',', ' '] (([] : List Char) :: u :: us) =
            ',' :: ' ' :: joinSep [',', ' '] (u :: us) := by
          rw [joinSep_cons [',', ' '] [] (show (u :: us : List (List Char)) ≠ [] by simp)]
          simp
        have hh : (joinSep [',', ' '] (([] : List Char) :: u :: us)).head? = some ',' := by
          rw [hJ]
          rfl
        rw [pyStrip_head_nonws hh (by decide)]
        exact flags_core_sr _ (by simp) hwf
    · cases t with
      | nil => exact absurd rfl ht
      | cons y t' =>
        have hts : pyStrip (y :: t') = y :: t' := (hwf _ (by simp)).1
        have hy : pyWs y = false := by
          apply head_pyStrip_false (y :: t')
          rw [hts]
          rfl
        have hhead : (joinSep [',', ' '] ((y :: t') :: ts')).head? = some y := by
          cases ts' with
          | nil => rfl
          | cons u us =>
            rw [joinSep_cons [',', ' '] (y :: t')
              (show (u :: us : List (List Char)) ≠ [] by simp)]
            simp
        rw [pyStrip_head_nonws hhead hy]
        exact flags_core_sr _ (by simp) hwf

theorem lastQuoteSplit_append (t : List Char) :
    lastQuoteSplit (t ++ ['"']) = some t := by
  unfold lastQuoteSplit
  rw [List.reverse_append]
  simp [List.dropWhile]

/-- Stripping a saved key line is the identity: it begins with the letter m
and ends with a double quote. -/
theorem pyStrip_keyLine (key : List Char) (v : List Char)
    (hk : ∃ c, key.head? = some c ∧ pyWs c = false) :
    pyStrip (keyLine key v) = keyLine key v := by
  rcases hk with ⟨c, hc1, hc2⟩
  apply pyStrip_eq_self
  · intro x hx
    cases key with
    | nil => cases hc1
    | cons k ks =>
      have hk : k = c := by injection hc1
      have hxk : x = k := by
        have hhd : (keyLine (k :: ks) v).head? = some k := by simp [keyLine]
        have h2 := hhd.symm.trans hx
        injection h2 with h3
        exact h3.symm
      rw [hxk, hk]
      exact hc2
  · intro x hx
    have he : keyLine key v = (key ++ ' ' :: '"' :: escape v) ++ ['"'] := by
      simp [keyLine]
    rw [he, getLast_append_ne_nil (by simp)] at hx
    simp only [List.getLast?_singleton, Option.some.injEq] at hx
    rw [← hx]
    decide

theorem parseLine_comment (st : BlockState) (c : List Char)
    (h1 : ['#'].isPrefixOf c = true) (h2 : ['#', ','].isPrefixOf c = false) :
    parseLine st c =
      { st with entry :=
          { st.entry with comments := st.entry.comments ++ [c] } } := by
  simp [parseLine, h1, h2]

theorem parseLine_flags (st : BlockState) (ts : List (List Char))
    (hne : ts ≠ [])
    (hwf : ∀ t ∈ ts, pyStrip t = t ∧ (',' : Char) ∉ t) :
    parseLine st (pyStrip (flagsLineOf ts)) =
      { st with entry := { st.entry with flags := ts } } := by
  have hh : (flagsLineOf ts).head? = some '#' := rfl
  rw [pyStrip_head_nonws hh (by decide)]
  set J := joinSep [',', ' '] ts with hJdef
  have hfl : flagsLineOf ts = '#' :: ',' :: ' ' :: J := rfl
  by_cases hS : stripRight (' ' :: J) = []
  · -- the join strips to nothing: the token list is the single empty token
    have hts : ts = [[]] := by
      cases ts with
      | nil => exact absurd rfl hne
      | cons t ts' =>
        have ht : t = [] := by
          cases ht0 : t with
          | nil => rfl
          | cons y t' =>
            exfalso
            have hyin : y ∈ ' ' :: J := by
              rw [hJdef]
              exact List.mem_cons_of_mem _
                (head_mem_joinSep [',', ' '] ts' (by simp [ht0]))
            have hstr : pyStrip t = t := (hwf t (by simp)).1
            have hy : pyWs y = false := by
              apply head_pyStrip_false t
              rw [hstr, ht0]
              rfl
            exact stripRight_ne_nil_of_mem hyin hy hS
        have hts' : ts' = [] := by
          cases hts0 : ts' with
          | nil => rfl
          | cons v vs =>
            exfalso
            have hcomma : (',' : Char) ∈ ' ' :: J := by
              rw [hJdef, ht, hts0, joinSep_cons [',', ' '] []
                (show (v :: vs : List (List Char)) ≠ [] by simp)]
              simp
            exact stripRight_ne_nil_of_mem hcomma (by decide) hS
        rw [ht, hts']
    subst hts
    have hsr : stripRight (flagsLineOf [[]]) = ['#', ','] := by decide
    rw [hsr]
    simp [parseLine, List.isPrefixOf, pyStrip_nil, splitOnChar, splitOnCharGo]
  · have hsr : stripRight ('#' :: ',' :: ' ' :: J) =
        '#' :: ',' :: stripRight (' ' :: J) := by
      rw [stripRight_cons_of_ne (by rw [stripRight_cons_of_ne hS]; simp),
        stripRight_cons_of_ne hS]
    rw [hfl, hsr]
    have hpre1 : (['#'] : List Char).isPrefixOf
        ('#' :: ',' :: stripRight (' ' :: J)) = true := by
      simp [List.isPrefixOf]
    have hpre2 : (['#', ','] : List Char).isPrefixOf
        ('#' :: ',' :: stripRight (' ' :: J)) = true := by
      simp [List.isPrefixOf]
    simp only [parseLine, hpre1, hpre2, if_true, List.drop_succ_cons,
      List.drop_zero]
    have hps : pyStrip (stripRight (' ' :: J)) = pyStrip J := by
      rw [pyStrip_stripRight, pyStrip_cons_ws (by decide)]
    rw [hps, flags_core ts hne hwf]

theorem matchWsQuoted_std (v : List Char) :
    matchWsQuoted (' ' :: '"' :: (escape v ++ ['"'])) = some (escape v) := by
  simp only [matchWsQuoted]
  rw [if_pos (by decide)]
  rw [List.dropWhile_cons_of_neg (by decide)]
  exact lastQuoteSplit_append (escape v)

theorem parseLine_msgid (st : BlockState) (v : List Char)
    (hv : noBadEsc v = true) :
    parseLine st (keyLine msgidKey v) =
      { entry := { st.entry with msgid := v }, currentKey := some msgidKey } := by
  have hkl : keyLine msgidKey v =
      'm' :: 's' :: 'g' :: 'i' :: 'd' :: ' ' :: '"' :: (escape v ++ ['"']) := by
    simp [keyLine, msgidKey]
  rw [hkl]
  have hfind : poKeys.find?
      (fun k => k.isPrefixOf
        ('m' :: 's' :: 'g' :: 'i' :: 'd' :: ' ' :: '"' :: (escape v ++ ['"']))) =
      some msgidKey := by
    simp [poKeys, msgctxtKey, msgidKey, List.isPrefixOf]
  have hmatch : matchKeyVal msgidKey
      ('m' :: 's' :: 'g' :: 'i' :: 'd' :: ' ' :: '"' :: (escape v ++ ['"'])) =
      some ([], escape v) := by
    unfold matchKeyVal
    rw [if_pos (by simp [msgidKey, List.isPrefixOf])]
    show (match matchWsQuoted (takeIdxSuffix _).2 with
      | some w => some ((takeIdxSuffix _).1, w)
      | none => none) = _
    have hd : (('m' :: 's' :: 'g' :: 'i' :: 'd' :: ' ' :: '"' ::
        (escape v ++ ['"'])).drop msgidKey.length) =
        ' ' :: '"' :: (escape v ++ ['"']) := by
      simp [msgidKey]
    rw [hd]
    have hsuf : takeIdxSuffix (' ' :: '"' :: (escape v ++ ['"'])) =
        ([], ' ' :: '"' :: (escape v ++ ['"'])) := rfl
    rw [hsuf, matchWsQuoted_std]
  simp only [parseLine, List.isPrefixOf, hfind, hmatch]
  simp [unescape_escape v hv, msgidKey, msgctxtKey, msgstrKey]

theorem parseLine_msgstr (st : BlockState) (v : List Char)
    (hv : noBadEsc v = true) :
    parseLine st (keyLine msgstrKey v) =
      { entry := { st.entry with msgstr := v }, currentKey := some msgstrKey } := by
  have hkl : keyLine msgstrKey v =
      'm' :: 's' :: 'g' :: 's' :: 't' :: 'r' :: ' ' :: '"' :: (escape v ++ ['"']) := by
    simp [keyLine, msgstrKey]
  rw [hkl]
  have hfind : poKeys.find?
      (fun k => k.isPrefixOf
        ('m' :: 's' :: 'g' :: 's' :: 't' :: 'r' :: ' ' :: '"' :: (escape v ++ ['"']))) =
      some msgstrKey := by
    simp [poKeys, msgctxtKey, msgidKey, msgidPluralKey, msgstrKey, List.isPrefixOf]
  have hmatch : matchKeyVal msgstrKey
      ('m' :: 's' :: 'g' :: 's' :: 't' :: 'r' :: ' ' :: '"' :: (escape v ++ ['"'])) =
      some ([], escape v) := by
    unfold matchKeyVal
    rw [if_pos (by simp [msgstrKey, List.isPrefixOf])]
    show (match matchWsQuoted (takeIdxSuffix _).2 with
      | some w => some ((takeIdxSuffix _).1, w)
      | none => none) = _
    have hd : (('m' :: 's' :: 'g' :: 's' :: 't' :: 'r' :: ' ' :: '"' ::
        (escape v ++ ['"'])).drop msgstrKey.length) =
        ' ' :: '"' :: (escape v ++ ['"']) := by
      simp [msgstrKey]
    rw [hd]
    have hsuf : takeIdxSuffix (' ' :: '"' :: (escape v ++ ['"'])) =
        ([], ' ' :: '"' :: (escape v ++ ['"'])) := rfl
    rw [hsuf, matchWsQuoted_std]
  simp only [parseLine, List.isPrefixOf, hfind, hmatch]
  simp [unescape_escape v hv, msgidKey, msgctxtKey, msgstrKey]

theorem parseLine_msgctxt (st : BlockState) (v : List Char)
    (hv : noBadEsc v = true) :
    parseLine st (keyLine msgctxtKey v) =
      { entry := { st.entry with msgctxt := v }, currentKey := some msgctxtKey } := by
  have hkl : keyLine msgctxtKey v =
      'm' :: 's' :: 'g' :: 'c' :: 't' :: 'x' :: 't' :: ' ' :: '"' :: (escape v ++ ['"']) := by
    simp [keyLine, msgctxtKey]
  rw [hkl]
  have hfind : poKeys.find?
      (fun k => k.isPrefixOf
        ('m' :: 's' :: 'g' :: 'c' :: 't' :: 'x' :: 't' :: ' ' :: '"' :: (escape v ++ ['"']))) =
      some msgctxtKey := by
    simp [poKeys, msgctxtKey, List.isPrefixOf]
  have hmatch : matchKeyVal msgctxtKey
      ('m' :: 's' :: 'g' :: 'c' :: 't' :: 'x' :: 't' :: ' ' :: '"' :: (escape v ++ ['"'])) =
      some ([], escape v) := by
    unfold matchKeyVal
    rw [if_pos (by simp [msgctxtKey, List.isPrefixOf])]
    show (match matchWsQuoted (takeIdxSuffix _).2 with
      | some w => some ((takeIdxSuffix _).1, w)
      | none => none) = _
    have hd : (('m' :: 's' :: 'g' :: 'c' :: 't' :: 'x' :: 't' :: ' ' :: '"' ::
        (escape v ++ ['"'])).drop msgctxtKey.length) =
        ' ' :: '"' :: (escape v ++ ['"']) := by
      simp [msgctxtKey]
    rw [hd]
    have hsuf : takeIdxSuffix (' ' :: '"' :: (escape v ++ ['"'])) =
        ([], ' ' :: '"' :: (escape v ++ ['"'])) := rfl
    rw [hsuf, matchWsQuoted_std]
  simp only [parseLine, List.isPrefixOf, hfind, hmatch]
  simp [unescape_escape v hv, msgidKey, msgctxtKey, msgstrKey]

/-- What _parse_block guarantees about every comment it records: the line is
stripped, starts with the comment marker but not the flags marker, and came
from a newline split. -/
def CommentWF (c : List Char) : Prop :=
  pyStrip c = c ∧ (['#'] : List Char).isPrefixOf c = true ∧
    (['#', ','] : List Char).isPrefixOf c = false ∧ ('\n' : Char) ∉ c

/-- What _parse_block guarantees about every flag token: stripped, without
commas, and without newlines. -/
def FlagWF (t : List Char) : Prop :=
  pyStrip t = t ∧ (',' : Char) ∉ t ∧ ('\n' : Char) ∉ t

/-- The shape invariant every entry produced by POFile._parse satisfies. -/
def EntryWFb (e : TranslationEntry) : Prop :=
  (e.msgid ≠ [] ∨ e.msgstr ≠ []) ∧
    (∀ c ∈ e.comments, CommentWF c) ∧
    (∀ t ∈ e.flags, FlagWF t) ∧ e.line = 0

/-- The escape-safety side condition of the round-trip theorems: none of the
three text fields contains a backslash immediately followed by the letter n
or the letter t. -/
def EntrySafe (e : TranslationEntry) : Prop :=
  noBadEsc e.msgid = true ∧ noBadEsc e.msgstr = true ∧ noBadEsc e.msgctxt = true

theorem fold_comments (cs : List (List Char)) :
    ∀ st : BlockState, (∀ c ∈ cs, CommentWF c) →
      cs.foldl (fun st l => parseLine st (pyStrip l)) st =
        { st with entry :=
            { st.entry with comments := st.entry.comments ++ cs } } := by
  induction cs with
  | nil =>
    intro st _
    simp
  | cons c cs' ih =>
    intro st hwf
    have hc := hwf c (by simp)
    rw [List.foldl_cons, hc.1, parseLine_comment st c hc.2.1 hc.2.2.1,
      ih _ (fun x hx => hwf x (by simp [hx]))]
    simp

/-- Folding the line loop over the saved lines of an entry rebuilds exactly
that entry. -/
theorem fold_blockLines (e : TranslationEntry) (hwf : EntryWFb e)
    (hsafe : EntrySafe e) :
    (blockLines e).foldl (fun st l => parseLine st (pyStrip l)) initBlockState =
      { entry := e, currentKey := some msgstrKey } := by
  unfold blockLines
  rw [List.foldl_append, List.foldl_append, List.foldl_append]
  rw [fold_comments e.comments initBlockState hwf.2.1]
  have hstep2 : ((if e.flags ≠ [] then [flagsLineOf e.flags] else []).foldl
      (fun st l => parseLine st (pyStrip l))
      { entry := { initBlockState.entry with
          comments := initBlockState.entry.comments ++ e.comments },
        currentKey := initBlockState.currentKey }) =
      ⟨⟨[], [], [], e.comments, e.flags, 0⟩, none⟩ := by
    by_cases hf : e.flags = []
    · simp [hf, initBlockState]
    · rw [if_pos hf, List.foldl_cons, List.foldl_nil,
        parseLine_flags _ e.flags hf
          (fun t ht => ⟨(hwf.2.2.1 t ht).1, (hwf.2.2.1 t ht).2.1⟩)]
      simp [initBlockState]
  rw [hstep2]
  have hstep3 : ((if e.msgctxt ≠ [] then [keyLine msgctxtKey e.msgctxt] else []).foldl
      (fun st l => parseLine st (pyStrip l))
      (⟨⟨[], [], [], e.comments, e.flags, 0⟩, none⟩ : BlockState)) =
      ⟨⟨[], [], e.msgctxt, e.comments, e.flags, 0⟩,
        if e.msgctxt ≠ [] then some msgctxtKey else none⟩ := by
    by_cases hc : e.msgctxt = []
    · simp [hc]
    · rw [if_pos hc, List.foldl_cons, List.foldl_nil,
        pyStrip_keyLine msgctxtKey e.msgctxt ⟨'m', rfl, by decide⟩,
        parseLine_msgctxt _ e.msgctxt hsafe.2.2]
      simp [hc]
  rw [hstep3]
  rw [List.foldl_cons, List.foldl_cons, List.foldl_nil,
    pyStrip_keyLine msgidKey e.msgid ⟨'m', rfl, by decide⟩,
    parseLine_msgid _ e.msgid hsafe.1,
    pyStrip_keyLine msgstrKey e.msgstr ⟨'m', rfl, by decide⟩,
    parseLine_msgstr _ e.msgstr hsafe.2.1]
  have hline : e.line = 0 := hwf.2.2.2
  cases e
  simp_all

theorem escChar_no_nl (c x : Char) (hx : x ∈ escChar c) : x ≠ '\n' := by
  intro h
  subst h
  by_cases e1 : c = '\\'
  · simp [escChar, e1] at hx
  · by_cases e2 : c = '"'
    · simp [escChar, e1, e2] at hx
    · by_cases e3 : c = '\n'
      · simp [escChar, e1, e2, e3] at hx
      · by_cases e4 : c = '\t'
        · simp [escChar, e1, e2, e3, e4] at hx
        · simp [escChar, e1, e2, e3, e4] at hx
          exact e3 hx.symm

theorem nl_not_in_escape (v : List Char) : ('\n' : Char) ∉ escape v := by
  rw [escape_eq_flatMap]
  intro h
  rcases List.mem_flatMap.mp h with ⟨c, _, hc⟩
  exact escChar_no_nl c '\n' hc rfl

theorem mem_joinSep {sep : List Char} {c : Char} :
    ∀ {L : List (List Char)}, c ∈ joinSep sep L →
      c ∈ sep ∨ ∃ l ∈ L, c ∈ l := by
  intro L
  induction L with
  | nil =>
    intro h
    cases h
  | cons l ls ih =>
    intro h
    cases ls with
    | nil =>
      right
      exact ⟨l, by simp, h⟩
    | cons m ms =>
      rw [joinSep_cons sep l (show (m :: ms : List (List Char)) ≠ [] by simp)] at h
      rcases List.mem_append.mp h with h1 | h1
      · rcases List.mem_append.mp h1 with h2 | h2
        · right
          exact ⟨l, by simp, h2⟩
        · left
          exact h2
      · rcases ih h1 with h2 | ⟨x, hx1, hx2⟩
        · left
          exact h2
        · right
          exact ⟨x, by simp [hx1], hx2⟩

theorem keyLine_ne_nil (key v : List Char) : keyLine key v ≠ [] := by
  simp [keyLine]

theorem nl_not_in_keyLine (key v : List Char) (hk : ('\n' : Char) ∉ key) :
    ('\n' : Char) ∉ keyLine key v := by
  intro h
  unfold keyLine at h
  rcases List.mem_append.mp h with h1 | h1
  · rcases List.mem_append.mp h1 with h2 | h2
    · rcases List.mem_append.mp h2 with h3 | h3
      · exact hk h3
      · simp at h3
    · exact nl_not_in_escape v h2
  · simp at h1

/-- Every line emitted for an entry block is non-empty and newline-free. -/
theorem blockLines_facts (e : TranslationEntry) (hwf : EntryWFb e) :
    ∀ l ∈ blockLines e, l ≠ [] ∧ ('\n' : Char) ∉ l := by
  intro l hl
  unfold blockLines at hl
  simp only [List.append_assoc, List.mem_append] at hl
  rcases hl with hl | hl
  · have hc := hwf.2.1 l hl
    refine ⟨?_, hc.2.2.2⟩
    intro h0
    rw [h0] at hc
    exact absurd hc.2.1 (by decide)
  · rcases hl with hl | hl
    · by_cases hf : e.flags = []
      · simp [hf] at hl
      · rw [if_pos hf] at hl
        have : l = flagsLineOf e.flags := by simpa using hl
        subst this
        constructor
        · simp [flagsLineOf]
        · intro h
          unfold flagsLineOf at h
          rcases List.mem_cons.mp h with h1 | h1
          · exact absurd h1 (by decide)
          · rcases List.mem_cons.mp h1 with h2 | h2
            · exact absurd h2 (by decide)
            · rcases List.mem_cons.mp h2 with h3 | h3
              · exact absurd h3 (by decide)
              · rcases mem_joinSep h3 with h4 | ⟨t, ht1, ht2⟩
                · rcases List.mem_cons.mp h4 with h5 | h5
                  · exact absurd h5 (by decide)
                  · rcases List.mem_cons.mp h5 with h6 | h6
                    · exact absurd h6 (by decide)
                    · cases h6
                · exact (hwf.2.2.1 t ht1).2.2 ht2
    · rcases hl with hl | hl
      · by_cases hc : e.msgctxt = []
        · simp [hc] at hl
        · rw [if_pos hc] at hl
          have : l = keyLine msgctxtKey e.msgctxt := by simpa using hl
          subst this
          exact ⟨keyLine_ne_nil _ _, nl_not_in_keyLine _ _ (by decide)⟩
      · rcases List.mem_cons.mp hl with h1 | h1
        · subst h1
          exact ⟨keyLine_ne_nil _ _, nl_not_in_keyLine _ _ (by decide)⟩
        · rcases List.mem_cons.mp h1 with h2 | h2
          · subst h2
            exact ⟨keyLine_ne_nil _ _, nl_not_in_keyLine _ _ (by decide)⟩
          · cases h2

theorem blockLines_ne_nil (e : TranslationEntry) : blockLines e ≠ [] := by
  unfold blockLines
  intro h
  have := congrArg List.length h
  simp [List.length_append] at this

theorem joinSep_head {sep : List Char} {l : List Char} (L : List (List Char))
    (hl : l ≠ []) : (joinSep sep (l :: L)).head? = l.head? := by
  cases L with
  | nil => rfl
  | cons m ms =>
    rw [joinSep_cons sep l (show (m :: ms : List (List Char)) ≠ [] by simp)]
    cases l with
    | nil => exact absurd rfl hl
    | cons x xs => simp

theorem head?_append_of_ne {α : Type} {a b : List α} (h : a ≠ []) :
    (a ++ b).head? = a.head? := by
  cases a with
  | nil => exact absurd rfl h
  | cons x xs => rfl

theorem joinSep_head_of {sep : List Char} {M : List (List Char)}
    {l : List Char} (hM : M.head? = some l) (hl : l ≠ []) :
    (joinSep sep M).head? = l.head? := by
  cases M with
  | nil => cases hM
  | cons m ms =>
    have hm : m = l := by injection hM
    subst hm
    exact joinSep_head ms hl

/-- The first saved line of a block is non-empty and starts with a printable
marker (the comment sign or the letter m). -/
theorem blockLines_head? (e : TranslationEntry) (hwf : EntryWFb e) :
    ∃ l x, (blockLines e).head? = some l ∧ l.head? = some x ∧
      pyWs x = false := by
  unfold blockLines
  cases hcs : e.comments with
  | cons c cs =>
    have hc := hwf.2.1 c (by simp [hcs])
    cases hc0 : c with
    | nil =>
      exfalso
      rw [hc0] at hc
      exact absurd hc.2.1 (by decide)
    | cons y ys =>
      have hy : y = '#' := by
        have h2 := hc.2.1
        rw [hc0] at h2
        simp only [List.isPrefixOf, Bool.and_eq_true] at h2
        exact (eq_of_beq h2.1).symm
      refine ⟨y :: ys, y, ?_, rfl, by rw [hy]; decide⟩
      rw [head?_append_of_ne (by simp), head?_append_of_ne (by simp)]
      rfl
  | nil =>
    simp only [List.nil_append]
    by_cases hf : e.flags = []
    · by_cases hx : e.msgctxt = []
      · refine ⟨keyLine msgidKey e.msgid, 'm', ?_, rfl, by decide⟩
        simp [hf, hx]
      · refine ⟨keyLine msgctxtKey e.msgctxt, 'm', ?_, rfl, by decide⟩
        simp [hf, hx]
    · refine ⟨flagsLineOf e.flags, '#', ?_, rfl, by decide⟩
      rw [head?_append_of_ne (by simp [hf]), head?_append_of_ne (by simp [hf])]
      simp [hf]

/-- Whatever follows it, the joined content of a saved block never starts
with whitespace. -/
theorem blockLines_head_ws (e : TranslationEntry) (hwf : EntryWFb e)
    (T : List (List Char)) :
    ∃ x, (joinSep ['\n'] (blockLines e ++ T)).head? = some x ∧
      pyWs x = false := by
  rcases blockLines_head? e hwf with ⟨l, x, hl, hx, hws⟩
  refine ⟨x, ?_, hws⟩
  have hM : (blockLines e ++ T).head? = some l := by
    rw [head?_append_of_ne (blockLines_ne_nil e)]
    exact hl
  have hlne : l ≠ [] := by
    intro h0
    rw [h0] at hx
    cases hx
  rw [joinSep_head_of hM hlne]
  exact hx

theorem mem_of_head? {α : Type} {l : List α} {a : α} (h : l.head? = some a) :
    a ∈ l := by
  cases l with
  | nil => cases h
  | cons x xs =>
    have : x = a := by injection h
    simp [← this]

theorem mem_of_getLast? {α : Type} {l : List α} {a : α}
    (h : l.getLast? = some a) : a ∈ l := by
  have h2 : l.reverse.head? = some a := by rw [List.head?_reverse]; exact h
  have := mem_of_head? h2
  simpa using this

theorem joinSep_nl_ne_nil {M : List (List Char)} {l : List Char}
    (hM : M.head? = some l) (hl : l ≠ []) : joinSep ['\n'] M ≠ [] := by
  intro h0
  have h1 : (joinSep ['\n'] M).head? = l.head? := joinSep_head_of hM hl
  rw [h0] at h1
  cases l with
  | nil => exact absurd rfl hl
  | cons x xs => cases h1

/-- The joined saved lines never contain two consecutive newlines and never
end with a newline, provided every line is non-empty and newline-free. -/
theorem noDoubleNl_joinNl : ∀ (L : List (List Char)), L ≠ [] →
    (∀ l ∈ L, l ≠ [] ∧ ('\n' : Char) ∉ l) →
    noDoubleNl (joinSep ['\n'] L ++ ['\n']) = true := by
  intro L
  induction L with
  | nil => intro h; exact absurd rfl h
  | cons l ls ih =>
    intro _ hwf
    have hl := hwf l (by simp)
    cases ls with
    | nil =>
      show noDoubleNl (l ++ ['\n']) = true
      apply noDoubleNl_append (noDoubleNl_of_no_nl hl.2) (by decide)
      intro hx
      exact hl.2 (mem_of_getLast? hx.1)
    | cons m ms =>
      rw [joinSep_cons ['\n'] l (show (m :: ms : List (List Char)) ≠ [] by simp)]
      have hm := hwf m (by simp)
      set J2 := joinSep ['\n'] (m :: ms) with hJ2
      have hIH : noDoubleNl (J2 ++ ['\n']) = true :=
        ih (by simp) (fun x hx => hwf x (by simp [hx]))
      have hJhead : J2.head? = m.head? := joinSep_head ms hm.1
      have hJ2ne : J2 ≠ [] := by
        rw [hJ2]
        exact joinSep_nl_ne_nil
          (show ((m :: ms : List (List Char))).head? = some m from rfl) hm.1
      have hcons : noDoubleNl ('\n' :: (J2 ++ ['\n'])) = true := by
        cases hJ : J2 ++ ['\n'] with
        | nil => simp at hJ
        | cons x xs =>
          have hx0 : (J2 ++ ['\n']).head? = some x := by rw [hJ]; rfl
          have hx : x ≠ '\n' := by
            cases hm0 : m with
            | nil => exact absurd hm0 hm.1
            | cons y ys =>
              have hy : y ∈ m := by simp [hm0]
              rw [head?_append_of_ne hJ2ne, hJhead, hm0] at hx0
              have hxy : y = x := by injection hx0
              rw [← hxy]
              intro heq
              exact hm.2 (by rw [← heq]; exact hy)
          show noDoubleNl ('\n' :: x :: xs) = true
          simp only [noDoubleNl, Bool.and_eq_true]
          refine ⟨by simp [hx], ?_⟩
          rw [← hJ]
          exact hIH
      have hassoc : (l ++ ['\n'] ++ J2) ++ ['\n'] = l ++ ('\n' :: (J2 ++ ['\n'])) := by
        simp
      rw [hassoc]
      apply noDoubleNl_append (noDoubleNl_of_no_nl hl.2) hcons
      intro hx
      exact hl.2 (mem_of_getLast? hx.1)

theorem keyLine_getLast (key v : List Char) :
    (keyLine key v).getLast? = some '"' := by
  have he : keyLine key v = (key ++ ' ' :: '"' :: escape v) ++ ['"'] := by
    simp [keyLine]
  rw [he, getLast_append_ne_nil (by simp)]
  rfl

theorem joinSep_getLast {sep : List Char} (hsep : sep ≠ []) :
    ∀ (L : List (List Char)) (l : List Char), l ≠ [] →
      (joinSep sep (L ++ [l])).getLast? = l.getLast? := by
  intro L
  induction L with
  | nil =>
    intro l hl
    rfl
  | cons a L' ih =>
    intro l hl
    rw [List.cons_append, joinSep_cons sep a (by simp)]
    have hne : joinSep sep (L' ++ [l]) ≠ [] := by
      cases L' with
      | nil =>
        simpa using hl
      | cons b L'' =>
        rw [List.cons_append, joinSep_cons sep b (by simp)]
        intro h0
        rcases List.append_eq_nil.mp h0 with ⟨h1, h2⟩
        rcases List.append_eq_nil.mp h1 with ⟨_, h3⟩
        exact hsep h3
    rw [getLast_append_ne_nil hne]
    exact ih l hl

theorem blockLines_decomp (e : TranslationEntry) :
    blockLines e =
      (e.comments
        ++ (if e.flags ≠ [] then [flagsLineOf e.flags] else [])
        ++ (if e.msgctxt ≠ [] then [keyLine msgctxtKey e.msgctxt] else [])
        ++ [keyLine msgidKey e.msgid]) ++ [keyLine msgstrKey e.msgstr] := by
  unfold blockLines
  simp

theorem joinNl_blockLines_getLast (e : TranslationEntry) :
    (joinSep ['\n'] (blockLines e)).getLast? = some '"' := by
  rw [blockLines_decomp, joinSep_getLast (by simp) _ _ (keyLine_ne_nil _ _),
    keyLine_getLast]

theorem pyStrip_append_ws {s : List Char} {c : Char} (hc : pyWs c = true) :
    pyStrip (s ++ [c]) = pyStrip s := by
  unfold pyStrip
  rw [stripRight_append_single_ws hc]

/-- Stripping the joined block content is the identity. -/
theorem pyStrip_joinNl_blockLines (e : TranslationEntry) (hwf : EntryWFb e) :
    pyStrip (joinSep ['\n'] (blockLines e)) = joinSep ['\n'] (blockLines e) := by
  rcases blockLines_head_ws e hwf [] with ⟨x, hx, hws⟩
  rw [List.append_nil] at hx
  apply pyStrip_eq_self
  · intro y hy
    rw [hx] at hy
    have : x = y := by injection hy
    rw [← this]
    exact hws
  · intro y hy
    rw [joinNl_blockLines_getLast e] at hy
    have : '"' = y := by injection hy
    rw [← this]
    decide

/-- Parsing the saved block of a well-formed, escape-safe entry recovers the
entry. -/
theorem parse_block_of_save (e : TranslationEntry) (hwf : EntryWFb e)
    (hs : EntrySafe e) :
    parse_block (joinSep ['\n'] (blockLines e)) = some e := by
  unfold parse_block
  rw [pyStrip_joinNl_blockLines e hwf,
    splitOnChar_joinSep (blockLines_ne_nil e)
      (fun l hl => (blockLines_facts e hwf l hl).2),
    fold_blockLines e hwf hs]
  rw [if_pos hwf.1]

theorem parse_block_of_save_nl (e : TranslationEntry) (hwf : EntryWFb e)
    (hs : EntrySafe e) :
    parse_block (joinSep ['\n'] (blockLines e) ++ ['\n']) = some e := by
  unfold parse_block
  rw [pyStrip_append_ws (by decide), pyStrip_joinNl_blockLines e hwf,
    splitOnChar_joinSep (blockLines_ne_nil e)
      (fun l hl => (blockLines_facts e hwf l hl).2),
    fold_blockLines e hwf hs]
  rw [if_pos hwf.1]

end PoTranslate

namespace PoTranslate

theorem sb_last {b : List Char} (hb : noDoubleNl (b ++ ['\n']) = true) :
    ∀ acc : List Char,
      sbGo false acc (b ++ ['\n']) = [acc.reverse ++ b ++ ['\n']] := by
  induction b with
  | nil =>
    intro acc
    simp [sbGo]
  | cons c b' ih =>
    intro acc
    have hstep : ¬(c = '\n' ∧ (b' ++ ['\n']).head? = some '\n') := by
      cases b' with
      | nil =>
        intro hx
        have hp := noDoubleNl_pair (by simpa using hb)
        exact hp ⟨hx.1, rfl⟩
      | cons d ds =>
        intro hx
        have hp := noDoubleNl_pair (by simpa using hb)
        exact hp ⟨hx.1, by simpa using hx.2⟩
    rw [List.cons_append, sbGo_false_step acc hstep,
      ih (by simpa using noDoubleNl_tail (by simpa using hb)) (c :: acc)]
    simp

theorem entryLines_ne_nil (e : TranslationEntry) : entryLines e ≠ [] := by
  unfold entryLines
  simp

theorem flatMap_entryLines_ne_nil (f : TranslationEntry)
    (fs : List TranslationEntry) :
    (f :: fs).flatMap entryLines ≠ [] := by
  rw [List.flatMap_cons]
  intro h
  exact entryLines_ne_nil f (List.append_eq_nil.mp h).1

/-- The saved content of a single entry followed by more entries: the block
text, a double newline, then the rest. -/
theorem poSave_cons (e f : TranslationEntry) (fs : List TranslationEntry) :
    poSave (e :: f :: fs) =
      joinSep ['\n'] (blockLines e) ++ '\n' :: '\n' :: poSave (f :: fs) := by
  unfold poSave
  rw [List.flatMap_cons,
    joinSep_append ['\n'] (entryLines_ne_nil e) (flatMap_entryLines_ne_nil f fs)]
  unfold entryLines
  rw [joinSep_append ['\n'] (blockLines_ne_nil e) (by simp)]
  simp [joinSep]

theorem poSave_single (e : TranslationEntry) :
    poSave [e] = joinSep ['\n'] (blockLines e) ++ ['\n'] := by
  unfold poSave
  rw [List.flatMap_cons, List.flatMap_nil, List.append_nil]
  unfold entryLines
  rw [joinSep_append ['\n'] (blockLines_ne_nil e) (by simp)]
  simp [joinSep]

/-- The main line-format round trip: parsing the saved form of well-formed,
escape-safe entries recovers exactly those entries. -/
theorem poParse_poSave : ∀ (es : List TranslationEntry),
    (∀ e ∈ es, EntryWFb e) → (∀ e ∈ es, EntrySafe e) →
    poParse (poSave es) = es := by
  intro es
  induction es with
  | nil =>
    intro _ _
    rfl
  | cons e es' ih =>
    intro hwf hs
    have hwfe := hwf e (by simp)
    have hse := hs e (by simp)
    have hnb : noDoubleNl (joinSep ['\n'] (blockLines e) ++ ['\n']) = true :=
      noDoubleNl_joinNl (blockLines e) (blockLines_ne_nil e)
        (blockLines_facts e hwfe)
    cases es' with
    | nil =>
      rw [poSave_single e]
      unfold poParse splitBlocks
      rw [sb_last hnb []]
      show List.filterMap _ [[] ++ (joinSep ['\n'] (blockLines e) ++ ['\n'])] = [e]
      rw [List.nil_append]
      rw [List.filterMap_cons, List.filterMap_nil]
      have hstrip : pyStrip (joinSep ['\n'] (blockLines e) ++ ['\n']) =
          joinSep ['\n'] (blockLines e) := by
        rw [pyStrip_append_ws (by decide), pyStrip_joinNl_blockLines e hwfe]
      have hne : pyStrip (joinSep ['\n'] (blockLines e) ++ ['\n']) ≠ [] := by
        rw [hstrip]
        rcases blockLines_head_ws e hwfe [] with ⟨x, hx, _⟩
        rw [List.append_nil] at hx
        intro h0
        rw [h0] at hx
        cases hx
      rw [if_neg (by simpa using hne), parse_block_of_save_nl e hwfe hse]
    | cons f fs =>
      rw [poSave_cons e f fs]
      unfold poParse splitBlocks
      have hr : (poSave (f :: fs)).head? ≠ some '\n' := by
        have hsave : poSave (f :: fs) =
            joinSep ['\n'] (blockLines f ++ ([[]] ++ fs.flatMap entryLines)) := by
          unfold poSave
          rw [List.flatMap_cons]
          unfold entryLines
          simp
        rcases blockLines_head_ws f (hwf f (by simp)) ([[]] ++ fs.flatMap entryLines)
          with ⟨x, hx, hws⟩
        rw [hsave, hx]
        intro h0
        have hxn : x = '\n' := by injection h0
        rw [hxn] at hws
        exact absurd hws (by decide)
      rw [sb_block hnb [] (poSave (f :: fs)) hr]
      show List.filterMap _ (([] ++ joinSep ['\n'] (blockLines e)) ::
        splitBlocks (poSave (f :: fs))) = e :: f :: fs
      rw [List.nil_append, List.filterMap_cons]
      have hstrip := pyStrip_joinNl_blockLines e hwfe
      have hne : pyStrip (joinSep ['\n'] (blockLines e)) ≠ [] := by
        rw [hstrip]
        rcases blockLines_head_ws e hwfe [] with ⟨x, hx, _⟩
        rw [List.append_nil] at hx
        intro h0
        rw [h0] at hx
        cases hx
      rw [if_neg (by simpa using hne), parse_block_of_save e hwfe hse]
      have hrest : List.filterMap
          (fun b => if pyStrip b = [] then none else parse_block b)
          (splitBlocks (poSave (f :: fs))) = poParse (poSave (f :: fs)) := rfl
      rw [hrest, ih (fun x hx => hwf x (by simp [hx]))
        (fun x hx => hs x (by simp [hx]))]

theorem mem_splitOnChar_subset {sep : Char} :
    ∀ {s p : List Char}, p ∈ splitOnChar sep s → ∀ c ∈ p, c ∈ s := by
  intro s
  induction s with
  | nil =>
    intro p hp c hc
    simp [splitOnChar, splitOnCharGo] at hp
    rw [hp] at hc
    cases hc
  | cons a s' ih =>
    intro p hp c hc
    by_cases ha : a = sep
    · subst ha
      rw [splitOnChar_cons_sep] at hp
      rcases List.mem_cons.mp hp with h1 | h1
      · rw [h1] at hc
        cases hc
      · exact List.mem_cons_of_mem a (ih h1 c hc)
    · rw [splitOnChar_cons_ne s' ha] at hp
      rcases List.mem_cons.mp hp with h1 | h1
      · subst h1
        rcases List.mem_cons.mp hc with h2 | h2
        · simp [h2]
        · exact List.mem_cons_of_mem a
            (ih (headI_mem (splitOnChar_ne_nil sep s')) c h2)
      · have hpmem : p ∈ splitOnChar sep s' := by
          cases hsp : splitOnChar sep s' with
          | nil => exact absurd hsp (splitOnChar_ne_nil sep s')
          | cons x xs =>
            rw [hsp] at h1
            simp only [List.tail_cons] at h1
            simp [hsp, h1]
        exact List.mem_cons_of_mem a (ih hpmem c hc)

/-- The state invariant the line loop maintains: comments and flag tokens
recorded so far are well-formed, and the line number is untouched. -/
def StWF (st : BlockState) : Prop :=
  (∀ c ∈ st.entry.comments, CommentWF c) ∧
    (∀ t ∈ st.entry.flags, FlagWF t) ∧ st.entry.line = 0

theorem parseLine_inv (st : BlockState) (l : List Char) (hinv : StWF st)
    (hl : pyStrip l = l) (hnl : ('\n' : Char) ∉ l) :
    StWF (parseLine st l) := by
  unfold parseLine
  split
  · rename_i h1
    split
    · rename_i h2
      refine ⟨hinv.1, ?_, hinv.2.2⟩
      intro t ht
      simp only [List.mem_map] at ht
      rcases ht with ⟨p, hp, hpt⟩
      refine ⟨?_, ?_, ?_⟩
      · rw [← hpt]
        exact pyStrip_idem p
      · rw [← hpt]
        intro hcm
        exact mem_splitOnChar_no_sep hp (mem_pyStrip hcm)
      · rw [← hpt]
        intro hcm
        have h3 : ('\n' : Char) ∈ pyStrip (l.drop 2) :=
          mem_splitOnChar_subset hp _ (mem_pyStrip hcm)
        have h4 : ('\n' : Char) ∈ l.drop 2 := mem_pyStrip h3
        exact hnl (List.mem_of_mem_drop h4)
    · rename_i h2
      refine ⟨?_, hinv.2.1, hinv.2.2⟩
      intro c hc
      rcases List.mem_append.mp hc with h3 | h3
      · exact hinv.1 c h3
      · have hcl : c = l := by simpa using h3
        subst hcl
        refine ⟨hl, by simpa using h1, ?_, hnl⟩
        cases hb : (['#', ','] : List Char).isPrefixOf c
        · rfl
        · exact absurd hb h2
  · split
    · split
      · split
        · exact ⟨hinv.1, hinv.2.1, hinv.2.2⟩
        · split
          · exact ⟨hinv.1, hinv.2.1, hinv.2.2⟩
          · split
            · exact ⟨hinv.1, hinv.2.1, hinv.2.2⟩
            · exact ⟨hinv.1, hinv.2.1, hinv.2.2⟩
      · exact hinv
    · split
      · split
        · split
          · exact ⟨hinv.1, hinv.2.1, hinv.2.2⟩
          · split
            · exact ⟨hinv.1, hinv.2.1, hinv.2.2⟩
            · split
              · exact ⟨hinv.1, hinv.2.1, hinv.2.2⟩
              · exact hinv
        · exact hinv
      · exact hinv

theorem foldl_StWF : ∀ (lines : List (List Char)) (st : BlockState),
    StWF st → (∀ l ∈ lines, ('\n' : Char) ∉ l) →
    StWF (lines.foldl (fun st l => parseLine st (pyStrip l)) st) := by
  intro lines
  induction lines with
  | nil =>
    intro st h _
    exact h
  | cons l ls ih =>
    intro st h hnl
    rw [List.foldl_cons]
    apply ih
    · apply parseLine_inv st (pyStrip l) h (pyStrip_idem l)
      intro hx
      exact hnl l (by simp) (mem_pyStrip hx)
    · intro x hx
      exact hnl x (by simp [hx])

/-- Every entry POFile._parse produces is well-formed. -/
theorem poParse_WF (content : List Char) :
    ∀ e ∈ poParse content, EntryWFb e := by
  intro e he
  unfold poParse at he
  rcases List.mem_filterMap.mp he with ⟨b, _, hb⟩
  by_cases hs : pyStrip b = []
  · rw [if_pos hs] at hb
    cases hb
  · rw [if_neg hs] at hb
    simp only [parse_block] at hb
    have hwf : StWF ((splitOnChar '\n' (pyStrip b)).foldl
        (fun st l => parseLine st (pyStrip l)) initBlockState) := by
      apply foldl_StWF _ _ ⟨by simp [initBlockState], by simp [initBlockState], rfl⟩
      intro l hl hmem
      exact mem_splitOnChar_no_sep hl hmem
    split at hb
    · rename_i hcond
      injection hb with he3
      rw [← he3]
      exact ⟨hcond, hwf.1, hwf.2.1, hwf.2.2⟩
    · cases hb

end PoTranslate

namespace PoTranslate

/-!
XML document model for the Qt .ts adapter (and the spec-modelled XLIFF
adapter).  An element has a tag, an attribute list (attribute keys are unique
in XML, so deleting a key is modelled by filtering it out), optional text
content, and a forest of children.  ElementTree tail text does not take part
in any operation of the source and is not modelled.
-/

mutual
inductive XNode where
  | elem : List Char → List (List Char × List Char) → Option (List Char) →
      XForest → XNode
deriving DecidableEq, Repr
inductive XForest where
  | nil : XForest
  | cons : XNode → XForest → XForest
deriving DecidableEq, Repr
end

def XNode.tag : XNode → List Char
  | .elem t _ _ _ => t

def XNode.attrs : XNode → List (List Char × List Char)
  | .elem _ a _ _ => a

def XNode.text : XNode → Option (List Char)
  | .elem _ _ x _ => x

def XNode.children : XNode → XForest
  | .elem _ _ _ cs => cs

def XForest.toList : XForest → List XNode
  | .nil => []
  | .cons n f => n :: f.toList

def XForest.ofList : List XNode → XForest
  | [] => .nil
  | n :: ns => .cons n (XForest.ofList ns)

def ctxTag : List Char := str "context"

def msgTag : List Char := str "message"

def nameTag : List Char := str "name"

def srcTag : List Char := str "source"

def transTag : List Char := str "translation"

def typeAttr : List Char := str "type"

/-- ElementTree find(tag): the first direct child with the given tag. -/
def xFind (tag : List Char) : XForest → Option XNode
  | .nil => none
  | .cons n f => if n.tag = tag then some n else xFind tag f

/-- ElementTree findtext(tag, default empty): the text of the first matching
direct child, the empty string when the child exists without text or when no
child matches. -/
def xFindtext (tag : List Char) (f : XForest) : List Char :=
  match xFind tag f with
  | some n => n.text.getD []
  | none => []

/-- attrib.get(key): attribute lookup (keys are unique). -/
def xGetAttr (key : List Char) (attrs : List (List Char × List Char)) :
    Option (List Char) :=
  (attrs.find? (fun p => p.1 = key)).map (fun p => p.2)

mutual
/-- findall of context descendants: every context element strictly below the
given node, in document order (the node itself included when tagged). -/
def contextsNode : XNode → List XNode
  | .elem t a x cs =>
    (if t = ctxTag then [XNode.elem t a x cs] else []) ++ contextsForest cs
def contextsForest : XForest → List XNode
  | .nil => []
  | .cons n f => contextsNode n ++ contextsForest f
end

/-- root.findall('.//context'): all context descendants of the root, the
root itself excluded. -/
def tsContexts (root : XNode) : List XNode :=
  contextsForest root.children

/-- context.findall('message'): the direct message children. -/
def directMessages (c : XNode) : List XNode :=
  c.children.toList.filter (fun m => m.tag = msgTag)

/-- The entry TSFile._parse builds for one message of one context. -/
def tsEntryOfMessage (ctxName : List Char) (m : XNode) : TranslationEntry :=
  let source := xFindtext srcTag m.children
  match xFind transTag m.children with
  | some te =>
    { msgid := source, msgstr := te.text.getD [], msgctxt := ctxName,
      flags := if xGetAttr typeAttr te.attrs = some unfinishedFlag
               then [unfinishedFlag] else [] }
  | none => { msgid := source, msgstr := [], msgctxt := ctxName, flags := [] }

/-- TSFile._parse: one entry per (context, direct message child) pair, in
document order of the contexts. -/
def tsParseEntries (root : XNode) : List TranslationEntry :=
  (tsContexts root).flatMap
    (fun c => (directMessages c).map
      (tsEntryOfMessage (xFindtext nameTag c.children)))

/-- TSFile.get_untranslated: needing translation or carrying the unfinished
flag. -/
def ts_get_untranslated (entries : List TranslationEntry) :
    List TranslationEntry :=
  entries.filter (fun e => e.needs_translation || e.flags.contains unfinishedFlag)

/-- TSFile.save on one translation element: set the text to the entry's
msgstr and, when that text is non-empty, delete the type attribute. -/
def updTransNode (n : XNode) (s : List Char) : XNode :=
  match n with
  | .elem t a _ cs =>
    .elem t (if s ≠ [] then a.filter (fun p => ¬ p.1 = typeAttr) else a)
      (some s) cs

/-- Apply the translation write to the first direct translation child, when
one exists (translation_elem is not None in the source). -/
def replaceFirstTrans (s : List Char) : XForest → XForest
  | .nil => .nil
  | .cons n f =>
    if n.tag = transTag then .cons (updTransNode n s) f
    else .cons n (replaceFirstTrans s f)

/-- TSFile.save on one message node. -/
def writeTranslation (m : XNode) (s : List Char) : XNode :=
  match m with
  | .elem t a x cs => .elem t a x (replaceFirstTrans s cs)

/-- The number of direct message children (how many queue values the direct
messages of a context consume). -/
def msgCountF (f : XForest) : Nat :=
  (f.toList.filter (fun m => m.tag = msgTag)).length

/-- Write the queued texts onto the direct message children, left to right. -/
def applyMsgs : XForest → List (List Char) → XForest
  | .nil, _ => .nil
  | .cons n f, q =>
    if n.tag = msgTag then
      match q with
      | s :: q' => .cons (writeTranslation n s) (applyMsgs f q')
      | [] => .cons n (applyMsgs f [])
    else .cons n (applyMsgs f q)

mutual
/-- TSFile.save as a pure tree rewrite: the entry list (represented by the
queue of its msgstr values, in parse order) is written back by reference.
At a context element the direct message children consume the front of the
queue (they precede every deeper context in parse order); the rewrite of
deeper contexts happens in the recursion, and the direct writes are applied
afterwards, which matches the by-reference mutation because a write only
touches the text and attributes of the first translation child of its own
message. -/
def tsUpdNode (n : XNode) (q : List (List Char)) :
    XNode × List (List Char) :=
  match n with
  | .elem t a x cs =>
    if t = ctxTag then
      let dq := q.take (msgCountF cs)
      let q1 := q.drop (msgCountF cs)
      let p := tsUpdForest cs q1
      (.elem t a x (applyMsgs p.1 dq), p.2)
    else
      let p := tsUpdForest cs q
      (.elem t a x p.1, p.2)
def tsUpdForest (f : XForest) (q : List (List Char)) :
    XForest × List (List Char) :=
  match f with
  | .nil => (.nil, q)
  | .cons n f' =>
    let p := tsUpdNode n q
    let r := tsUpdForest f' p.2
    (.cons p.1 r.1, r.2)
end

/-- TSFile.save of the whole document (the root is not a context for
findall, so only its descendants are rewritten). -/
def tsSave (root : XNode) (q : List (List Char)) : XNode :=
  match root with
  | .elem t a x cs => .elem t a x (tsUpdForest cs q).1

/-- The local view of a message: its source text and, when present, the text
and attributes of its first translation child.  The parse result and the
save effect of a message depend only on this view. -/
structure LocMsg where
  src : List Char
  tr : Option (Option (List Char) × List (List Char × List Char))
deriving DecidableEq, Repr

/-- The part of a node TSFile.save can touch: its text and attributes. -/
def trView (n : XNode) : Option (List Char) × List (List Char × List Char) :=
  (n.text, n.attrs)

def locOfMessage (m : XNode) : LocMsg :=
  { src := xFindtext srcTag m.children,
    tr := (xFind transTag m.children).map trView }

def entryOfLoc (name : List Char) (l : LocMsg) : TranslationEntry :=
  match l.tr with
  | some p =>
    { msgid := l.src, msgstr := p.1.getD [], msgctxt := name,
      flags := if xGetAttr typeAttr p.2 = some unfinishedFlag
               then [unfinishedFlag] else [] }
  | none => { msgid := l.src, msgstr := [], msgctxt := name, flags := [] }

theorem tsEntry_eq_loc (name : List Char) (m : XNode) :
    tsEntryOfMessage name m = entryOfLoc name (locOfMessage m) := by
  unfold tsEntryOfMessage entryOfLoc locOfMessage
  cases xFind transTag m.children with
  | none => rfl
  | some te => rfl

/-- The effect of TSFile.save on the local view of a message. -/
def locWrite (l : LocMsg) (s : List Char) : LocMsg :=
  { src := l.src,
    tr := l.tr.map (fun p =>
      (some s, if s ≠ [] then p.2.filter (fun a => ¬ a.1 = typeAttr) else p.2)) }

/-- Positional application of the queued texts to a list of named local
views (entries beyond the queue keep their view). -/
def zipLocWrite : List (List Char × LocMsg) → List (List Char) →
    List (List Char × LocMsg)
  | [], _ => []
  | ps, [] => ps
  | p :: ps, s :: q => (p.1, locWrite p.2 s) :: zipLocWrite ps q

/-- The named local views of the direct messages of a context with the given
children. -/
def ctxLocs (cs : XForest) : List (List Char × LocMsg) :=
  (cs.toList.filter (fun m => m.tag = msgTag)).map
    (fun m => (xFindtext nameTag cs, locOfMessage m))

mutual
/-- All named local views below a node, in parse order (the order in which
TSFile._parse creates the entries). -/
def locPairsNode : XNode → List (List Char × LocMsg)
  | .elem t _ _ cs =>
    (if t = ctxTag then ctxLocs cs else []) ++ locPairsForest cs
def locPairsForest : XForest → List (List Char × LocMsg)
  | .nil => []
  | .cons n f => locPairsNode n ++ locPairsForest f
end

def tsLocPairs (root : XNode) : List (List Char × LocMsg) :=
  locPairsForest root.children

mutual
theorem contexts_flatMap_node (g : XNode → List (List Char × LocMsg))
    (hg : ∀ t a x cs, g (XNode.elem t a x cs) = ctxLocs cs) :
    (n : XNode) → (contextsNode n).flatMap g = locPairsNode n
  | .elem t a x cs => by
    have ih := contexts_flatMap_forest g hg cs
    by_cases ht : t = ctxTag
    · simp [contextsNode, locPairsNode, ht, hg, ih]
    · simp [contextsNode, locPairsNode, ht, ih]
theorem contexts_flatMap_forest (g : XNode → List (List Char × LocMsg))
    (hg : ∀ t a x cs, g (XNode.elem t a x cs) = ctxLocs cs) :
    (f : XForest) → (contextsForest f).flatMap g = locPairsForest f
  | .nil => by simp [contextsForest, locPairsForest]
  | .cons n f' => by
    have ihn := contexts_flatMap_node g hg n
    have ihf := contexts_flatMap_forest g hg f'
    show (contextsNode n ++ contextsForest f').flatMap g =
      locPairsNode n ++ locPairsForest f'
    rw [List.flatMap_append, ihn, ihf]
end

/-- TSFile._parse reads exactly the named local views, in order. -/
theorem tsParse_eq_locPairs (root : XNode) :
    tsParseEntries root = (tsLocPairs root).map (fun p => entryOfLoc p.1 p.2) := by
  have hg : ∀ t a x cs,
      (fun c => (directMessages c).map
        (fun m => (xFindtext nameTag c.children, locOfMessage m)))
        (XNode.elem t a x cs) = ctxLocs cs := by
    intro t a x cs
    rfl
  have h := contexts_flatMap_forest
    (fun c => (directMessages c).map
      (fun m => (xFindtext nameTag c.children, locOfMessage m)))
    hg root.children
  have hfun : (fun c => (directMessages c).map
        (tsEntryOfMessage (xFindtext nameTag c.children)))
      = (fun c => ((directMessages c).map
          (fun m => (xFindtext nameTag c.children, locOfMessage m))).map
          (fun p => entryOfLoc p.1 p.2)) := by
    funext c
    rw [List.map_map]
    exact List.map_congr_left (fun m _ => tsEntry_eq_loc _ m)
  show (contextsForest root.children).flatMap
      (fun c => (directMessages c).map
        (tsEntryOfMessage (xFindtext nameTag c.children)))
    = (locPairsForest root.children).map (fun p => entryOfLoc p.1 p.2)
  rw [hfun, ← h, List.map_flatMap]

theorem tag_writeTranslation (m : XNode) (s : List Char) :
    (writeTranslation m s).tag = m.tag := by
  cases m with
  | elem t a x cs => rfl

theorem trView_writeTranslation (m : XNode) (s : List Char) :
    trView (writeTranslation m s) = trView m := by
  cases m with
  | elem t a x cs => rfl

theorem tag_updTransNode (n : XNode) (s : List Char) :
    (updTransNode n s).tag = n.tag := by
  cases n with
  | elem t a x cs => rfl

theorem children_updTransNode (n : XNode) (s : List Char) :
    (updTransNode n s).children = n.children := by
  cases n with
  | elem t a x cs => rfl

theorem trView_updTransNode (n : XNode) (s : List Char) :
    trView (updTransNode n s) =
      (some s, if s ≠ [] then n.attrs.filter (fun p => ¬ p.1 = typeAttr)
               else n.attrs) := by
  cases n with
  | elem t a x cs => rfl

theorem tsUpdNode_top (n : XNode) (q : List (List Char)) :
    (tsUpdNode n q).1.tag = n.tag ∧ trView (tsUpdNode n q).1 = trView n := by
  cases n with
  | elem t a x cs =>
    by_cases ht : t = ctxTag
    · simp [tsUpdNode, ht, XNode.tag, trView, XNode.text, XNode.attrs]
    · simp [tsUpdNode, ht, XNode.tag, trView, XNode.text, XNode.attrs]

/-- applyMsgs only rewrites message-tagged children, and only their local
views: finding any other tag is unaffected. -/
theorem xFindLoc_applyMsgs (tg : List Char) (htg : ¬ tg = msgTag) :
    (f : XForest) → ∀ q : List (List Char),
      (xFind tg (applyMsgs f q)).map trView = (xFind tg f).map trView
  | .nil => by intro q; rfl
  | .cons n f' => by
    intro q
    by_cases hm : n.tag = msgTag
    · have hne : ¬ n.tag = tg := by
        intro hc
        exact htg (hc ▸ hm)
      cases q with
      | nil =>
        have happ : applyMsgs (XForest.cons n f') [] =
            XForest.cons n (applyMsgs f' []) := by
          simp [applyMsgs, hm]
        rw [happ,
            show xFind tg (XForest.cons n (applyMsgs f' [])) =
              xFind tg (applyMsgs f' []) from by simp [xFind, hne],
            show xFind tg (XForest.cons n f') = xFind tg f' from by
              simp [xFind, hne]]
        exact xFindLoc_applyMsgs tg htg f' []
      | cons s q' =>
        have happ : applyMsgs (XForest.cons n f') (s :: q') =
            XForest.cons (writeTranslation n s) (applyMsgs f' q') := by
          simp [applyMsgs, hm]
        have hne2 : ¬ (writeTranslation n s).tag = tg := by
          rw [tag_writeTranslation]; exact hne
        rw [happ,
            show xFind tg (XForest.cons (writeTranslation n s)
              (applyMsgs f' q')) = xFind tg (applyMsgs f' q') from by
              simp [xFind, hne2],
            show xFind tg (XForest.cons n f') = xFind tg f' from by
              simp [xFind, hne]]
        exact xFindLoc_applyMsgs tg htg f' q'
    · have happ : applyMsgs (XForest.cons n f') q =
          XForest.cons n (applyMsgs f' q) := by
        simp [applyMsgs, hm]
      rw [happ]
      by_cases he : n.tag = tg
      · simp [xFind, he]
      · rw [show xFind tg (XForest.cons n (applyMsgs f' q)) =
              xFind tg (applyMsgs f' q) from by simp [xFind, he],
            show xFind tg (XForest.cons n f') = xFind tg f' from by
              simp [xFind, he]]
        exact xFindLoc_applyMsgs tg htg f' q

/-- The TS rewrite keeps the tag, text and attributes of every direct child:
only deeper structure changes, so local finds are unaffected. -/
theorem xFindLoc_tsUpdForest (tg : List Char) :
    (f : XForest) → ∀ q : List (List Char),
      (xFind tg (tsUpdForest f q).1).map trView = (xFind tg f).map trView
  | .nil => by intro q; rfl
  | .cons n f' => by
    intro q
    have htop := tsUpdNode_top n q
    show (xFind tg (XForest.cons (tsUpdNode n q).1
        (tsUpdForest f' (tsUpdNode n q).2).1)).map trView = _
    by_cases he : n.tag = tg
    · simp [xFind, htop.1, he, htop.2]
    · have he2 : ¬ (tsUpdNode n q).1.tag = tg := by rw [htop.1]; exact he
      rw [show xFind tg (XForest.cons (tsUpdNode n q).1
            (tsUpdForest f' (tsUpdNode n q).2).1) =
            xFind tg (tsUpdForest f' (tsUpdNode n q).2).1 from by
            simp [xFind, he2],
          show xFind tg (XForest.cons n f') = xFind tg f' from by
            simp [xFind, he]]
      exact xFindLoc_tsUpdForest tg f' (tsUpdNode n q).2

theorem xFindtext_of_loc (tg : List Char) (f g : XForest)
    (h : (xFind tg f).map trView = (xFind tg g).map trView) :
    xFindtext tg f = xFindtext tg g := by
  unfold xFindtext
  cases hf : xFind tg f with
  | none =>
    cases hg2 : xFind tg g with
    | none => rfl
    | some b => rw [hf, hg2] at h; simp at h
  | some a =>
    cases hg2 : xFind tg g with
    | none => rw [hf, hg2] at h; simp at h
    | some b =>
      rw [hf, hg2] at h
      have h2 : some (trView a) = some (trView b) := h
      have : a.text = b.text := congrArg Prod.fst (Option.some.inj h2)
      show a.text.getD [] = b.text.getD []
      rw [this]

theorem xFind_replaceFirstTrans (tg : List Char) (htg : ¬ tg = transTag)
    (s : List Char) :
    (f : XForest) → xFind tg (replaceFirstTrans s f) = xFind tg f
  | .nil => rfl
  | .cons n f' => by
    by_cases ht : n.tag = transTag
    · have h1 : replaceFirstTrans s (XForest.cons n f') =
          XForest.cons (updTransNode n s) f' := by
        simp [replaceFirstTrans, ht]
      have hne : ¬ n.tag = tg := by
        intro hc
        exact htg (hc ▸ ht)
      rw [h1]
      simp [xFind, tag_updTransNode, hne]
    · have h1 : replaceFirstTrans s (XForest.cons n f') =
          XForest.cons n (replaceFirstTrans s f') := by
        simp [replaceFirstTrans, ht]
      rw [h1]
      by_cases he : n.tag = tg
      · simp [xFind, he]
      · rw [show xFind tg (XForest.cons n (replaceFirstTrans s f')) =
              xFind tg (replaceFirstTrans s f') from by simp [xFind, he],
            show xFind tg (XForest.cons n f') = xFind tg f' from by
              simp [xFind, he]]
        exact xFind_replaceFirstTrans tg htg s f'

theorem xFind_trans_replaceFirstTrans (s : List Char) :
    (f : XForest) → xFind transTag (replaceFirstTrans s f) =
      (xFind transTag f).map (fun n => updTransNode n s)
  | .nil => rfl
  | .cons n f' => by
    by_cases ht : n.tag = transTag
    · have h1 : replaceFirstTrans s (XForest.cons n f') =
          XForest.cons (updTransNode n s) f' := by
        simp [replaceFirstTrans, ht]
      have h2 : (updTransNode n s).tag = transTag := by
        rw [tag_updTransNode]; exact ht
      rw [h1]
      simp [xFind, h2, ht]
    · have h1 : replaceFirstTrans s (XForest.cons n f') =
          XForest.cons n (replaceFirstTrans s f') := by
        simp [replaceFirstTrans, ht]
      rw [h1,
          show xFind transTag (XForest.cons n (replaceFirstTrans s f')) =
            xFind transTag (replaceFirstTrans s f') from by simp [xFind, ht],
          show xFind transTag (XForest.cons n f') = xFind transTag f' from by
            simp [xFind, ht]]
      exact xFind_trans_replaceFirstTrans s f'

/-- TSFile.save changes exactly the local view of the message it writes. -/
theorem locOfMessage_writeTranslation (m : XNode) (s : List Char) :
    locOfMessage (writeTranslation m s) = locWrite (locOfMessage m) s := by
  cases m with
  | elem t a x cs =>
    show locOfMessage (XNode.elem t a x (replaceFirstTrans s cs)) = _
    unfold locOfMessage locWrite
    refine congrArg₂ LocMsg.mk ?_ ?_
    · show xFindtext srcTag (replaceFirstTrans s cs) = xFindtext srcTag cs
      unfold xFindtext
      rw [xFind_replaceFirstTrans srcTag (by decide) s cs]
    · show (xFind transTag (replaceFirstTrans s cs)).map trView =
        ((xFind transTag cs).map trView).map (fun p =>
          (some s, if s ≠ [] then p.2.filter (fun a => ¬ a.1 = typeAttr)
                   else p.2))
      rw [xFind_trans_replaceFirstTrans s cs]
      cases hx : xFind transTag cs with
      | none => rfl
      | some te =>
        show some (trView (updTransNode te s)) = _
        rw [trView_updTransNode]
        rfl

/-- The recursive TS rewrite of deeper contexts leaves every local view in
place: a node's own local view only changes through its own direct write. -/
theorem locOfMessage_tsUpdNode (n : XNode) (q : List (List Char)) :
    locOfMessage (tsUpdNode n q).1 = locOfMessage n := by
  cases n with
  | elem t a x cs =>
    by_cases ht : t = ctxTag
    · have h1 : (tsUpdNode (XNode.elem t a x cs) q).1 =
          XNode.elem t a x (applyMsgs
            (tsUpdForest cs (q.drop (msgCountF cs))).1
            (q.take (msgCountF cs))) := by
        simp [tsUpdNode, ht]
      rw [h1]
      unfold locOfMessage
      refine congrArg₂ LocMsg.mk ?_ ?_
      · exact xFindtext_of_loc srcTag _ _
          ((xFindLoc_applyMsgs srcTag (by decide) _ _).trans
            (xFindLoc_tsUpdForest srcTag cs _))
      · exact (xFindLoc_applyMsgs transTag (by decide) _ _).trans
          (xFindLoc_tsUpdForest transTag cs _)
    · have h1 : (tsUpdNode (XNode.elem t a x cs) q).1 =
          XNode.elem t a x (tsUpdForest cs q).1 := by
        simp [tsUpdNode, ht]
      rw [h1]
      unfold locOfMessage
      refine congrArg₂ LocMsg.mk ?_ ?_
      · exact xFindtext_of_loc srcTag _ _ (xFindLoc_tsUpdForest srcTag cs q)
      · exact xFindLoc_tsUpdForest transTag cs q

/-- The direct message children, in document order. -/
def msgNodes (f : XForest) : List XNode :=
  f.toList.filter (fun m => m.tag = msgTag)

theorem msgCountF_eq (f : XForest) : msgCountF f = (msgNodes f).length := rfl

/-- Positional writes on a list of message nodes (stop when the queue runs
out). -/
def zipWriteMsg : List XNode → List (List Char) → List XNode
  | [], _ => []
  | ms, [] => ms
  | m :: ms, s :: q => writeTranslation m s :: zipWriteMsg ms q

theorem zipWriteMsg_nil : (ms : List XNode) → zipWriteMsg ms [] = ms
  | [] => rfl
  | _ :: _ => rfl

theorem msgNodes_applyMsgs :
    (f : XForest) → ∀ q : List (List Char),
      msgNodes (applyMsgs f q) = zipWriteMsg (msgNodes f) q
  | .nil => by
    intro q
    cases q <;> rfl
  | .cons n f' => by
    intro q
    by_cases hm : n.tag = msgTag
    · have h3 : msgNodes (XForest.cons n f') = n :: msgNodes f' := by
        simp [msgNodes, XForest.toList, hm]
      cases q with
      | nil =>
        have happ : applyMsgs (XForest.cons n f') [] =
            XForest.cons n (applyMsgs f' []) := by
          simp [applyMsgs, hm]
        have h2 : msgNodes (XForest.cons n (applyMsgs f' [])) =
            n :: msgNodes (applyMsgs f' []) := by
          simp [msgNodes, XForest.toList, hm]
        rw [happ, h2, msgNodes_applyMsgs f' [], h3,
            zipWriteMsg_nil, zipWriteMsg_nil]
      | cons s q' =>
        have happ : applyMsgs (XForest.cons n f') (s :: q') =
            XForest.cons (writeTranslation n s) (applyMsgs f' q') := by
          simp [applyMsgs, hm]
        have hmt : (writeTranslation n s).tag = msgTag := by
          rw [tag_writeTranslation]; exact hm
        have h2 : msgNodes (XForest.cons (writeTranslation n s)
            (applyMsgs f' q')) =
            writeTranslation n s :: msgNodes (applyMsgs f' q') := by
          simp [msgNodes, XForest.toList, hmt]
        rw [happ, h2, msgNodes_applyMsgs f' q', h3]
        rfl
    · have happ : applyMsgs (XForest.cons n f') q =
          XForest.cons n (applyMsgs f' q) := by
        simp [applyMsgs, hm]
      have h2 : msgNodes (XForest.cons n (applyMsgs f' q)) =
          msgNodes (applyMsgs f' q) := by
        simp [msgNodes, XForest.toList, hm]
      have h3 : msgNodes (XForest.cons n f') = msgNodes f' := by
        simp [msgNodes, XForest.toList, hm]
      rw [happ, h2, h3, msgNodes_applyMsgs f' q]

theorem zipLocWrite_nil : ∀ ps : List (List Char × LocMsg),
    zipLocWrite ps [] = ps
  | [] => rfl
  | _ :: _ => rfl

theorem zipWriteMsg_locs (nm : List Char) :
    ∀ (ms : List XNode) (q : List (List Char)),
      (zipWriteMsg ms q).map (fun m => (nm, locOfMessage m)) =
        zipLocWrite (ms.map (fun m => (nm, locOfMessage m))) q
  | [], q => by cases q <;> rfl
  | m :: ms, [] => by
    rw [zipWriteMsg_nil, zipLocWrite_nil]
  | m :: ms, s :: q => by
    show (nm, locOfMessage (writeTranslation m s)) ::
        (zipWriteMsg ms q).map (fun m => (nm, locOfMessage m)) =
      (nm, locWrite (locOfMessage m) s) ::
        zipLocWrite (ms.map (fun m => (nm, locOfMessage m))) q
    rw [locOfMessage_writeTranslation, zipWriteMsg_locs nm ms q]

theorem msgLocs_tsUpdForest (nm : List Char) :
    (f : XForest) → ∀ q : List (List Char),
      (msgNodes (tsUpdForest f q).1).map (fun m => (nm, locOfMessage m)) =
        (msgNodes f).map (fun m => (nm, locOfMessage m))
  | .nil => by intro q; rfl
  | .cons n f' => by
    intro q
    have htop := tsUpdNode_top n q
    show (msgNodes (XForest.cons (tsUpdNode n q).1
        (tsUpdForest f' (tsUpdNode n q).2).1)).map _ = _
    by_cases hm : n.tag = msgTag
    · have hmt : (tsUpdNode n q).1.tag = msgTag := by rw [htop.1]; exact hm
      have h1 : msgNodes (XForest.cons (tsUpdNode n q).1
          (tsUpdForest f' (tsUpdNode n q).2).1) =
          (tsUpdNode n q).1 ::
            msgNodes (tsUpdForest f' (tsUpdNode n q).2).1 := by
        simp [msgNodes, XForest.toList, hmt]
      have h2 : msgNodes (XForest.cons n f') = n :: msgNodes f' := by
        simp [msgNodes, XForest.toList, hm]
      rw [h1, h2, List.map_cons, List.map_cons, locOfMessage_tsUpdNode n q,
          msgLocs_tsUpdForest nm f' (tsUpdNode n q).2]
    · have hmt : ¬ (tsUpdNode n q).1.tag = msgTag := by
        rw [htop.1]; exact hm
      have h1 : msgNodes (XForest.cons (tsUpdNode n q).1
          (tsUpdForest f' (tsUpdNode n q).2).1) =
          msgNodes (tsUpdForest f' (tsUpdNode n q).2).1 := by
        simp [msgNodes, XForest.toList, hmt]
      have h2 : msgNodes (XForest.cons n f') = msgNodes f' := by
        simp [msgNodes, XForest.toList, hm]
      rw [h1, h2, msgLocs_tsUpdForest nm f' (tsUpdNode n q).2]

theorem zipLocWrite_append :
    (A : List (List Char × LocMsg)) →
    ∀ (B : List (List Char × LocMsg)) (q : List (List Char)),
      zipLocWrite (A ++ B) q =
        zipLocWrite A (q.take A.length) ++ zipLocWrite B (q.drop A.length)
  | [], B, q => by
    show zipLocWrite B q = zipLocWrite [] (q.take 0) ++ zipLocWrite B (q.drop 0)
    rw [List.take_zero, List.drop_zero]
    rfl
  | p :: A, B, q => by
    cases q with
    | nil =>
      rw [List.take_nil, List.drop_nil, zipLocWrite_nil, zipLocWrite_nil,
          zipLocWrite_nil]
    | cons s q' =>
      show (p.1, locWrite p.2 s) :: zipLocWrite (A ++ B) q' =
        zipLocWrite (p :: A) ((s :: q').take (A.length + 1)) ++
          zipLocWrite B ((s :: q').drop (A.length + 1))
      rw [List.take_succ_cons, List.drop_succ_cons]
      show (p.1, locWrite p.2 s) :: zipLocWrite (A ++ B) q' =
        ((p.1, locWrite p.2 s) :: zipLocWrite A (q'.take A.length)) ++
          zipLocWrite B (q'.drop A.length)
      rw [List.cons_append, zipLocWrite_append A B q']

theorem zipLocWrite_take :
    (ps : List (List Char × LocMsg)) → ∀ q : List (List Char),
      zipLocWrite ps q = zipLocWrite ps (q.take ps.length)
  | [], q => by cases q <;> rfl
  | _ :: _, [] => rfl
  | p :: ps, s :: q => by
    show (p.1, locWrite p.2 s) :: zipLocWrite ps q =
      zipLocWrite (p :: ps) ((s :: q).take (ps.length + 1))
    rw [List.take_succ_cons]
    show (p.1, locWrite p.2 s) :: zipLocWrite ps q =
      (p.1, locWrite p.2 s) :: zipLocWrite ps (q.take ps.length)
    rw [zipLocWrite_take ps q]

theorem ctxLocs_length (cs : XForest) :
    (ctxLocs cs).length = msgCountF cs := by
  unfold ctxLocs msgCountF
  rw [List.length_map]

/-- The direct message writes of one context act as a positional write on
its named local views. -/
theorem ctxLocs_upd (cs : XForest) (q1 dq : List (List Char)) :
    ctxLocs (applyMsgs (tsUpdForest cs q1).1 dq) =
      zipLocWrite (ctxLocs cs) dq := by
  have hname : xFindtext nameTag (applyMsgs (tsUpdForest cs q1).1 dq) =
      xFindtext nameTag cs :=
    xFindtext_of_loc nameTag _ _
      ((xFindLoc_applyMsgs nameTag (by decide) _ dq).trans
        (xFindLoc_tsUpdForest nameTag cs q1))
  unfold ctxLocs
  rw [hname]
  show (msgNodes (applyMsgs (tsUpdForest cs q1).1 dq)).map
      (fun m => (xFindtext nameTag cs, locOfMessage m)) =
    zipLocWrite ((msgNodes cs).map
      (fun m => (xFindtext nameTag cs, locOfMessage m))) dq
  rw [msgNodes_applyMsgs _ dq, zipWriteMsg_locs, msgLocs_tsUpdForest]

theorem locPairsNode_updTransNode (n : XNode) (s : List Char) :
    locPairsNode (updTransNode n s) = locPairsNode n := by
  cases n with
  | elem t a x cs => rfl

theorem locPairsForest_replaceFirstTrans (s : List Char) :
    (f : XForest) → locPairsForest (replaceFirstTrans s f) = locPairsForest f
  | .nil => rfl
  | .cons n f' => by
    by_cases ht : n.tag = transTag
    · have h1 : replaceFirstTrans s (XForest.cons n f') =
          XForest.cons (updTransNode n s) f' := by
        simp [replaceFirstTrans, ht]
      rw [h1]
      simp only [locPairsForest]
      rw [locPairsNode_updTransNode]
    · have h1 : replaceFirstTrans s (XForest.cons n f') =
          XForest.cons n (replaceFirstTrans s f') := by
        simp [replaceFirstTrans, ht]
      rw [h1]
      simp only [locPairsForest]
      rw [locPairsForest_replaceFirstTrans s f']

theorem locPairsNode_writeTranslation (m : XNode) (s : List Char)
    (hm : ¬ m.tag = ctxTag) :
    locPairsNode (writeTranslation m s) = locPairsNode m := by
  cases m with
  | elem t a x cs =>
    have ht : ¬ t = ctxTag := hm
    show locPairsNode (XNode.elem t a x (replaceFirstTrans s cs)) = _
    simp only [locPairsNode]
    rw [if_neg ht, if_neg ht, locPairsForest_replaceFirstTrans]

theorem locPairsForest_applyMsgs :
    (f : XForest) → ∀ q : List (List Char),
      locPairsForest (applyMsgs f q) = locPairsForest f
  | .nil => by intro q; cases q <;> rfl
  | .cons n f' => by
    intro q
    by_cases hm : n.tag = msgTag
    · have hmc : ¬ n.tag = ctxTag := by rw [hm]; decide
      cases q with
      | nil =>
        have happ : applyMsgs (XForest.cons n f') [] =
            XForest.cons n (applyMsgs f' []) := by
          simp [applyMsgs, hm]
        rw [happ]
        simp only [locPairsForest]
        rw [locPairsForest_applyMsgs f' []]
      | cons s q' =>
        have happ : applyMsgs (XForest.cons n f') (s :: q') =
            XForest.cons (writeTranslation n s) (applyMsgs f' q') := by
          simp [applyMsgs, hm]
        rw [happ]
        simp only [locPairsForest]
        rw [locPairsNode_writeTranslation n s hmc,
            locPairsForest_applyMsgs f' q']
    · have happ : applyMsgs (XForest.cons n f') q =
          XForest.cons n (applyMsgs f' q) := by
        simp [applyMsgs, hm]
      rw [happ]
      simp only [locPairsForest]
      rw [locPairsForest_applyMsgs f' q]

mutual
/-- TSFile.save, seen through the local views: the queue of assigned texts
is written positionally onto the named local views in parse order, and the
leftover queue is the part beyond them. -/
theorem tsUpd_loc_node : (n : XNode) → ∀ q : List (List Char),
    locPairsNode (tsUpdNode n q).1 = zipLocWrite (locPairsNode n) q ∧
    (tsUpdNode n q).2 = q.drop (locPairsNode n).length
  | .elem t a x cs => by
    intro q
    by_cases ht : t = ctxTag
    · have ihf := tsUpd_loc_forest cs (q.drop (msgCountF cs))
      have h1a : (tsUpdNode (XNode.elem t a x cs) q).1 =
          XNode.elem t a x (applyMsgs
            (tsUpdForest cs (q.drop (msgCountF cs))).1
            (q.take (msgCountF cs))) := by
        simp [tsUpdNode, ht]
      have h1b : (tsUpdNode (XNode.elem t a x cs) q).2 =
          (tsUpdForest cs (q.drop (msgCountF cs))).2 := by
        simp [tsUpdNode, ht]
      constructor
      · rw [h1a]
        simp only [locPairsNode]
        rw [if_pos ht, if_pos ht, ctxLocs_upd cs _ _,
            locPairsForest_applyMsgs, ihf.1,
            zipLocWrite_append (ctxLocs cs) (locPairsForest cs) q,
            ctxLocs_length]
      · rw [h1b, ihf.2, List.drop_drop]
        congr 1
        simp only [locPairsNode]
        rw [if_pos ht, List.length_append, ctxLocs_length, Nat.add_comm]
    · have ihf := tsUpd_loc_forest cs q
      have h1a : (tsUpdNode (XNode.elem t a x cs) q).1 =
          XNode.elem t a x (tsUpdForest cs q).1 := by
        simp [tsUpdNode, ht]
      have h1b : (tsUpdNode (XNode.elem t a x cs) q).2 =
          (tsUpdForest cs q).2 := by
        simp [tsUpdNode, ht]
      constructor
      · rw [h1a]
        simp only [locPairsNode]
        rw [if_neg ht, if_neg ht, List.nil_append, List.nil_append, ihf.1]
      · rw [h1b, ihf.2]
        congr 1
        simp only [locPairsNode]
        rw [if_neg ht, List.nil_append]
theorem tsUpd_loc_forest : (f : XForest) → ∀ q : List (List Char),
    locPairsForest (tsUpdForest f q).1 = zipLocWrite (locPairsForest f) q ∧
    (tsUpdForest f q).2 = q.drop (locPairsForest f).length
  | .nil => by
    intro q
    constructor
    · show locPairsForest XForest.nil =
        zipLocWrite (locPairsForest XForest.nil) q
      cases q <;> rfl
    · rfl
  | .cons n f' => by
    intro q
    have ihn := tsUpd_loc_node n q
    have ihf := tsUpd_loc_forest f' (tsUpdNode n q).2
    have h1a : (tsUpdForest (XForest.cons n f') q).1 =
        XForest.cons (tsUpdNode n q).1
          (tsUpdForest f' (tsUpdNode n q).2).1 := rfl
    have h1b : (tsUpdForest (XForest.cons n f') q).2 =
        (tsUpdForest f' (tsUpdNode n q).2).2 := rfl
    constructor
    · rw [h1a]
      simp only [locPairsForest]
      rw [ihn.1, ihf.1, ihn.2,
          zipLocWrite_append (locPairsNode n) (locPairsForest f') q,
          ← zipLocWrite_take (locPairsNode n) q]
    · rw [h1b, ihf.2, ihn.2, List.drop_drop]
      congr 1
      simp only [locPairsForest]
      rw [List.length_append, Nat.add_comm]
end

/-- TSFile.save through the local views of the whole document. -/
theorem tsSave_locPairs (root : XNode) (q : List (List Char)) :
    tsLocPairs (tsSave root q) = zipLocWrite (tsLocPairs root) q := by
  cases root with
  | elem t a x cs =>
    show locPairsForest (tsUpdForest cs q).1 =
      zipLocWrite (locPairsForest cs) q
    exact (tsUpd_loc_forest cs q).1

/-- Reparsing a saved TS document: the entries are obtained by writing the
queued texts positionally onto the original local views. -/
theorem tsSave_parse (root : XNode) (q : List (List Char)) :
    tsParseEntries (tsSave root q) =
      (zipLocWrite (tsLocPairs root) q).map (fun p => entryOfLoc p.1 p.2) := by
  rw [tsParse_eq_locPairs, tsSave_locPairs]

/-!
The frame of TSFile.save: a mask that erases exactly the slots save may
write — the text and attributes of the first translation child of each
direct message child of each context — is invariant under saving.  Every
other tag, attribute, text and child (and the order and multiplicity of all
nodes) is untouched.
-/

def blankFirstTrans : XForest → XForest
  | .nil => .nil
  | .cons n f =>
    if n.tag = transTag then
      XForest.cons (XNode.elem n.tag [] none n.children) f
    else XForest.cons n (blankFirstTrans f)

def blankMsg (m : XNode) : XNode :=
  match m with
  | .elem t a x cs => .elem t a x (blankFirstTrans cs)

def blankMsgsF : XForest → XForest
  | .nil => .nil
  | .cons n f =>
    .cons (if n.tag = msgTag then blankMsg n else n) (blankMsgsF f)

mutual
/-- Erase every slot TSFile.save can write, everywhere in the tree. -/
def blankNode : XNode → XNode
  | .elem t a x cs =>
    if t = ctxTag then XNode.elem t a x (blankMsgsF (blankForest cs))
    else XNode.elem t a x (blankForest cs)
def blankForest : XForest → XForest
  | .nil => .nil
  | .cons n f => XForest.cons (blankNode n) (blankForest f)
end

def tsBlank (root : XNode) : XNode :=
  match root with
  | .elem t a x cs => .elem t a x (blankForest cs)

theorem tag_blankNode (n : XNode) : (blankNode n).tag = n.tag := by
  cases n with
  | elem t a x cs =>
    by_cases ht : t = ctxTag
    · simp [blankNode, ht, XNode.tag]
    · simp [blankNode, ht, XNode.tag]

theorem blankNode_updTransNode (n : XNode) (s : List Char) :
    (blankNode (updTransNode n s)).children = (blankNode n).children ∧
    (blankNode (updTransNode n s)).tag = (blankNode n).tag := by
  cases n with
  | elem t a x cs =>
    by_cases ht : t = ctxTag
    · constructor <;> simp [updTransNode, blankNode, ht, XNode.children, XNode.tag]
    · constructor <;> simp [updTransNode, blankNode, ht, XNode.children, XNode.tag]

theorem blankFirstTrans_replace (s : List Char) :
    (f : XForest) →
      blankFirstTrans (blankForest (replaceFirstTrans s f)) =
        blankFirstTrans (blankForest f)
  | .nil => rfl
  | .cons m f' => by
    by_cases ht : m.tag = transTag
    · have h1 : replaceFirstTrans s (XForest.cons m f') =
          XForest.cons (updTransNode m s) f' := by
        simp [replaceFirstTrans, ht]
      rw [h1]
      have hb := blankNode_updTransNode m s
      have htagu : (blankNode (updTransNode m s)).tag = transTag := by
        rw [tag_blankNode, tag_updTransNode]; exact ht
      have htagm : (blankNode m).tag = transTag := by
        rw [tag_blankNode]; exact ht
      show blankFirstTrans (XForest.cons (blankNode (updTransNode m s))
          (blankForest f')) = blankFirstTrans (XForest.cons (blankNode m)
          (blankForest f'))
      rw [show blankFirstTrans (XForest.cons (blankNode (updTransNode m s))
            (blankForest f')) = XForest.cons (XNode.elem
              (blankNode (updTransNode m s)).tag [] none
              (blankNode (updTransNode m s)).children)
            (blankForest f') from by simp [blankFirstTrans, htagu],
          show blankFirstTrans (XForest.cons (blankNode m)
            (blankForest f')) = XForest.cons (XNode.elem
              (blankNode m).tag [] none (blankNode m).children)
            (blankForest f') from by simp [blankFirstTrans, htagm],
          hb.1, hb.2]
    · have h1 : replaceFirstTrans s (XForest.cons m f') =
          XForest.cons m (replaceFirstTrans s f') := by
        simp [replaceFirstTrans, ht]
      rw [h1]
      have htagm : ¬ (blankNode m).tag = transTag := by
        rw [tag_blankNode]; exact ht
      show blankFirstTrans (XForest.cons (blankNode m)
          (blankForest (replaceFirstTrans s f'))) =
        blankFirstTrans (XForest.cons (blankNode m) (blankForest f'))
      rw [show blankFirstTrans (XForest.cons (blankNode m)
            (blankForest (replaceFirstTrans s f'))) = XForest.cons
            (blankNode m)
            (blankFirstTrans (blankForest (replaceFirstTrans s f'))) from by
            simp [blankFirstTrans, htagm],
          show blankFirstTrans (XForest.cons (blankNode m)
            (blankForest f')) = XForest.cons (blankNode m)
            (blankFirstTrans (blankForest f')) from by
            simp [blankFirstTrans, htagm],
          blankFirstTrans_replace s f']

theorem blankMsg_write (m : XNode) (s : List Char) (hm : ¬ m.tag = ctxTag) :
    blankMsg (blankNode (writeTranslation m s)) = blankMsg (blankNode m) := by
  cases m with
  | elem t a x cs =>
    have ht : ¬ t = ctxTag := hm
    show blankMsg (blankNode (XNode.elem t a x (replaceFirstTrans s cs))) = _
    rw [show blankNode (XNode.elem t a x (replaceFirstTrans s cs)) =
          XNode.elem t a x (blankForest (replaceFirstTrans s cs)) from by
          simp [blankNode, ht],
        show blankNode (XNode.elem t a x cs) =
          XNode.elem t a x (blankForest cs) from by simp [blankNode, ht]]
    show XNode.elem t a x (blankFirstTrans (blankForest
        (replaceFirstTrans s cs))) =
      XNode.elem t a x (blankFirstTrans (blankForest cs))
    rw [blankFirstTrans_replace s cs]

theorem blankMsgsF_applyMsgs :
    (f : XForest) → ∀ q : List (List Char),
      blankMsgsF (blankForest (applyMsgs f q)) = blankMsgsF (blankForest f)
  | .nil => by intro q; cases q <;> rfl
  | .cons n f' => by
    intro q
    by_cases hm : n.tag = msgTag
    · have hmc : ¬ n.tag = ctxTag := by rw [hm]; decide
      have hbt : (blankNode n).tag = msgTag := by rw [tag_blankNode]; exact hm
      cases q with
      | nil =>
        have happ : applyMsgs (XForest.cons n f') [] =
            XForest.cons n (applyMsgs f' []) := by
          simp [applyMsgs, hm]
        rw [happ]
        show blankMsgsF (XForest.cons (blankNode n)
            (blankForest (applyMsgs f' []))) =
          blankMsgsF (XForest.cons (blankNode n) (blankForest f'))
        rw [show blankMsgsF (XForest.cons (blankNode n)
              (blankForest (applyMsgs f' []))) = XForest.cons
              (blankMsg (blankNode n))
              (blankMsgsF (blankForest (applyMsgs f' []))) from by
              simp [blankMsgsF, hbt],
            show blankMsgsF (XForest.cons (blankNode n) (blankForest f')) =
              XForest.cons (blankMsg (blankNode n))
              (blankMsgsF (blankForest f')) from by simp [blankMsgsF, hbt],
            blankMsgsF_applyMsgs f' []]
      | cons s q' =>
        have happ : applyMsgs (XForest.cons n f') (s :: q') =
            XForest.cons (writeTranslation n s) (applyMsgs f' q') := by
          simp [applyMsgs, hm]
        rw [happ]
        have hbtw : (blankNode (writeTranslation n s)).tag = msgTag := by
          rw [tag_blankNode, tag_writeTranslation]; exact hm
        show blankMsgsF (XForest.cons (blankNode (writeTranslation n s))
            (blankForest (applyMsgs f' q'))) =
          blankMsgsF (XForest.cons (blankNode n) (blankForest f'))
        rw [show blankMsgsF (XForest.cons (blankNode (writeTranslation n s))
              (blankForest (applyMsgs f' q'))) = XForest.cons
              (blankMsg (blankNode (writeTranslation n s)))
              (blankMsgsF (blankForest (applyMsgs f' q'))) from by
              simp [blankMsgsF, hbtw],
            show blankMsgsF (XForest.cons (blankNode n) (blankForest f')) =
              XForest.cons (blankMsg (blankNode n))
              (blankMsgsF (blankForest f')) from by simp [blankMsgsF, hbt],
            blankMsg_write n s hmc, blankMsgsF_applyMsgs f' q']
    · have happ : applyMsgs (XForest.cons n f') q =
          XForest.cons n (applyMsgs f' q) := by
        simp [applyMsgs, hm]
      rw [happ]
      have hbt : ¬ (blankNode n).tag = msgTag := by
        rw [tag_blankNode]; exact hm
      show blankMsgsF (XForest.cons (blankNode n)
          (blankForest (applyMsgs f' q))) =
        blankMsgsF (XForest.cons (blankNode n) (blankForest f'))
      rw [show blankMsgsF (XForest.cons (blankNode n)
            (blankForest (applyMsgs f' q))) = XForest.cons (blankNode n)
            (blankMsgsF (blankForest (applyMsgs f' q))) from by
            simp [blankMsgsF, hbt],
          show blankMsgsF (XForest.cons (blankNode n) (blankForest f')) =
            XForest.cons (blankNode n) (blankMsgsF (blankForest f')) from by
            simp [blankMsgsF, hbt],
          blankMsgsF_applyMsgs f' q]

mutual
/-- TSFile.save is invisible through the blanking mask: everything outside
the writable slots is preserved exactly. -/
theorem blank_tsUpd_node : (n : XNode) → ∀ q : List (List Char),
    blankNode (tsUpdNode n q).1 = blankNode n
  | .elem t a x cs => by
    intro q
    by_cases ht : t = ctxTag
    · have h1a : (tsUpdNode (XNode.elem t a x cs) q).1 =
          XNode.elem t a x (applyMsgs
            (tsUpdForest cs (q.drop (msgCountF cs))).1
            (q.take (msgCountF cs))) := by
        simp [tsUpdNode, ht]
      have ihf := blank_tsUpd_forest cs (q.drop (msgCountF cs))
      rw [h1a,
          show blankNode (XNode.elem t a x (applyMsgs
            (tsUpdForest cs (q.drop (msgCountF cs))).1
            (q.take (msgCountF cs)))) = XNode.elem t a x
            (blankMsgsF (blankForest (applyMsgs
              (tsUpdForest cs (q.drop (msgCountF cs))).1
              (q.take (msgCountF cs))))) from by simp [blankNode, ht],
          show blankNode (XNode.elem t a x cs) = XNode.elem t a x
            (blankMsgsF (blankForest cs)) from by simp [blankNode, ht],
          blankMsgsF_applyMsgs, ihf]
    · have h1a : (tsUpdNode (XNode.elem t a x cs) q).1 =
          XNode.elem t a x (tsUpdForest cs q).1 := by
        simp [tsUpdNode, ht]
      have ihf := blank_tsUpd_forest cs q
      rw [h1a,
          show blankNode (XNode.elem t a x (tsUpdForest cs q).1) =
            XNode.elem t a x (blankForest (tsUpdForest cs q).1) from by
            simp [blankNode, ht],
          show blankNode (XNode.elem t a x cs) = XNode.elem t a x
            (blankForest cs) from by simp [blankNode, ht],
          ihf]
theorem blank_tsUpd_forest : (f : XForest) → ∀ q : List (List Char),
    blankForest (tsUpdForest f q).1 = blankForest f
  | .nil => by intro q; rfl
  | .cons n f' => by
    intro q
    have ihn := blank_tsUpd_node n q
    have ihf := blank_tsUpd_forest f' (tsUpdNode n q).2
    show blankForest (XForest.cons (tsUpdNode n q).1
        (tsUpdForest f' (tsUpdNode n q).2).1) = _
    show XForest.cons (blankNode (tsUpdNode n q).1)
        (blankForest (tsUpdForest f' (tsUpdNode n q).2).1) =
      XForest.cons (blankNode n) (blankForest f')
    rw [ihn, ihf]
end

/-- The frame of TSFile.save on the whole document. -/
theorem tsBlank_tsSave (root : XNode) (q : List (List Char)) :
    tsBlank (tsSave root q) = tsBlank root := by
  cases root with
  | elem t a x cs =>
    show XNode.elem t a x (blankForest (tsUpdForest cs q).1) =
      XNode.elem t a x (blankForest cs)
    rw [blank_tsUpd_forest cs q]

/-!
Modelled from the spec: the XLIFF adapter (XLIFFFile).  The source tree
dispatches only .po and .ts files and contains no XLIFFFile class; the
adapter below follows the specification text — one entry per trans-unit
descendant, source text as source_text, target text as translated_text with
a missing target node meaning empty, the general needs_translation filter
for get_untranslated, and a save that writes the assigned text into the
unit's target node, creating the node when absent and leaving unrelated
nodes and attributes in place.
-/

def unitTag : List Char := str "trans-unit"

def targetTag : List Char := str "target"

mutual
/-- Modelled from the spec: all trans-unit descendants, in document order. -/
def xlfUnitsNode : XNode → List XNode
  | .elem t a x cs =>
    (if t = unitTag then [XNode.elem t a x cs] else []) ++ xlfUnitsForest cs
def xlfUnitsForest : XForest → List XNode
  | .nil => []
  | .cons n f => xlfUnitsNode n ++ xlfUnitsForest f
end

def xlfUnits (root : XNode) : List XNode :=
  xlfUnitsForest root.children

/-- Modelled from the spec: the entry of one trans-unit; a missing target
node (or one without text) yields an empty translated_text. -/
def xlfEntryOfUnit (u : XNode) : TranslationEntry :=
  { msgid := xFindtext srcTag u.children,
    msgstr := xFindtext targetTag u.children }

def xlfParseEntries (root : XNode) : List TranslationEntry :=
  (xlfUnits root).map xlfEntryOfUnit

/-- Modelled from the spec: get_untranslated uses the general
needs_translation predicate. -/
def xlf_get_untranslated (entries : List TranslationEntry) :
    List TranslationEntry :=
  entries.filter (fun e => e.needs_translation)

def setTextNode (n : XNode) (s : List Char) : XNode :=
  match n with
  | .elem t a _ cs => .elem t a (some s) cs

def replaceFirstTarget (s : List Char) : XForest → XForest
  | .nil => .nil
  | .cons n f =>
    if n.tag = targetTag then .cons (setTextNode n s) f
    else .cons n (replaceFirstTarget s f)

def appendF : XForest → XNode → XForest
  | .nil, n => .cons n .nil
  | .cons m f, n => .cons m (appendF f n)

/-- Modelled from the spec: write the assigned text into the unit's target
node, creating the node when absent. -/
def xlfWriteTarget (u : XNode) (s : List Char) : XNode :=
  match u with
  | .elem t a x cs =>
    if (xFind targetTag cs).isSome then .elem t a x (replaceFirstTarget s cs)
    else .elem t a x (appendF cs (XNode.elem targetTag [] (some s) .nil))

mutual
/-- Modelled from the spec: save as a pure rewrite — the queue holds one
entry per trans-unit in parse order, `some s` for an entry whose
translated_text was assigned (written back), `none` for an untouched one. -/
def xlfUpdNode (n : XNode) (q : List (Option (List Char))) :
    XNode × List (Option (List Char)) :=
  match n with
  | .elem t a x cs =>
    if t = unitTag then
      match q with
      | mo :: q' =>
        let p := xlfUpdForest cs q'
        (match mo with
         | some s => xlfWriteTarget (.elem t a x p.1) s
         | none => .elem t a x p.1, p.2)
      | [] =>
        let p := xlfUpdForest cs []
        (.elem t a x p.1, p.2)
    else
      let p := xlfUpdForest cs q
      (.elem t a x p.1, p.2)
def xlfUpdForest (f : XForest) (q : List (Option (List Char))) :
    XForest × List (Option (List Char)) :=
  match f with
  | .nil => (.nil, q)
  | .cons n f' =>
    let p := xlfUpdNode n q
    let r := xlfUpdForest f' p.2
    (.cons p.1 r.1, r.2)
end

def xlfSave (root : XNode) (q : List (Option (List Char))) : XNode :=
  match root with
  | .elem t a x cs => .elem t a x (xlfUpdForest cs q).1

mutual
/-- The entries below a node, in parse order. -/
def xlfEntriesNode : XNode → List TranslationEntry
  | .elem t a x cs =>
    (if t = unitTag then [xlfEntryOfUnit (XNode.elem t a x cs)] else []) ++
      xlfEntriesForest cs
def xlfEntriesForest : XForest → List TranslationEntry
  | .nil => []
  | .cons n f => xlfEntriesNode n ++ xlfEntriesForest f
end

/-- The save effect in entry space: `some s` sets translated_text, `none`
keeps the entry. -/
def zipOptEntry : List TranslationEntry → List (Option (List Char)) →
    List TranslationEntry
  | [], _ => []
  | es, [] => es
  | e :: es, mo :: q =>
    (match mo with
     | some s => { e with msgstr := s }
     | none => e) :: zipOptEntry es q

mutual
theorem xlfParse_entries_node : (n : XNode) →
    (xlfUnitsNode n).map xlfEntryOfUnit = xlfEntriesNode n
  | .elem t a x cs => by
    have ih := xlfParse_entries_forest cs
    by_cases ht : t = unitTag
    · simp [xlfUnitsNode, xlfEntriesNode, ht, ih]
    · simp [xlfUnitsNode, xlfEntriesNode, ht, ih]
theorem xlfParse_entries_forest : (f : XForest) →
    (xlfUnitsForest f).map xlfEntryOfUnit = xlfEntriesForest f
  | .nil => rfl
  | .cons n f' => by
    have ihn := xlfParse_entries_node n
    have ihf := xlfParse_entries_forest f'
    show (xlfUnitsNode n ++ xlfUnitsForest f').map xlfEntryOfUnit =
      xlfEntriesNode n ++ xlfEntriesForest f'
    rw [List.map_append, ihn, ihf]
end

theorem xlfParse_eq_entriesForest (root : XNode) :
    xlfParseEntries root = xlfEntriesForest root.children :=
  xlfParse_entries_forest root.children

theorem tag_setTextNode (n : XNode) (s : List Char) :
    (setTextNode n s).tag = n.tag := by
  cases n with
  | elem t a x cs => rfl

theorem children_setTextNode (n : XNode) (s : List Char) :
    (setTextNode n s).children = n.children := by
  cases n with
  | elem t a x cs => rfl

theorem xFind_replaceFirstTarget (tg : List Char) (htg : ¬ tg = targetTag)
    (s : List Char) :
    (f : XForest) → xFind tg (replaceFirstTarget s f) = xFind tg f
  | .nil => rfl
  | .cons n f' => by
    by_cases ht : n.tag = targetTag
    · have h1 : replaceFirstTarget s (XForest.cons n f') =
          XForest.cons (setTextNode n s) f' := by
        simp [replaceFirstTarget, ht]
      have hne : ¬ n.tag = tg := by
        intro hc
        exact htg (hc ▸ ht)
      rw [h1]
      simp [xFind, tag_setTextNode, hne]
    · have h1 : replaceFirstTarget s (XForest.cons n f') =
          XForest.cons n (replaceFirstTarget s f') := by
        simp [replaceFirstTarget, ht]
      rw [h1]
      by_cases he : n.tag = tg
      · simp [xFind, he]
      · rw [show xFind tg (XForest.cons n (replaceFirstTarget s f')) =
              xFind tg (replaceFirstTarget s f') from by simp [xFind, he],
            show xFind tg (XForest.cons n f') = xFind tg f' from by
              simp [xFind, he]]
        exact xFind_replaceFirstTarget tg htg s f'

theorem xFind_target_replaceFirstTarget (s : List Char) :
    (f : XForest) → xFind targetTag (replaceFirstTarget s f) =
      (xFind targetTag f).map (fun n => setTextNode n s)
  | .nil => rfl
  | .cons n f' => by
    by_cases ht : n.tag = targetTag
    · have h1 : replaceFirstTarget s (XForest.cons n f') =
          XForest.cons (setTextNode n s) f' := by
        simp [replaceFirstTarget, ht]
      have h2 : (setTextNode n s).tag = targetTag := by
        rw [tag_setTextNode]; exact ht
      rw [h1]
      simp [xFind, h2, ht]
    · have h1 : replaceFirstTarget s (XForest.cons n f') =
          XForest.cons n (replaceFirstTarget s f') := by
        simp [replaceFirstTarget, ht]
      rw [h1,
          show xFind targetTag (XForest.cons n (replaceFirstTarget s f')) =
            xFind targetTag (replaceFirstTarget s f') from by
            simp [xFind, ht],
          show xFind targetTag (XForest.cons n f') = xFind targetTag f'
            from by simp [xFind, ht]]
      exact xFind_target_replaceFirstTarget s f'

theorem xFind_appendF_of_some (tg : List Char) (m n : XNode) :
    (f : XForest) → xFind tg f = some m →
      xFind tg (appendF f n) = some m
  | .nil => by intro h; exact absurd h (by simp [xFind])
  | .cons k f' => by
    intro h
    by_cases he : k.tag = tg
    · have : k = m := by
        have := h
        rw [show xFind tg (XForest.cons k f') = some k from by
          simp [xFind, he]] at this
        exact Option.some.inj this
      subst this
      show xFind tg (XForest.cons k (appendF f' n)) = some k
      simp [xFind, he]
    · rw [show xFind tg (XForest.cons k f') = xFind tg f' from by
          simp [xFind, he]] at h
      show xFind tg (XForest.cons k (appendF f' n)) = some m
      rw [show xFind tg (XForest.cons k (appendF f' n)) =
            xFind tg (appendF f' n) from by simp [xFind, he]]
      exact xFind_appendF_of_some tg m n f' h

theorem xFind_appendF_of_none (tg : List Char) (n : XNode) :
    (f : XForest) → xFind tg f = none →
      xFind tg (appendF f n) = if n.tag = tg then some n else none
  | .nil => by
    intro _
    show xFind tg (XForest.cons n XForest.nil) = _
    by_cases he : n.tag = tg
    · simp [xFind, he]
    · simp [xFind, he]
  | .cons k f' => by
    intro h
    by_cases he : k.tag = tg
    · rw [show xFind tg (XForest.cons k f') = some k from by
        simp [xFind, he]] at h
      exact absurd h (by simp)
    · rw [show xFind tg (XForest.cons k f') = xFind tg f' from by
          simp [xFind, he]] at h
      show xFind tg (XForest.cons k (appendF f' n)) = _
      rw [show xFind tg (XForest.cons k (appendF f' n)) =
            xFind tg (appendF f' n) from by simp [xFind, he]]
      exact xFind_appendF_of_none tg n f' h

theorem tag_xlfWriteTarget (u : XNode) (s : List Char) :
    (xlfWriteTarget u s).tag = u.tag := by
  cases u with
  | elem t a x cs =>
    by_cases hc : (xFind targetTag cs).isSome
    · simp [xlfWriteTarget, hc, XNode.tag]
    · simp [xlfWriteTarget, hc, XNode.tag]

/-- Modelled save on one unit, seen in entry space: translated_text is set,
source text untouched. -/
theorem xlfEntryOfUnit_write (u : XNode) (s : List Char) :
    xlfEntryOfUnit (xlfWriteTarget u s) =
      { xlfEntryOfUnit u with msgstr := s } := by
  cases u with
  | elem t a x cs =>
    by_cases hc : (xFind targetTag cs).isSome
    · have hw : xlfWriteTarget (XNode.elem t a x cs) s =
          XNode.elem t a x (replaceFirstTarget s cs) := by
        simp [xlfWriteTarget, hc]
      obtain ⟨te, hte⟩ := Option.isSome_iff_exists.mp hc
      have h1 : xFindtext srcTag (replaceFirstTarget s cs) =
          xFindtext srcTag cs := by
        unfold xFindtext
        rw [xFind_replaceFirstTarget srcTag (by decide) s cs]
      have h2 : xFindtext targetTag (replaceFirstTarget s cs) = s := by
        unfold xFindtext
        rw [xFind_target_replaceFirstTarget s cs, hte]
        show (setTextNode te s).text.getD [] = s
        cases te with
        | elem tt ta tx tcs => rfl
      rw [hw]
      show ({ msgid := xFindtext srcTag (replaceFirstTarget s cs),
              msgstr := xFindtext targetTag (replaceFirstTarget s cs) } :
            TranslationEntry) =
        { msgid := xFindtext srcTag cs, msgstr := s }
      rw [h1, h2]
    · have hw : xlfWriteTarget (XNode.elem t a x cs) s =
          XNode.elem t a x
            (appendF cs (XNode.elem targetTag [] (some s) .nil)) := by
        simp [xlfWriteTarget, hc]
      have hnone : xFind targetTag cs = none :=
        Option.not_isSome_iff_eq_none.mp hc
      have htag : (XNode.elem targetTag [] (some s) XForest.nil).tag =
          targetTag := rfl
      have h1 : xFindtext srcTag
          (appendF cs (XNode.elem targetTag [] (some s) .nil)) =
          xFindtext srcTag cs := by
        unfold xFindtext
        cases hx : xFind srcTag cs with
        | some m =>
          rw [xFind_appendF_of_some srcTag m _ cs hx]
        | none =>
          rw [xFind_appendF_of_none srcTag _ cs hx, htag,
              if_neg (by decide : ¬ targetTag = srcTag)]
      have h2 : xFindtext targetTag
          (appendF cs (XNode.elem targetTag [] (some s) .nil)) = s := by
        unfold xFindtext
        rw [xFind_appendF_of_none targetTag _ cs hnone, htag, if_pos rfl]
        rfl
      rw [hw]
      show ({ msgid := xFindtext srcTag
                (appendF cs (XNode.elem targetTag [] (some s) .nil)),
              msgstr := xFindtext targetTag
                (appendF cs (XNode.elem targetTag [] (some s) .nil)) } :
            TranslationEntry) =
        { msgid := xFindtext srcTag cs, msgstr := s }
      rw [h1, h2]

theorem xlfEntriesNode_eq (n : XNode) :
    xlfEntriesNode n = (if n.tag = unitTag then [xlfEntryOfUnit n] else []) ++
      xlfEntriesForest n.children := by
  cases n with
  | elem t a x cs => rfl

theorem xlfEntriesNode_setTextNode (n : XNode) (s : List Char) :
    xlfEntriesNode (setTextNode n s) = xlfEntriesNode n := by
  cases n with
  | elem t a x cs =>
    rw [xlfEntriesNode_eq, xlfEntriesNode_eq]
    have h1 : (setTextNode (XNode.elem t a x cs) s).tag =
        (XNode.elem t a x cs).tag := tag_setTextNode _ s
    rw [h1]
    have h2 : xlfEntryOfUnit (setTextNode (XNode.elem t a x cs) s) =
        xlfEntryOfUnit (XNode.elem t a x cs) := rfl
    rw [h2]
    rfl

theorem xlfEntriesForest_replaceFirstTarget (s : List Char) :
    (f : XForest) →
      xlfEntriesForest (replaceFirstTarget s f) = xlfEntriesForest f
  | .nil => rfl
  | .cons n f' => by
    by_cases ht : n.tag = targetTag
    · have h1 : replaceFirstTarget s (XForest.cons n f') =
          XForest.cons (setTextNode n s) f' := by
        simp [replaceFirstTarget, ht]
      rw [h1]
      show xlfEntriesNode (setTextNode n s) ++ xlfEntriesForest f' =
        xlfEntriesNode n ++ xlfEntriesForest f'
      rw [xlfEntriesNode_setTextNode]
    · have h1 : replaceFirstTarget s (XForest.cons n f') =
          XForest.cons n (replaceFirstTarget s f') := by
        simp [replaceFirstTarget, ht]
      rw [h1]
      show xlfEntriesNode n ++ xlfEntriesForest (replaceFirstTarget s f') =
        xlfEntriesNode n ++ xlfEntriesForest f'
      rw [xlfEntriesForest_replaceFirstTarget s f']

theorem xlfEntriesForest_appendF_target (s : List Char) :
    (f : XForest) →
      xlfEntriesForest (appendF f (XNode.elem targetTag [] (some s) .nil)) =
        xlfEntriesForest f
  | .nil => by
    show xlfEntriesNode (XNode.elem targetTag [] (some s) XForest.nil) ++
      xlfEntriesForest XForest.nil = xlfEntriesForest XForest.nil
    rw [xlfEntriesNode_eq,
        show (XNode.elem targetTag [] (some s) XForest.nil).tag =
          targetTag from rfl,
        if_neg (by decide : ¬ targetTag = unitTag)]
    rfl
  | .cons n f' => by
    show xlfEntriesNode n ++ xlfEntriesForest
        (appendF f' (XNode.elem targetTag [] (some s) .nil)) =
      xlfEntriesNode n ++ xlfEntriesForest f'
    rw [xlfEntriesForest_appendF_target s f']

theorem xlfEntriesForest_write (t : List Char)
    (a : List (List Char × List Char)) (x : Option (List Char))
    (f : XForest) (s : List Char) :
    xlfEntriesForest (xlfWriteTarget (XNode.elem t a x f) s).children =
      xlfEntriesForest f := by
  by_cases hc : (xFind targetTag f).isSome
  · have hw : xlfWriteTarget (XNode.elem t a x f) s =
        XNode.elem t a x (replaceFirstTarget s f) := by
      simp [xlfWriteTarget, hc]
    rw [hw]
    exact xlfEntriesForest_replaceFirstTarget s f
  · have hw : xlfWriteTarget (XNode.elem t a x f) s =
        XNode.elem t a x
          (appendF f (XNode.elem targetTag [] (some s) .nil)) := by
      simp [xlfWriteTarget, hc]
    rw [hw]
    exact xlfEntriesForest_appendF_target s f

theorem xlfUpdNode_top (n : XNode) (q : List (Option (List Char))) :
    (xlfUpdNode n q).1.tag = n.tag ∧
    trView (xlfUpdNode n q).1 = trView n := by
  cases n with
  | elem t a x cs =>
    by_cases ht : t = unitTag
    · cases q with
      | nil =>
        constructor <;>
          simp [xlfUpdNode, ht, XNode.tag, trView, XNode.text, XNode.attrs]
      | cons mo q' =>
        cases mo with
        | none =>
          constructor <;>
            simp [xlfUpdNode, ht, XNode.tag, trView, XNode.text, XNode.attrs]
        | some s =>
          by_cases hc :
              (xFind targetTag (xlfUpdForest cs q').1).isSome
          · constructor <;>
              simp [xlfUpdNode, ht, xlfWriteTarget, hc, XNode.tag, trView,
                XNode.text, XNode.attrs, XNode.children]
          · constructor <;>
              simp [xlfUpdNode, ht, xlfWriteTarget, hc, XNode.tag, trView,
                XNode.text, XNode.attrs, XNode.children]
    · constructor <;>
        simp [xlfUpdNode, ht, XNode.tag, trView, XNode.text, XNode.attrs]

theorem xFindLoc_xlfUpdForest (tg : List Char) :
    (f : XForest) → ∀ q : List (Option (List Char)),
      (xFind tg (xlfUpdForest f q).1).map trView =
        (xFind tg f).map trView
  | .nil => by intro q; rfl
  | .cons n f' => by
    intro q
    have htop := xlfUpdNode_top n q
    show (xFind tg (XForest.cons (xlfUpdNode n q).1
        (xlfUpdForest f' (xlfUpdNode n q).2).1)).map trView = _
    by_cases he : n.tag = tg
    · simp [xFind, htop.1, he, htop.2]
    · have he2 : ¬ (xlfUpdNode n q).1.tag = tg := by
        rw [htop.1]; exact he
      rw [show xFind tg (XForest.cons (xlfUpdNode n q).1
            (xlfUpdForest f' (xlfUpdNode n q).2).1) =
            xFind tg (xlfUpdForest f' (xlfUpdNode n q).2).1 from by
            simp [xFind, he2],
          show xFind tg (XForest.cons n f') = xFind tg f' from by
            simp [xFind, he]]
      exact xFindLoc_xlfUpdForest tg f' (xlfUpdNode n q).2

theorem xlfEntry_inv (t : List Char) (a : List (List Char × List Char))
    (x : Option (List Char)) (cs : XForest)
    (q : List (Option (List Char))) :
    xlfEntryOfUnit (XNode.elem t a x (xlfUpdForest cs q).1) =
      xlfEntryOfUnit (XNode.elem t a x cs) := by
  show ({ msgid := xFindtext srcTag (xlfUpdForest cs q).1,
          msgstr := xFindtext targetTag (xlfUpdForest cs q).1 } :
        TranslationEntry) =
    { msgid := xFindtext srcTag cs, msgstr := xFindtext targetTag cs }
  rw [xFindtext_of_loc srcTag _ _ (xFindLoc_xlfUpdForest srcTag cs q),
      xFindtext_of_loc targetTag _ _ (xFindLoc_xlfUpdForest targetTag cs q)]

theorem zipOptEntry_nil : ∀ es : List TranslationEntry,
    zipOptEntry es [] = es
  | [] => rfl
  | _ :: _ => rfl

theorem zipOptEntry_append :
    (A : List TranslationEntry) →
    ∀ (B : List TranslationEntry) (q : List (Option (List Char))),
      zipOptEntry (A ++ B) q =
        zipOptEntry A (q.take A.length) ++ zipOptEntry B (q.drop A.length)
  | [], B, q => by
    show zipOptEntry B q = zipOptEntry [] (q.take 0) ++ zipOptEntry B (q.drop 0)
    rw [List.take_zero, List.drop_zero]
    rfl
  | e :: A, B, q => by
    cases q with
    | nil =>
      rw [List.take_nil, List.drop_nil, zipOptEntry_nil, zipOptEntry_nil,
          zipOptEntry_nil]
    | cons mo q' =>
      show (match mo with
            | some s => { e with msgstr := s }
            | none => e) :: zipOptEntry (A ++ B) q' =
        zipOptEntry (e :: A) ((mo :: q').take (A.length + 1)) ++
          zipOptEntry B ((mo :: q').drop (A.length + 1))
      rw [List.take_succ_cons, List.drop_succ_cons]
      show (match mo with
            | some s => { e with msgstr := s }
            | none => e) :: zipOptEntry (A ++ B) q' =
        ((match mo with
          | some s => { e with msgstr := s }
          | none => e) :: zipOptEntry A (q'.take A.length)) ++
          zipOptEntry B (q'.drop A.length)
      rw [List.cons_append, zipOptEntry_append A B q']

theorem zipOptEntry_take :
    (es : List TranslationEntry) → ∀ q : List (Option (List Char)),
      zipOptEntry es q = zipOptEntry es (q.take es.length)
  | [], q => by cases q <;> rfl
  | _ :: _, [] => rfl
  | e :: es, mo :: q => by
    show (match mo with
          | some s => { e with msgstr := s }
          | none => e) :: zipOptEntry es q =
      zipOptEntry (e :: es) ((mo :: q).take (es.length + 1))
    rw [List.take_succ_cons]
    show (match mo with
          | some s => { e with msgstr := s }
          | none => e) :: zipOptEntry es q =
      (match mo with
       | some s => { e with msgstr := s }
       | none => e) :: zipOptEntry es (q.take es.length)
    rw [zipOptEntry_take es q]

mutual
/-- Modelled save in entry space: the queue is applied positionally to the
entries in parse order, and the leftover queue is the part beyond them. -/
theorem xlfUpd_entries_node : (n : XNode) →
    ∀ q : List (Option (List Char)),
    xlfEntriesNode (xlfUpdNode n q).1 = zipOptEntry (xlfEntriesNode n) q ∧
    (xlfUpdNode n q).2 = q.drop (xlfEntriesNode n).length
  | .elem t a x cs => by
    intro q
    by_cases ht : t = unitTag
    · cases q with
      | nil =>
        have ihf := xlfUpd_entries_forest cs []
        have h1a : (xlfUpdNode (XNode.elem t a x cs) []).1 =
            XNode.elem t a x (xlfUpdForest cs []).1 := by
          simp [xlfUpdNode, ht]
        have h1b : (xlfUpdNode (XNode.elem t a x cs) []).2 =
            (xlfUpdForest cs []).2 := by
          simp [xlfUpdNode, ht]
        constructor
        · rw [h1a]
          simp only [xlfEntriesNode]
          rw [if_pos ht, if_pos ht, xlfEntry_inv, ihf.1, zipOptEntry_nil,
              zipOptEntry_nil]
        · rw [h1b, ihf.2, List.drop_nil, List.drop_nil]
      | cons mo q' =>
        have ihf := xlfUpd_entries_forest cs q'
        cases mo with
        | none =>
          have h1a : (xlfUpdNode (XNode.elem t a x cs) (none :: q')).1 =
              XNode.elem t a x (xlfUpdForest cs q').1 := by
            simp [xlfUpdNode, ht]
          have h1b : (xlfUpdNode (XNode.elem t a x cs) (none :: q')).2 =
              (xlfUpdForest cs q').2 := by
            simp [xlfUpdNode, ht]
          constructor
          · rw [h1a]
            simp only [xlfEntriesNode]
            rw [if_pos ht, if_pos ht, xlfEntry_inv, ihf.1]
            rfl
          · rw [h1b, ihf.2]
            show (q').drop (xlfEntriesForest cs).length =
              (none :: q').drop
                ((if t = unitTag then
                    [xlfEntryOfUnit (XNode.elem t a x cs)] else []) ++
                  xlfEntriesForest cs).length
            rw [if_pos ht, List.singleton_append, List.length_cons,
                List.drop_succ_cons]
        | some s =>
          have h1a : (xlfUpdNode (XNode.elem t a x cs) (some s :: q')).1 =
              xlfWriteTarget (XNode.elem t a x (xlfUpdForest cs q').1) s := by
            simp [xlfUpdNode, ht]
          have h1b : (xlfUpdNode (XNode.elem t a x cs) (some s :: q')).2 =
              (xlfUpdForest cs q').2 := by
            simp [xlfUpdNode, ht]
          constructor
          · rw [h1a, xlfEntriesNode_eq, tag_xlfWriteTarget]
            have htag : (XNode.elem t a x (xlfUpdForest cs q').1).tag = t :=
              rfl
            rw [htag, if_pos ht, xlfEntryOfUnit_write, xlfEntry_inv,
                xlfEntriesForest_write, ihf.1]
            show ({ xlfEntryOfUnit (XNode.elem t a x cs) with msgstr := s } ::
                zipOptEntry (xlfEntriesForest cs) q') =
              zipOptEntry ((if t = unitTag then
                  [xlfEntryOfUnit (XNode.elem t a x cs)] else []) ++
                xlfEntriesForest cs) (some s :: q')
            rw [if_pos ht, List.singleton_append]
            rfl
          · rw [h1b, ihf.2]
            show (q').drop (xlfEntriesForest cs).length =
              (some s :: q').drop
                ((if t = unitTag then
                    [xlfEntryOfUnit (XNode.elem t a x cs)] else []) ++
                  xlfEntriesForest cs).length
            rw [if_pos ht, List.singleton_append, List.length_cons,
                List.drop_succ_cons]
    · have ihf := xlfUpd_entries_forest cs q
      have h1a : (xlfUpdNode (XNode.elem t a x cs) q).1 =
          XNode.elem t a x (xlfUpdForest cs q).1 := by
        simp [xlfUpdNode, ht]
      have h1b : (xlfUpdNode (XNode.elem t a x cs) q).2 =
          (xlfUpdForest cs q).2 := by
        simp [xlfUpdNode, ht]
      constructor
      · rw [h1a]
        simp only [xlfEntriesNode]
        rw [if_neg ht, if_neg ht, List.nil_append, List.nil_append, ihf.1]
      · rw [h1b, ihf.2]
        congr 1
        simp only [xlfEntriesNode]
        rw [if_neg ht, List.nil_append]
theorem xlfUpd_entries_forest : (f : XForest) →
    ∀ q : List (Option (List Char)),
    xlfEntriesForest (xlfUpdForest f q).1 =
      zipOptEntry (xlfEntriesForest f) q ∧
    (xlfUpdForest f q).2 = q.drop (xlfEntriesForest f).length
  | .nil => by
    intro q
    constructor
    · show xlfEntriesForest XForest.nil =
        zipOptEntry (xlfEntriesForest XForest.nil) q
      cases q <;> rfl
    · rfl
  | .cons n f' => by
    intro q
    have ihn := xlfUpd_entries_node n q
    have ihf := xlfUpd_entries_forest f' (xlfUpdNode n q).2
    have h1a : (xlfUpdForest (XForest.cons n f') q).1 =
        XForest.cons (xlfUpdNode n q).1
          (xlfUpdForest f' (xlfUpdNode n q).2).1 := rfl
    have h1b : (xlfUpdForest (XForest.cons n f') q).2 =
        (xlfUpdForest f' (xlfUpdNode n q).2).2 := rfl
    constructor
    · rw [h1a]
      show xlfEntriesNode (xlfUpdNode n q).1 ++
          xlfEntriesForest (xlfUpdForest f' (xlfUpdNode n q).2).1 =
        zipOptEntry (xlfEntriesNode n ++ xlfEntriesForest f') q
      rw [ihn.1, ihf.1, ihn.2,
          zipOptEntry_append (xlfEntriesNode n) (xlfEntriesForest f') q,
          ← zipOptEntry_take (xlfEntriesNode n) q]
    · rw [h1b, ihf.2, ihn.2, List.drop_drop]
      congr 1
      rw [show xlfEntriesForest (XForest.cons n f') =
            xlfEntriesNode n ++ xlfEntriesForest f' from rfl,
          List.length_append]
end

/-- Modelled save and reparse of a whole XLIFF document. -/
theorem xlfSave_parse (root : XNode) (q : List (Option (List Char))) :
    xlfParseEntries (xlfSave root q) =
      zipOptEntry (xlfParseEntries root) q := by
  cases root with
  | elem t a x cs =>
    rw [xlfParse_eq_entriesForest, xlfParse_eq_entriesForest]
    show xlfEntriesForest (xlfUpdForest cs q).1 =
      zipOptEntry (xlfEntriesForest cs) q
    exact (xlfUpd_entries_forest cs q).1

/-!
Path handling (POSIX): pathlib's Path(p).name drops directory parts, empty
parts and single-dot parts; Path(p).suffix is the part of the name from its
last dot, empty when that dot is the first character or the last one.
str.lower on the ASCII extensions at play is a character-wise map.
-/

def pyName (p : List Char) : List Char :=
  ((splitOnChar '/' p).filter
    (fun c => ¬ c = [] ∧ ¬ c = ['.'])).getLastD []

def firstDotIdx : List Char → Option Nat
  | [] => none
  | c :: cs => if c = '.' then some 0 else (firstDotIdx cs).map (· + 1)

/-- Path(p).suffix: name[i:] where i is the index of the last dot of the
name, provided 0 < i < len(name) - 1 (computed from the reversed name). -/
def pySuffix (p : List Char) : List Char :=
  let name := pyName p
  match firstDotIdx name.reverse with
  | none => []
  | some j =>
    if 0 < j ∧ j < name.length - 1 then (name.reverse.take (j + 1)).reverse
    else []

def pyLower (s : List Char) : List Char := s.map Char.toLower

/-- The batch slices untranslated[i:i+B] of the driver loop, via a fuel
argument (one element is consumed per step, so the list length is enough
fuel for any B ≥ 1). -/
def chunksGo (B : Nat) : Nat → List α → List (List α)
  | 0, _ => []
  | _, [] => []
  | Nat.succ fuel, x :: xs =>
    (x :: xs.take (B - 1)) :: chunksGo B fuel (xs.drop (B - 1))

def chunks (B : Nat) (l : List α) : List (List α) := chunksGo B l.length l

/-- One backend call per batch; within a batch, zip(batch, translations)
assigns positionally and stops at the shorter side, so result positions
beyond the returned length are left unassigned (none). -/
def assignsOfGroups (bk : List (List Char) → List (List Char))
    (groups : List (List (List Char))) : List (Option (List Char)) :=
  groups.flatMap (fun g =>
    ((bk g).take g.length).map some ++
      List.replicate (g.length - (bk g).length) none)

/-- translated_count: one increment per zip pair. -/
def countSome (q : List (Option (List Char))) : Nat :=
  (q.filter (fun o => o.isSome)).length

/-- The in-place msgstr assignments seen on the full entry list: the
untranslated entries (those satisfying the adapter's predicate) receive the
queued assignments in order, everything else is untouched. -/
def mergeBack (pred : TranslationEntry → Bool) :
    List TranslationEntry → List (Option (List Char)) →
      List TranslationEntry
  | [], _ => []
  | e :: es, q =>
    if pred e then
      match q with
      | mo :: q' =>
        (match mo with
         | some s => { e with msgstr := s }
         | none => e) :: mergeBack pred es q'
      | [] => e :: mergeBack pred es []
    else e :: mergeBack pred es q

/-- The observable outcome of translate_file: the returned error marker and
counters, the text groups sent to the backend (in call order), the final
in-memory entry list, and the file contents written by save (none = no
write). -/
structure TFResult where
  error : Option (List Char) := none
  translated : Nat := 0
  total : Nat := 0
  calls : List (List (List Char)) := []
  entriesAfter : List TranslationEntry := []
  savedPo : Option (List Char) := none
  savedTs : Option XNode := none
deriving DecidableEq, Repr

/-- translate_file: extension dispatch on Path(filepath).suffix.lower(),
early return with an error marker for unsupported formats (before any
backend call or write), early return when nothing is untranslated (no save
either), otherwise the batch loop followed by save unless dry_run.  The
backend is the translate_batch function of the translator. -/
def translateFile (filepath poContent : List Char) (tsRoot : XNode)
    (bk : List (List Char) → List (List Char)) (B : Nat) (dryRun : Bool) :
    TFResult :=
  let ext := pyLower (pySuffix filepath)
  if ext = str ".po" then
    let entries := poParse poContent
    let untr := po_get_untranslated entries
    if untr.isEmpty then
      { translated := 0, total := entries.length, entriesAfter := entries }
    else
      let groups := chunks B (untr.map (fun e => e.msgid))
      let assigns := assignsOfGroups bk groups
      let merged := mergeBack (fun e => e.needs_translation) entries assigns
      { translated := countSome assigns, total := entries.length,
        calls := groups, entriesAfter := merged,
        savedPo := if dryRun then none else some (poSave merged) }
  else if ext = str ".ts" then
    let entries := tsParseEntries tsRoot
    let untr := ts_get_untranslated entries
    if untr.isEmpty then
      { translated := 0, total := entries.length, entriesAfter := entries }
    else
      let groups := chunks B (untr.map (fun e => e.msgid))
      let assigns := assignsOfGroups bk groups
      let merged := mergeBack
        (fun e => e.needs_translation || e.flags.contains unfinishedFlag)
        entries assigns
      { translated := countSome assigns, total := entries.length,
        calls := groups, entriesAfter := merged,
        savedTs := if dryRun then none
                   else some (tsSave tsRoot (merged.map (fun e => e.msgstr))) }
  else
    { error := some (str "Unsupported format: " ++ ext) }

/-- An input path of find_files: an existing file, a directory (with the
relative paths of the files below it, which path.glob filters), or a path
that is neither. -/
inductive PathSpec where
  | file : List Char → PathSpec
  | dir : List Char → List (List Char) → PathSpec
  | missing : List Char → PathSpec
deriving DecidableEq, Repr

/-- path.glob of pattern-plus-ext on the files below a directory: keeps the
relative paths that literally end in ext (pathlib's glob matches hidden
names too: '*' can match the empty string and a leading dot), and only
direct children when not recursive. -/
def globList (recursive : Bool) (ext : List Char)
    (names : List (List Char)) : List (List Char) :=
  names.filter (fun nm =>
    ext.isSuffixOf nm && (recursive || decide (¬ '/' ∈ nm)))

/-- find_files: direct files are kept when suffix.lower() is .po or .ts;
directories contribute their glob matches for .po then .ts. -/
def findFiles (paths : List PathSpec) (recursive : Bool) :
    List (List Char) :=
  paths.flatMap (fun p =>
    match p with
    | .file pa =>
      if pyLower (pySuffix pa) = str ".po" ∨ pyLower (pySuffix pa) = str ".ts"
      then [pa] else []
    | .dir pa names =>
      (globList recursive (str ".po") names).map (fun nm => pa ++ '/' :: nm)
        ++ (globList recursive (str ".ts") names).map
            (fun nm => pa ++ '/' :: nm)
    | .missing _ => [])

theorem chunksGo_flatten (B : Nat) :
    ∀ (fuel : Nat) (l : List α), l.length ≤ fuel →
      (chunksGo B fuel l).flatten = l := by
  intro fuel
  induction fuel with
  | zero =>
    intro l hl
    have : l = [] := List.eq_nil_of_length_eq_zero (Nat.le_zero.mp hl)
    subst this
    rfl
  | succ fuel ih =>
    intro l hl
    cases l with
    | nil => rfl
    | cons x xs =>
      show ((x :: xs.take (B - 1)) ::
        chunksGo B fuel (xs.drop (B - 1))).flatten = x :: xs
      rw [List.flatten_cons,
          ih (xs.drop (B - 1)) (by
            rw [List.length_drop]
            have : xs.length ≤ fuel := Nat.succ_le_succ_iff.mp hl
            omega),
          List.cons_append, List.take_append_drop]

/-- The batches concatenate back to the untranslated texts, in order. -/
theorem chunks_flatten (B : Nat) (l : List α) :
    (chunks B l).flatten = l :=
  chunksGo_flatten B l.length l (Nat.le_refl _)

theorem chunksGo_length (B : Nat) (hB : 1 ≤ B) :
    ∀ (fuel : Nat) (l : List α), l.length ≤ fuel →
      (chunksGo B fuel l).length = (l.length + B - 1) / B := by
  intro fuel
  induction fuel with
  | zero =>
    intro l hl
    have : l = [] := List.eq_nil_of_length_eq_zero (Nat.le_zero.mp hl)
    subst this
    show 0 = (0 + B - 1) / B
    rw [Nat.zero_add, Nat.div_eq_of_lt (by omega)]
  | succ fuel ih =>
    intro l hl
    cases l with
    | nil =>
      show 0 = (0 + B - 1) / B
      rw [Nat.zero_add, Nat.div_eq_of_lt (by omega)]
    | cons x xs =>
      show ((x :: xs.take (B - 1)) ::
        chunksGo B fuel (xs.drop (B - 1))).length = _
      rw [List.length_cons,
          ih (xs.drop (B - 1)) (by
            rw [List.length_drop]
            have : xs.length ≤ fuel := Nat.succ_le_succ_iff.mp hl
            omega),
          List.length_drop]
      have hxB : (x :: xs).length + B - 1 = xs.length + B := by
        rw [List.length_cons]; omega
      rw [hxB, Nat.add_div_right xs.length hB]
      by_cases hc : B - 1 ≤ xs.length
      · have h1 : xs.length - (B - 1) + B - 1 = xs.length := by omega
        rw [h1]
      · have h1 : xs.length - (B - 1) = 0 := by omega
        rw [h1, Nat.zero_add, Nat.div_eq_of_lt (by omega),
            Nat.div_eq_of_lt (by omega)]

/-- The backend is called once per batch: exactly ceil(N / B) times. -/
theorem chunks_length (B : Nat) (hB : 1 ≤ B) (l : List α) :
    (chunks B l).length = (l.length + B - 1) / B :=
  chunksGo_length B hB l.length l (Nat.le_refl _)

theorem chunksGo_sizes (B : Nat) (hB : 1 ≤ B) :
    ∀ (fuel : Nat) (l : List α), ∀ g ∈ chunksGo B fuel l,
      ¬ g = [] ∧ g.length ≤ B := by
  intro fuel
  induction fuel with
  | zero => intro l g hg; exact absurd hg (by cases l <;> simp [chunksGo])
  | succ fuel ih =>
    intro l g hg
    cases l with
    | nil => exact absurd hg (by simp [chunksGo])
    | cons x xs =>
      rw [show chunksGo B (fuel + 1) (x :: xs) = (x :: xs.take (B - 1)) ::
        chunksGo B fuel (xs.drop (B - 1)) from rfl] at hg
      rcases List.mem_cons.mp hg with h | h
      · subst h
        refine ⟨by simp, ?_⟩
        rw [List.length_cons, List.length_take]
        omega
      · exact ih (xs.drop (B - 1)) g h

/-- Every batch is a non-empty group of at most B texts. -/
theorem chunks_sizes (B : Nat) (hB : 1 ≤ B) (l : List α) :
    ∀ g ∈ chunks B l, ¬ g = [] ∧ g.length ≤ B :=
  chunksGo_sizes B hB l.length l

theorem countSome_append (a b : List (Option (List Char))) :
    countSome (a ++ b) = countSome a + countSome b := by
  unfold countSome
  rw [List.filter_append, List.length_append]

/-- When every call returns exactly as many texts as requested, every
position is assigned and the zip covers the whole batch. -/
theorem countSome_assigns_exact (bk : List (List Char) → List (List Char)) :
    ∀ groups : List (List (List Char)),
      (∀ g ∈ groups, (bk g).length = g.length) →
      countSome (assignsOfGroups bk groups) = groups.flatten.length
  | [] => fun _ => rfl
  | g :: gs => fun h => by
    have hg : (bk g).length = g.length := h g (by simp)
    show countSome ((((bk g).take g.length).map some ++
        List.replicate (g.length - (bk g).length) none) ++
        assignsOfGroups bk gs) = _
    rw [countSome_append, countSome_assigns_exact bk gs
          (fun g' hg' => h g' (by simp [hg'])),
        hg, Nat.sub_self, List.replicate_zero, List.append_nil,
        ← hg, List.take_length]
    show countSome ((bk g).map some) + gs.flatten.length =
      (g ++ gs.flatten).length
    have : countSome ((bk g).map some) = (bk g).length := by
      unfold countSome
      rw [List.filter_eq_self.mpr (by
        intro o ho
        rcases List.mem_map.mp ho with ⟨s, _, hs⟩
        rw [← hs]
        rfl), List.length_map]
    rw [this, hg, List.length_append]

theorem splitOnChar_append_sep_all (sep : Char) (s : List Char) :
    ∀ a : List Char, splitOnChar sep (a ++ sep :: s) =
      splitOnChar sep a ++ splitOnChar sep s := by
  intro a
  induction a with
  | nil =>
    rw [List.nil_append, splitOnChar_cons_sep]
    rfl
  | cons c cs ih =>
    by_cases hc : c = sep
    · subst hc
      rw [List.cons_append, splitOnChar_cons_sep, splitOnChar_cons_sep,
          ih, List.cons_append]
    · rw [List.cons_append, splitOnChar_cons_ne _ hc,
          splitOnChar_cons_ne _ hc, ih]
      cases hsp : splitOnChar sep cs with
      | nil => exact absurd hsp (splitOnChar_ne_nil sep cs)
      | cons h0 t0 => simp

theorem getLastD_append_of_ne_nil (A B : List (List Char))
    (hB : ¬ B = []) (d : List Char) :
    (A ++ B).getLastD d = B.getLastD d := by
  rw [List.getLastD_eq_getLast?, List.getLastD_eq_getLast?,
      List.getLast?_append_of_ne_nil A hB]

theorem filter_getLast? (p : List Char → Bool) :
    ∀ (l : List (List Char)) (a : List Char),
      l.getLast? = some a → p a = true → (l.filter p).getLast? = some a
  | [] => by intro a h _; simp at h
  | [x] => by
    intro a h hp
    have hx : x = a := by simpa using h
    subst hx
    rw [List.filter_cons, if_pos hp]
    rfl
  | x :: y :: t => by
    intro a h hp
    have h2 : (y :: t).getLast? = some a := by
      rw [← List.getLast?_cons_cons]
      exact h
    have ih := filter_getLast? p (y :: t) a h2 hp
    rw [List.filter_cons]
    by_cases hx : p x = true
    · rw [if_pos hx]
      cases hF : (y :: t).filter p with
      | nil => rw [hF] at ih; simp at ih
      | cons f fs =>
        rw [hF] at ih
        rw [List.getLast?_cons_cons]
        exact ih
    · rw [if_neg hx]
      exact ih

theorem split_last_suffix (ext : List Char) (hx : ∀ c ∈ ext, c ≠ '/') :
    ∀ t : List Char, ∃ s,
      (splitOnChar '/' (t ++ ext)).getLast? = some (s ++ ext)
  | [] => by
    refine ⟨[], ?_⟩
    rw [List.nil_append, splitOnChar_no_sep hx]
    rfl
  | c :: t' => by
    obtain ⟨s, hs⟩ := split_last_suffix ext hx t'
    by_cases hc : c = '/'
    · subst hc
      rw [List.cons_append, splitOnChar_cons_sep]
      refine ⟨s, ?_⟩
      cases hsp : splitOnChar '/' (t' ++ ext) with
      | nil => exact absurd hsp (splitOnChar_ne_nil _ _)
      | cons h0 t0 =>
        rw [hsp] at hs
        rw [List.getLast?_cons_cons]
        exact hs
    · rw [List.cons_append, splitOnChar_cons_ne _ hc]
      cases hsp : splitOnChar '/' (t' ++ ext) with
      | nil => exact absurd hsp (splitOnChar_ne_nil _ _)
      | cons h0 t0 =>
        rw [hsp] at hs
        cases t0 with
        | nil =>
          have : h0 = s ++ ext := by simpa using hs
          subst this
          exact ⟨c :: s, by simp⟩
        | cons t1 ts =>
          rw [List.getLast?_cons_cons] at hs
          refine ⟨s, ?_⟩
          show ((c :: (h0 :: t1 :: ts).headI) ::
            (h0 :: t1 :: ts).tail).getLast? = some (s ++ ext)
          rw [show (h0 :: t1 :: ts).tail = t1 :: ts from rfl,
              List.getLast?_cons_cons]
          exact hs

theorem pyName_of_tail (ext : List Char) (hx : ∀ c ∈ ext, c ≠ '/')
    (hlen : 2 ≤ ext.length) (nm t : List Char) (h : t ++ ext = nm) :
    ∃ s, pyName nm = s ++ ext := by
  subst h
  obtain ⟨s, hs⟩ := split_last_suffix ext hx t
  refine ⟨s, ?_⟩
  unfold pyName
  rw [List.getLastD_eq_getLast?,
      filter_getLast? _ _ _ hs (by
        have h1 : ¬ s ++ ext = [] := by
          intro hc
          rcases List.append_eq_nil.mp hc with ⟨_, hext⟩
          rw [hext] at hlen
          simp at hlen
        have h2 : ¬ s ++ ext = ['.'] := by
          intro hc
          have hlc := congrArg List.length hc
          rw [List.length_append] at hlc
          simp at hlc
          omega
        simp [h1, h2])]
  rfl

/-- The name of a path below a directory is the name of the relative part. -/
theorem pyName_append (pa nm : List Char) (h : ¬ pyName nm = []) :
    pyName (pa ++ '/' :: nm) = pyName nm := by
  unfold pyName
  rw [splitOnChar_append_sep_all, List.filter_append]
  have hB : ¬ (splitOnChar '/' nm).filter
      (fun c => ¬ c = [] ∧ ¬ c = ['.']) = [] := by
    intro hb
    apply h
    unfold pyName
    rw [hb]
    rfl
  exact getLastD_append_of_ne_nil _ _ hB []

/-- The pathlib suffix of a path whose name has at least one character
before its dot-extension. -/
theorem pySuffix_ext (p : List Char) (pre : List Char) (c1 c2 : Char)
    (hname : pyName p = pre ++ ['.', c1, c2]) (hpre : ¬ pre = [])
    (hc1 : ¬ c1 = '.') (hc2 : ¬ c2 = '.') :
    pySuffix p = ['.', c1, c2] := by
  have hrev : (pre ++ ['.', c1, c2]).reverse =
      c2 :: c1 :: '.' :: pre.reverse := by simp
  have hidx : firstDotIdx (pre ++ ['.', c1, c2]).reverse = some 2 := by
    rw [hrev]
    simp [firstDotIdx, hc1, hc2]
  have hlen : (pre ++ ['.', c1, c2]).length = pre.length + 3 := by
    rw [List.length_append]
    rfl
  have hpos : 0 < pre.length := List.length_pos.mpr hpre
  show (match firstDotIdx (pyName p).reverse with
        | none => []
        | some j =>
          if 0 < j ∧ j < (pyName p).length - 1 then
            ((pyName p).reverse.take (j + 1)).reverse
          else []) = ['.', c1, c2]
  rw [hname, hidx]
  show (if 0 < 2 ∧ 2 < (pre ++ ['.', c1, c2]).length - 1 then
      ((pre ++ ['.', c1, c2]).reverse.take 3).reverse
    else []) = ['.', c1, c2]
  rw [if_pos (by
        constructor
        · omega
        · rw [hlen]; omega),
      hrev]
  rfl

/-- A glob match below a directory: the joined path's suffix is the
extension, except when the matched name is exactly the extension (a hidden
file with no stem), in which case its pathlib name is the extension and its
suffix is empty. -/
theorem glob_suffix_case (pa nm : List Char) (c1 c2 : Char)
    (hc1 : ¬ c1 = '.') (hc2 : ¬ c2 = '.') (hcs1 : ¬ c1 = '/')
    (hcs2 : ¬ c2 = '/') (t : List Char) (h : t ++ ['.', c1, c2] = nm) :
    pySuffix (pa ++ '/' :: nm) = ['.', c1, c2] ∨
      pyName (pa ++ '/' :: nm) = ['.', c1, c2] := by
  have hx : ∀ c ∈ ['.', c1, c2], c ≠ '/' := by
    intro c hc
    rcases List.mem_cons.mp hc with h1 | h1
    · subst h1; decide
    · rcases List.mem_cons.mp h1 with h2 | h2
      · subst h2; exact hcs1
      · rcases List.mem_cons.mp h2 with h3 | h3
        · subst h3; exact hcs2
        · simp at h3
  obtain ⟨s, hs⟩ := pyName_of_tail ['.', c1, c2] hx
    (by rw [show (['.', c1, c2] : List Char).length = 3 from rfl]; omega)
    nm t h
  have hnm_ne : ¬ pyName nm = [] := by
    rw [hs]
    simp
  have hf : pyName (pa ++ '/' :: nm) = s ++ ['.', c1, c2] := by
    rw [pyName_append pa nm hnm_ne, hs]
  cases s with
  | nil =>
    right
    rw [hf]
    rfl
  | cons a s' =>
    left
    exact pySuffix_ext _ (a :: s') c1 c2 hf (by simp) hc1 hc2

theorem isEmpty_false_of_ne_nil {l : List TranslationEntry} (h : ¬ l = []) :
    l.isEmpty = false := by
  cases l with
  | nil => exact absurd rfl h
  | cons a t => rfl

/-- The .po branch of translate_file, written out: the batches are the
slices of the untranslated msgids, the assignments are the per-batch zips,
and save re-emits the merged entry list unless dry_run. -/
theorem translateFile_po (fp poContent : List Char) (tsRoot : XNode)
    (bk : List (List Char) → List (List Char)) (B : Nat) (dry : Bool)
    (hext : pyLower (pySuffix fp) = str ".po")
    (hN : ¬ po_get_untranslated (poParse poContent) = []) :
    translateFile fp poContent tsRoot bk B dry =
      { translated := countSome (assignsOfGroups bk (chunks B
          ((po_get_untranslated (poParse poContent)).map
            (fun e => e.msgid)))),
        total := (poParse poContent).length,
        calls := chunks B ((po_get_untranslated (poParse poContent)).map
          (fun e => e.msgid)),
        entriesAfter := mergeBack (fun e => e.needs_translation)
          (poParse poContent) (assignsOfGroups bk (chunks B
            ((po_get_untranslated (poParse poContent)).map
              (fun e => e.msgid)))),
        savedPo := if dry then none
          else some (poSave (mergeBack (fun e => e.needs_translation)
            (poParse poContent) (assignsOfGroups bk (chunks B
              ((po_get_untranslated (poParse poContent)).map
                (fun e => e.msgid)))))) } := by
  have hem := isEmpty_false_of_ne_nil hN
  simp only [translateFile]
  rw [if_pos hext, hem]
  rfl

/-- The .ts branch of translate_file, written out the same way: the same
batch loop over the Qt adapter's untranslated entries, and save rewrites
the document with every entry's msgstr unless dry_run. -/
theorem translateFile_ts (fp poContent : List Char) (tsRoot : XNode)
    (bk : List (List Char) → List (List Char)) (B : Nat) (dry : Bool)
    (hext : pyLower (pySuffix fp) = str ".ts")
    (hN : ¬ ts_get_untranslated (tsParseEntries tsRoot) = []) :
    translateFile fp poContent tsRoot bk B dry =
      { translated := countSome (assignsOfGroups bk (chunks B
          ((ts_get_untranslated (tsParseEntries tsRoot)).map
            (fun e => e.msgid)))),
        total := (tsParseEntries tsRoot).length,
        calls := chunks B ((ts_get_untranslated (tsParseEntries tsRoot)).map
          (fun e => e.msgid)),
        entriesAfter := mergeBack
          (fun e => e.needs_translation || e.flags.contains unfinishedFlag)
          (tsParseEntries tsRoot) (assignsOfGroups bk (chunks B
            ((ts_get_untranslated (tsParseEntries tsRoot)).map
              (fun e => e.msgid)))),
        savedTs := if dry then none
          else some (tsSave tsRoot ((mergeBack
            (fun e => e.needs_translation || e.flags.contains unfinishedFlag)
            (tsParseEntries tsRoot) (assignsOfGroups bk (chunks B
              ((ts_get_untranslated (tsParseEntries tsRoot)).map
                (fun e => e.msgid))))).map (fun e => e.msgstr))) } := by
  have hem := isEmpty_false_of_ne_nil hN
  have hne : ¬ pyLower (pySuffix fp) = str ".po" := by
    rw [hext]
    decide
  simp only [translateFile]
  rw [if_neg hne, if_pos hext, hem]
  rfl

theorem noBadEsc_of_special : ∀ s : List Char,
    (∀ c ∈ s, c = '\n' ∨ c = '\t' ∨ c = '"' ∨ c = '\\') →
    noBadEsc s = true
  | [] => fun _ => rfl
  | [_] => fun _ => rfl
  | a :: b :: rest => fun h => by
    have hb := h b (by simp)
    have hbn : ¬ b = 'n' := by
      rcases hb with h1 | h1 | h1 | h1 <;> (subst h1; decide)
    have hbt : ¬ b = 't' := by
      rcases hb with h1 | h1 | h1 | h1 <;> (subst h1; decide)
    have h1 : decide (b = 'n') = false := by simp [hbn]
    have h2 : decide (b = 't') = false := by simp [hbt]
    show ((!(decide (a = '\\') && (decide (b = 'n') || decide (b = 't')))) &&
      noBadEsc (b :: rest)) = true
    rw [h1, h2]
    simp only [Bool.or_self, Bool.and_false, Bool.not_false, Bool.true_and]
    exact noBadEsc_of_special (b :: rest) (fun c hc => h c (by simp [hc]))

theorem zipLocWrite_getElem :
    ∀ (ps : List (List Char × LocMsg)) (q : List (List Char)) (i : Nat)
      (p : List Char × LocMsg) (s : List Char),
      ps[i]? = some p → q[i]? = some s →
      (zipLocWrite ps q)[i]? = some (p.1, locWrite p.2 s)
  | [], _, i => by intro p s h _; simp at h
  | _ :: _, [], i => by intro p s _ h; simp at h
  | p0 :: ps, s0 :: q, 0 => by
    intro p s h1 h2
    have hp : p0 = p := by simpa using h1
    have hs : s0 = s := by simpa using h2
    subst hp
    subst hs
    rw [show zipLocWrite (p0 :: ps) (s0 :: q) =
          (p0.1, locWrite p0.2 s0) :: zipLocWrite ps q from rfl,
        List.getElem?_cons_zero]
  | p0 :: ps, s0 :: q, Nat.succ i => by
    intro p s h1 h2
    simp only [List.getElem?_cons_succ] at h1 h2
    rw [show zipLocWrite (p0 :: ps) (s0 :: q) =
          (p0.1, locWrite p0.2 s0) :: zipLocWrite ps q from rfl,
        List.getElem?_cons_succ]
    exact zipLocWrite_getElem ps q i p s h1 h2

theorem xGetAttr_filter_type (attrs : List (List Char × List Char)) :
    xGetAttr typeAttr (attrs.filter (fun a => ¬ a.1 = typeAttr)) = none := by
  unfold xGetAttr
  have hfind : (attrs.filter (fun a => ¬ a.1 = typeAttr)).find?
      (fun p => p.1 = typeAttr) = none := by
    rw [List.find?_eq_none]
    intro x hx
    have hm := (List.mem_filter.mp hx).2
    simp at hm ⊢
    exact hm
  rw [hfind]
  rfl

/-- A written translation element with a non-empty text: msgstr is the
assigned text and no unfinished flag is parsed back. -/
theorem entryOfLoc_locWrite (nm : List Char) (l : LocMsg) (s : List Char)
    (hs : ¬ s = [])
    (tv : Option (List Char) × List (List Char × List Char))
    (htr : l.tr = some tv) :
    (entryOfLoc nm (locWrite l s)).msgstr = s ∧
    (entryOfLoc nm (locWrite l s)).flags = [] := by
  have htr2 : (locWrite l s).tr =
      some (some s, tv.2.filter (fun a => ¬ a.1 = typeAttr)) := by
    show l.tr.map _ = _
    rw [htr]
    show some (some s,
        if s ≠ [] then tv.2.filter (fun a => ¬ a.1 = typeAttr) else tv.2) = _
    rw [if_pos hs]
  unfold entryOfLoc
  rw [htr2]
  constructor
  · rfl
  · show (if xGetAttr typeAttr (tv.2.filter (fun a => ¬ a.1 = typeAttr)) =
        some unfinishedFlag then [unfinishedFlag]
      else ([] : List (List Char))) = []
    rw [xGetAttr_filter_type, if_neg (by simp)]

/-- The type attribute of a written translation element is gone when the
assigned text is non-empty. -/
theorem locWrite_type_absent (l : LocMsg) (s : List Char) (hs : ¬ s = [])
    (txt : Option (List Char)) (attrs : List (List Char × List Char))
    (h : (locWrite l s).tr = some (txt, attrs)) :
    xGetAttr typeAttr attrs = none := by
  unfold locWrite at h
  cases htr : l.tr with
  | none => rw [htr] at h; simp at h
  | some tv =>
    rw [htr] at h
    have h2 : (some s,
        if s ≠ [] then tv.2.filter (fun a => ¬ a.1 = typeAttr) else tv.2) =
        (txt, attrs) := by simpa using h
    have ha : attrs = tv.2.filter (fun a => ¬ a.1 = typeAttr) := by
      have h3 := congrArg Prod.snd h2
      have h4 : (if s ≠ [] then tv.2.filter (fun a => ¬ a.1 = typeAttr)
          else tv.2) = attrs := h3
      rw [← h4, if_pos hs]
    rw [ha]
    exact xGetAttr_filter_type tv.2

theorem zipOptEntry_getElem :
    ∀ (es : List TranslationEntry) (q : List (Option (List Char))) (i : Nat)
      (e : TranslationEntry) (s : List Char),
      es[i]? = some e → q[i]? = some (some s) →
      (zipOptEntry es q)[i]? = some { e with msgstr := s }
  | [], _, i => by intro e s h _; simp at h
  | _ :: _, [], i => by intro e s _ h; simp at h
  | e0 :: es, mo :: q, 0 => by
    intro e s h1 h2
    have hp : e0 = e := by simpa using h1
    have hs : mo = some s := by simpa using h2
    subst hp
    subst hs
    rw [show zipOptEntry (e0 :: es) (some s :: q) =
          { e0 with msgstr := s } :: zipOptEntry es q from rfl,
        List.getElem?_cons_zero]
  | e0 :: es, mo :: q, Nat.succ i => by
    intro e s h1 h2
    simp only [List.getElem?_cons_succ] at h1 h2
    rw [show zipOptEntry (e0 :: es) (mo :: q) =
          (match mo with
           | some s' => { e0 with msgstr := s' }
           | none => e0) :: zipOptEntry es q from rfl,
        List.getElem?_cons_succ]
    exact zipOptEntry_getElem es q i e s h1 h2

end PoTranslate

namespace PoTranslate

-- Sanity checks of the embedded Python semantics on concrete data.
example : str "ab" = ['a', 'b'] := by decide

example :
    poParse (str "msgid \"Hello\"\nmsgstr \"\"") =
      [{ msgid := str "Hello", msgstr := [] }] := by decide

example :
    poParse (str "msgid \"\"\nmsgstr \"\"\n\n#, fuzzy\nmsgid \"a\"\nmsgstr \"\"") =
      [{ msgid := ['a'], flags := [fuzzyFlag] }] := by decide

-- A continuation line appends to the current field.
example :
    poParse (str "msgid \"ab\"\n\"cd\"\nmsgstr \"x\"") =
      [{ msgid := str "abcd", msgstr := ['x'] }] := by decide

-- The round-trip breaking document: a backslash-valued msgid followed by a
-- continuation line starting with the letter n.
example :
    poParse (str "msgid \"\\\\\"\n\"nx\"\nmsgstr \"y\"") =
      [{ msgid := ['\\', 'n', 'x'], msgstr := ['y'] }] := by decide

example :
    poParse (poSave (poParse (str "msgid \"\\\\\"\n\"nx\"\nmsgstr \"y\""))) =
      [{ msgid := ['\\', '\n', 'x'], msgstr := ['y'] }] := by decide

-- A well-behaved document round-trips.
example :
    poParse (poSave (poParse (str "# c\n#, fuzzy\nmsgctxt \"m\"\nmsgid \"a\\n\"\nmsgstr \"b\"")))
      = poParse (str "# c\n#, fuzzy\nmsgctxt \"m\"\nmsgid \"a\\n\"\nmsgstr \"b\"") := by decide

example : unescape ['\\', 'n'] = ['\n'] := by decide
example : unescape ['\\', '\\', 'n'] = ['\\', '\n'] := by decide
example : escape ['\\'] = ['\\', '\\'] := by decide
example : unescape (escape ['\\', '"']) = ['\\', '"'] := by decide
example : unescape (escape ['\\', '\\', 'n']) = ['\\', '\\', '\n'] := by decide
example : escape (unescape ['\\', '\\', 'n']) = ['\\', '\\', '\\', 'n'] := by decide
example : splitBlocks ['a', '\n', '\n', '\n', 'b'] = [['a'], ['b']] := by decide
example : splitBlocks [] = [[]] := by decide
example : splitBlocks ['a', '\n', 'b'] = [['a', '\n', 'b']] := by decide
example : pyStrip [' ', 'a', ' '] = ['a'] := by decide
example : splitOnChar ',' [] = [[]] := by decide
example : splitOnChar ',' ['a', ',', ',', 'b'] = [['a'], [], ['b']] := by decide

-- A small Qt .ts document: one context with one unfinished and one finished
-- message.
def tsDemo : XNode :=
  .elem (str "TS") [(str "version", str "2.1")] none (.ofList
    [.elem ctxTag [] none (.ofList
      [.elem nameTag [] (some (str "App")) .nil,
       .elem msgTag [] none (.ofList
         [.elem srcTag [] (some (str "Open")) .nil,
          .elem transTag [(typeAttr, unfinishedFlag)] none .nil]),
       .elem msgTag [] none (.ofList
         [.elem srcTag [] (some (str "Close")) .nil,
          .elem transTag [] (some (str "Stang")) .nil])])])

example :
    tsParseEntries tsDemo =
      [{ msgid := str "Open", msgstr := [], msgctxt := str "App",
         flags := [unfinishedFlag] },
       { msgid := str "Close", msgstr := str "Stang", msgctxt := str "App" }] := by
  decide

example :
    ts_get_untranslated (tsParseEntries tsDemo) =
      [{ msgid := str "Open", msgstr := [], msgctxt := str "App",
         flags := [unfinishedFlag] }] := by decide

-- Saving writes the queued translations and removes the unfinished marker of
-- the messages whose written text is non-empty.
example :
    tsSave tsDemo [str "Oppna", str "Stang"] =
      .elem (str "TS") [(str "version", str "2.1")] none (.ofList
        [.elem ctxTag [] none (.ofList
          [.elem nameTag [] (some (str "App")) .nil,
           .elem msgTag [] none (.ofList
             [.elem srcTag [] (some (str "Open")) .nil,
              .elem transTag [] (some (str "Oppna")) .nil]),
           .elem msgTag [] none (.ofList
             [.elem srcTag [] (some (str "Close")) .nil,
              .elem transTag [] (some (str "Stang")) .nil])])]) := by decide

-- A small XLIFF document mirroring the adapter tests: two trans-units, the
-- first with an empty target.
def xlfDemo : XNode :=
  .elem (str "xliff") [(str "version", str "1.2")] none (.ofList
    [.elem (str "file") [] none (.ofList
      [.elem (str "body") [] none (.ofList
        [.elem unitTag [(str "id", str "1")] none (.ofList
          [.elem srcTag [] (some (str "Hello")) .nil,
           .elem targetTag [] none .nil]),
         .elem unitTag [(str "id", str "2")] none (.ofList
          [.elem srcTag [] (some (str "Bye")) .nil,
           .elem targetTag [] (some (str "Hejda")) .nil])])])])

example :
    xlfParseEntries xlfDemo =
      [{ msgid := str "Hello", msgstr := [] },
       { msgid := str "Bye", msgstr := str "Hejda" }] := by decide

example :
    xlf_get_untranslated (xlfParseEntries xlfDemo) =
      [{ msgid := str "Hello", msgstr := [] }] := by decide

example :
    xlfParseEntries (xlfSave xlfDemo [some (str "Hej"), none]) =
      [{ msgid := str "Hello", msgstr := str "Hej" },
       { msgid := str "Bye", msgstr := str "Hejda" }] := by decide

-- Creating a missing target node: a unit with no target at all.
example :
    xlfParseEntries (xlfSave
      (.elem (str "xliff") [] none (.ofList
        [.elem unitTag [] none (.ofList
          [.elem srcTag [] (some (str "Hello")) .nil])]))
      [some (str "Hej")]) =
      [{ msgid := str "Hello", msgstr := str "Hej" }] := by decide

-- Path semantics (checked against pathlib).
example : pySuffix (str "a.po") = str ".po" := by decide
example : pySuffix (str ".po") = [] := by decide
example : pySuffix (str "a.") = [] := by decide
example : pySuffix (str "d/.hid.po") = str ".po" := by decide
example : pySuffix (str "a/./b.ts") = str ".ts" := by decide
example : pyLower (pySuffix (str "x.PO")) = str ".po" := by decide
example : pyName (str "a/b/") = str "b" := by decide
example : chunks 2 [1, 2, 3, 4, 5] = [[1, 2], [3, 4], [5]] := by decide

-- The driver on an unsupported extension: an error marker, no calls, no
-- writes.
example :
    translateFile (str "a.txt") [] tsDemo (fun g => g) 10 false =
      { error := some (str "Unsupported format: .txt") } := by decide

-- The driver on a .po file with one untranslated entry and an echoing
-- backend.
example :
    translateFile (str "a.po") (str "msgid \"x\"\nmsgstr \"\"") tsDemo
        (fun g => g) 10 false =
      { translated := 1, total := 1, calls := [[['x']]],
        entriesAfter := [{ msgid := ['x'], msgstr := ['x'] }],
        savedPo := some (str "msgid \"x\"\nmsgstr \"x\"\n") } := by decide

-- The zip truncation: a backend that returns nothing leaves the entry
-- unassigned, yet the file is saved and translated is reported as 0.
example :
    translateFile (str "a.po") (str "msgid \"x\"\nmsgstr \"\"") tsDemo
        (fun _ => []) 1 false =
      { translated := 0, total := 1, calls := [[['x']]],
        entriesAfter := [{ msgid := ['x'], msgstr := [] }],
        savedPo := some (str "msgid \"x\"\nmsgstr \"\"\n") } := by decide

-- find_files: a directory file named exactly ".po" is globbed, though its
-- pathlib suffix is empty.
example :
    findFiles [.dir (str "d") [str ".po", str "a.po", str "b.xliff"]] true =
      [str "d/.po", str "d/a.po"] := by decide

example : pyLower (pySuffix (str "d/.po")) = [] := by decide

-- A .ts document with a finished-but-unfinished-marked message: non-empty
-- translation text carrying the type attribute.
def tsDemo2 : XNode :=
  .elem (str "TS") [] none (.ofList
    [.elem ctxTag [] none (.ofList
      [.elem nameTag [] (some (str "App")) .nil,
       .elem msgTag [] none (.ofList
         [.elem srcTag [] (some (str "Open")) .nil,
          .elem transTag [(typeAttr, unfinishedFlag)]
            (some (str "Halv")) .nil])])])

end PoTranslate

namespace PoTranslate

instance (e : TranslationEntry) : Decidable (EntrySafe e) := by
  unfold EntrySafe
  infer_instance

instance (c : List Char) : Decidable (CommentWF c) := by
  unfold CommentWF
  infer_instance

instance (t : List Char) : Decidable (FlagWF t) := by
  unfold FlagWF
  infer_instance

instance (e : TranslationEntry) : Decidable (EntryWFb e) := by
  unfold EntryWFb
  infer_instance

theorem needs_translation_eq (e : TranslationEntry) :
    e.needs_translation = true ↔
      (¬ e.msgid = [] ∧ e.msgstr = [] ∧ ¬ fuzzyFlag ∈ e.flags) := by
  unfold TranslationEntry.needs_translation
  split_ifs with h1 h2 h3
  · simp [h1]
  · simp [h2]
  · rw [List.elem_iff] at h3
    simp [h3]
  · rw [List.elem_iff] at h3
    have h2' : e.msgstr = [] := of_not_not h2
    simp [h1, h2', h3]

/-- C2: for a line-format document whose parsed entries are escape-safe (no
backslash immediately followed by the letter n or t in any text field),
parse after save-of-parse reproduces the entries exactly, and save is a
fixed point of its own round trip.  Without the safety condition the
sequential-replace escape codec breaks the round trip (see the
counterexample). -/
theorem po_save_parse_roundtrip (content : List Char)
    (hsafe : ∀ e ∈ poParse content, EntrySafe e) :
    poParse (poSave (poParse content)) = poParse content ∧
    poSave (poParse (poSave (poParse content))) = poSave (poParse content) := by
  have h1 := poParse_poSave (poParse content) (poParse_WF content) hsafe
  exact ⟨h1, by rw [h1]⟩

theorem po_save_parse_roundtrip_witness :
    poParse (poSave (poParse
      (str "# c\nmsgctxt \"m\"\nmsgid \"a\"\nmsgstr \"b\"\n\nmsgid \"x\"\nmsgstr \"\""))) =
      poParse
        (str "# c\nmsgctxt \"m\"\nmsgid \"a\"\nmsgstr \"b\"\n\nmsgid \"x\"\nmsgstr \"\"") ∧
    poSave (poParse (poSave (poParse
      (str "# c\nmsgctxt \"m\"\nmsgid \"a\"\nmsgstr \"b\"\n\nmsgid \"x\"\nmsgstr \"\"")))) =
      poSave (poParse
        (str "# c\nmsgctxt \"m\"\nmsgid \"a\"\nmsgstr \"b\"\n\nmsgid \"x\"\nmsgstr \"\"")) :=
  po_save_parse_roundtrip
    (str "# c\nmsgctxt \"m\"\nmsgid \"a\"\nmsgstr \"b\"\n\nmsgid \"x\"\nmsgstr \"\"")
    (by decide)

/-- C2 counterexample: the document holding the single logical msgid
backslash-n-x (written as an escaped backslash followed by a continuation
line starting with the letter n) parses, saves and reparses to the logical
msgid backslash-newline-x — the reparse differs from the parse, so
parse-save-parse is not parse on this valid document. -/
theorem po_roundtrip_backslash_n :
    ¬ poParse (poSave (poParse (str "msgid \"\\\\\"\n\"nx\"\nmsgstr \"y\""))) =
      poParse (str "msgid \"\\\\\"\n\"nx\"\nmsgstr \"y\"") := by decide

/-- C3: on the image of escape over escape-safe strings — which contains
every raw string the saver itself produces — escape after unescape is the
identity.  On raw strings in general it is not (see the counterexample). -/
theorem escape_unescape_on_image (s : List Char) (h : noBadEsc s = true) :
    escape (unescape (escape s)) = escape s := by
  rw [unescape_escape s h]

theorem escape_unescape_on_image_witness :
    escape (unescape (escape ['a', '\\', '\n', '"', '\t', 'b'])) =
      escape ['a', '\\', '\n', '"', '\t', 'b'] :=
  escape_unescape_on_image ['a', '\\', '\n', '"', '\t', 'b'] (by decide)

/-- C3 counterexample: the single backslash is composed of the four special
characters, yet escape of its unescape doubles it. -/
theorem escape_unescape_backslash :
    ¬ escape (unescape ['\\']) = ['\\'] := by decide

/-- C4: unescape undoes escape on every string composed of the four special
characters (newline, tab, double quote, backslash) in any arrangement. -/
theorem unescape_escape_special (s : List Char)
    (h : ∀ c ∈ s, c = '\n' ∨ c = '\t' ∨ c = '"' ∨ c = '\\') :
    unescape (escape s) = s :=
  unescape_escape s (noBadEsc_of_special s h)

theorem unescape_escape_special_witness :
    unescape (escape ['\\', '\\', '"', '\n', '\t', '\\']) =
      ['\\', '\\', '"', '\n', '\t', '\\'] :=
  unescape_escape_special ['\\', '\\', '"', '\n', '\t', '\\'] (by decide)

/-- C5: needs_translation holds exactly when the source text is non-empty,
the translated text is empty, and no fuzzy flag is set — the unfinished
flag plays no role here (it is handled by the Qt adapter's get_untranslated
instead), so an entry with non-empty translated text and the unfinished
flag does not need translation, contrary to the claim's last clause. -/
theorem needs_translation_characterization (e : TranslationEntry) :
    e.needs_translation = true ↔
      (¬ e.msgid = [] ∧ e.msgstr = [] ∧ ¬ fuzzyFlag ∈ e.flags) :=
  needs_translation_eq e

/-- C5 counterexample: an entry with non-empty translated text carrying the
unfinished flag is not reported as needing translation. -/
theorem needs_translation_unfinished_nonempty :
    ({ msgid := ['a'], msgstr := ['b'], flags := [unfinishedFlag] } :
      TranslationEntry).needs_translation = false := by decide

/-- C1: for both adapters — a .po or a .ts file with at least one
untranslated entry — and batch size B of at least 1, translate_file calls
the backend exactly ceil(N/B) times, on consecutive order-preserving
non-empty groups of at most B source texts; and when every call returns
exactly as many texts as requested — which the shipped backends guarantee
by padding and truncating internally — every one of the N untranslated
entries is assigned (translated = N).  The driver itself neither pads nor
truncates: result i goes to group entry i only for i below the returned
length (see the counterexample). -/
theorem translate_file_batching (fp poContent : List Char) (tsRoot : XNode)
    (bk : List (List Char) → List (List Char)) (B : Nat) (dry : Bool)
    (hB : 1 ≤ B) :
    (pyLower (pySuffix fp) = str ".po" →
      ¬ po_get_untranslated (poParse poContent) = [] →
      (translateFile fp poContent tsRoot bk B dry).calls.length =
        ((po_get_untranslated (poParse poContent)).length + B - 1) / B ∧
      (translateFile fp poContent tsRoot bk B dry).calls.flatten =
        (po_get_untranslated (poParse poContent)).map (fun e => e.msgid) ∧
      (∀ g ∈ (translateFile fp poContent tsRoot bk B dry).calls,
        ¬ g = [] ∧ g.length ≤ B) ∧
      ((∀ g ∈ (translateFile fp poContent tsRoot bk B dry).calls,
          (bk g).length = g.length) →
        (translateFile fp poContent tsRoot bk B dry).translated =
          (po_get_untranslated (poParse poContent)).length)) ∧
    (pyLower (pySuffix fp) = str ".ts" →
      ¬ ts_get_untranslated (tsParseEntries tsRoot) = [] →
      (translateFile fp poContent tsRoot bk B dry).calls.length =
        ((ts_get_untranslated (tsParseEntries tsRoot)).length + B - 1) / B ∧
      (translateFile fp poContent tsRoot bk B dry).calls.flatten =
        (ts_get_untranslated (tsParseEntries tsRoot)).map
          (fun e => e.msgid) ∧
      (∀ g ∈ (translateFile fp poContent tsRoot bk B dry).calls,
        ¬ g = [] ∧ g.length ≤ B) ∧
      ((∀ g ∈ (translateFile fp poContent tsRoot bk B dry).calls,
          (bk g).length = g.length) →
        (translateFile fp poContent tsRoot bk B dry).translated =
          (ts_get_untranslated (tsParseEntries tsRoot)).length)) := by
  constructor
  · intro hext hN
    rw [translateFile_po fp poContent tsRoot bk B dry hext hN]
    refine ⟨?_, ?_, ?_, ?_⟩
    · show (chunks B ((po_get_untranslated (poParse poContent)).map
        (fun e => e.msgid))).length = _
      rw [chunks_length B hB, List.length_map]
    · show (chunks B ((po_get_untranslated (poParse poContent)).map
        (fun e => e.msgid))).flatten = _
      exact chunks_flatten B _
    · show ∀ g ∈ chunks B ((po_get_untranslated (poParse poContent)).map
        (fun e => e.msgid)), ¬ g = [] ∧ g.length ≤ B
      exact chunks_sizes B hB _
    · intro h
      show countSome (assignsOfGroups bk (chunks B
        ((po_get_untranslated (poParse poContent)).map
          (fun e => e.msgid)))) = _
      rw [countSome_assigns_exact bk _ (fun g hg => h g hg),
          chunks_flatten B _, List.length_map]
  · intro hext hN
    rw [translateFile_ts fp poContent tsRoot bk B dry hext hN]
    refine ⟨?_, ?_, ?_, ?_⟩
    · show (chunks B ((ts_get_untranslated (tsParseEntries tsRoot)).map
        (fun e => e.msgid))).length = _
      rw [chunks_length B hB, List.length_map]
    · show (chunks B ((ts_get_untranslated (tsParseEntries tsRoot)).map
        (fun e => e.msgid))).flatten = _
      exact chunks_flatten B _
    · show ∀ g ∈ chunks B ((ts_get_untranslated (tsParseEntries tsRoot)).map
        (fun e => e.msgid)), ¬ g = [] ∧ g.length ≤ B
      exact chunks_sizes B hB _
    · intro h
      show countSome (assignsOfGroups bk (chunks B
        ((ts_get_untranslated (tsParseEntries tsRoot)).map
          (fun e => e.msgid)))) = _
      rw [countSome_assigns_exact bk _ (fun g hg => h g hg),
          chunks_flatten B _, List.length_map]

theorem translate_file_batching_witness :
    ((translateFile (str "a.po")
        (str "msgid \"x\"\nmsgstr \"\"\n\nmsgid \"y\"\nmsgstr \"\"")
        (XNode.elem [] [] none .nil) (fun g => g) 1 false).calls.length =
      ((po_get_untranslated (poParse
        (str "msgid \"x\"\nmsgstr \"\"\n\nmsgid \"y\"\nmsgstr \"\""))).length
        + 1 - 1) / 1 ∧
    (translateFile (str "a.po")
        (str "msgid \"x\"\nmsgstr \"\"\n\nmsgid \"y\"\nmsgstr \"\"")
        (XNode.elem [] [] none .nil) (fun g => g) 1 false).calls.flatten =
      (po_get_untranslated (poParse
        (str "msgid \"x\"\nmsgstr \"\"\n\nmsgid \"y\"\nmsgstr \"\""))).map
        (fun e => e.msgid) ∧
    (∀ g ∈ (translateFile (str "a.po")
        (str "msgid \"x\"\nmsgstr \"\"\n\nmsgid \"y\"\nmsgstr \"\"")
        (XNode.elem [] [] none .nil) (fun g => g) 1 false).calls,
      ¬ g = [] ∧ g.length ≤ 1) ∧
    ((∀ g ∈ (translateFile (str "a.po")
        (str "msgid \"x\"\nmsgstr \"\"\n\nmsgid \"y\"\nmsgstr \"\"")
        (XNode.elem [] [] none .nil) (fun g => g) 1 false).calls,
        ((fun g : List (List Char) => g) g).length = g.length) →
      (translateFile (str "a.po")
        (str "msgid \"x\"\nmsgstr \"\"\n\nmsgid \"y\"\nmsgstr \"\"")
        (XNode.elem [] [] none .nil) (fun g => g) 1 false).translated =
      (po_get_untranslated (poParse
        (str "msgid \"x\"\nmsgstr \"\"\n\nmsgid \"y\"\nmsgstr \"\""))).length)) ∧
    ((translateFile (str "b.ts") [] tsDemo
        (fun g => g) 1 false).calls.length =
      ((ts_get_untranslated (tsParseEntries tsDemo)).length + 1 - 1) / 1 ∧
    (translateFile (str "b.ts") [] tsDemo
        (fun g => g) 1 false).calls.flatten =
      (ts_get_untranslated (tsParseEntries tsDemo)).map (fun e => e.msgid) ∧
    (∀ g ∈ (translateFile (str "b.ts") [] tsDemo
        (fun g => g) 1 false).calls,
      ¬ g = [] ∧ g.length ≤ 1) ∧
    ((∀ g ∈ (translateFile (str "b.ts") [] tsDemo
        (fun g => g) 1 false).calls,
        ((fun g : List (List Char) => g) g).length = g.length) →
      (translateFile (str "b.ts") [] tsDemo
        (fun g => g) 1 false).translated =
      (ts_get_untranslated (tsParseEntries tsDemo)).length)) :=
  ⟨(translate_file_batching (str "a.po")
      (str "msgid \"x\"\nmsgstr \"\"\n\nmsgid \"y\"\nmsgstr \"\"")
      (XNode.elem [] [] none .nil) (fun g => g) 1 false (by decide)).1
      (by decide) (by decide),
   (translate_file_batching (str "b.ts") [] tsDemo
      (fun g => g) 1 false (by decide)).2 (by decide) (by decide)⟩

/-- C1 counterexample: one untranslated entry, batch size 1, a backend call
that returns fewer results than requested (none at all) — the entry's
translated text stays empty after the call, with translated reported as 0:
the missing tail is not padded with the source text by translate_file. -/
theorem translate_file_short_result_unpadded :
    (po_get_untranslated (poParse
      (str "msgid \"x\"\nmsgstr \"\""))).length = 1 ∧
    (translateFile (str "a.po") (str "msgid \"x\"\nmsgstr \"\"")
        (XNode.elem [] [] none .nil) (fun _ => []) 1 false).calls =
      [[['x']]] ∧
    (translateFile (str "a.po") (str "msgid \"x\"\nmsgstr \"\"")
        (XNode.elem [] [] none .nil) (fun _ => []) 1 false).entriesAfter =
      [{ msgid := ['x'], msgstr := [] }] ∧
    (translateFile (str "a.po") (str "msgid \"x\"\nmsgstr \"\"")
        (XNode.elem [] [] none .nil) (fun _ => []) 1 false).translated =
      0 := by decide

/-- C9: translate_file on a path whose lowered suffix is neither .po nor
.ts returns the structured error marker built from that suffix, calls no
backend, and writes nothing. -/
theorem translate_file_unsupported (fp poContent : List Char)
    (tsRoot : XNode) (bk : List (List Char) → List (List Char)) (B : Nat)
    (dry : Bool)
    (h1 : ¬ pyLower (pySuffix fp) = str ".po")
    (h2 : ¬ pyLower (pySuffix fp) = str ".ts") :
    (translateFile fp poContent tsRoot bk B dry).error =
      some (str "Unsupported format: " ++ pyLower (pySuffix fp)) ∧
    (translateFile fp poContent tsRoot bk B dry).calls = [] ∧
    (translateFile fp poContent tsRoot bk B dry).savedPo = none ∧
    (translateFile fp poContent tsRoot bk B dry).savedTs = none := by
  have hr : translateFile fp poContent tsRoot bk B dry =
      { error := some (str "Unsupported format: " ++
          pyLower (pySuffix fp)) } := by
    simp only [translateFile]
    rw [if_neg h1, if_neg h2]
  rw [hr]
  exact ⟨rfl, rfl, rfl, rfl⟩

theorem translate_file_unsupported_witness :
    (translateFile (str "a.xliff") [] (XNode.elem [] [] none .nil)
      (fun g => g) 10 false).error =
      some (str "Unsupported format: " ++ pyLower (pySuffix (str "a.xliff"))) ∧
    (translateFile (str "a.xliff") [] (XNode.elem [] [] none .nil)
      (fun g => g) 10 false).calls = [] ∧
    (translateFile (str "a.xliff") [] (XNode.elem [] [] none .nil)
      (fun g => g) 10 false).savedPo = none ∧
    (translateFile (str "a.xliff") [] (XNode.elem [] [] none .nil)
      (fun g => g) 10 false).savedTs = none :=
  translate_file_unsupported (str "a.xliff") [] (XNode.elem [] [] none .nil)
    (fun g => g) 10 false (by decide) (by decide)

/-- C6: the Qt adapter's get_untranslated keeps exactly the entries that
need translation or carry the unfinished flag — in particular an entry with
the unfinished flag is kept regardless of its translated text — and after
save with a non-empty assigned translation, the written translation node
carries the assigned text, reparses without the unfinished flag, and its
attribute list holds no type attribute. -/
theorem ts_untranslated_and_save :
    (∀ (es : List TranslationEntry) (e : TranslationEntry), e ∈ es →
      (e.needs_translation || e.flags.contains unfinishedFlag) = true →
      e ∈ ts_get_untranslated es) ∧
    (∀ (es : List TranslationEntry) (e : TranslationEntry),
      e ∈ ts_get_untranslated es → e ∈ es ∧
      (e.needs_translation || e.flags.contains unfinishedFlag) = true) ∧
    (∀ (root : XNode) (q : List (List Char)) (i : Nat)
      (p : List Char × LocMsg) (s : List Char),
      (tsLocPairs root)[i]? = some p → q[i]? = some s → ¬ s = [] →
      ∀ tv, p.2.tr = some tv →
      (tsParseEntries (tsSave root q))[i]? =
        some (entryOfLoc p.1 (locWrite p.2 s)) ∧
      (entryOfLoc p.1 (locWrite p.2 s)).msgstr = s ∧
      (entryOfLoc p.1 (locWrite p.2 s)).flags = [] ∧
      ∀ txt attrs, (locWrite p.2 s).tr = some (txt, attrs) →
        xGetAttr typeAttr attrs = none) := by
  refine ⟨?_, ?_, ?_⟩
  · intro es e he hp
    exact List.mem_filter.mpr ⟨he, hp⟩
  · intro es e he
    exact ⟨(List.mem_filter.mp he).1, (List.mem_filter.mp he).2⟩
  · intro root q i p s hp hq hs tv htv
    refine ⟨?_, (entryOfLoc_locWrite p.1 p.2 s hs tv htv).1,
      (entryOfLoc_locWrite p.1 p.2 s hs tv htv).2,
      fun txt attrs h => locWrite_type_absent p.2 s hs txt attrs h⟩
    rw [tsSave_parse root q, List.getElem?_map,
        zipLocWrite_getElem (tsLocPairs root) q i p s hp hq]
    rfl

theorem ts_untranslated_and_save_witness :
    ({ msgid := str "Open", msgstr := [], msgctxt := str "App",
       flags := [unfinishedFlag] } : TranslationEntry) ∈
      ts_get_untranslated (tsParseEntries tsDemo) ∧
    (tsParseEntries (tsSave tsDemo [str "Oppna", str "Stang"]))[0]? =
      some (entryOfLoc (str "App")
        (locWrite { src := str "Open",
                    tr := some (none, [(typeAttr, unfinishedFlag)]) }
          (str "Oppna"))) :=
  ⟨ts_untranslated_and_save.1 (tsParseEntries tsDemo)
      { msgid := str "Open", msgstr := [], msgctxt := str "App",
        flags := [unfinishedFlag] } (by decide) (by decide),
   (ts_untranslated_and_save.2.2 tsDemo [str "Oppna", str "Stang"] 0
      (str "App", { src := str "Open",
                    tr := some (none, [(typeAttr, unfinishedFlag)]) })
      (str "Oppna") (by decide) (by decide) (by decide)
      (none, [(typeAttr, unfinishedFlag)]) (by decide)).1⟩

/-- C7: modelled from the spec (the source tree contains no XLIFFFile —
only translate_file's unsupported-format branch and the tests mention the
format): parsing yields one entry per trans-unit, a missing target node
means empty translated text, a unit with non-empty source and empty target
is in get_untranslated, and saving then reparsing yields the assigned
texts positionally while keeping every other entry unchanged. -/
theorem xliff_adapter :
    (∀ root : XNode,
      (xlfParseEntries root).length = (xlfUnits root).length) ∧
    (∀ u : XNode, xFind targetTag u.children = none →
      (xlfEntryOfUnit u).msgstr = []) ∧
    (∀ (root : XNode) (e : TranslationEntry), e ∈ xlfParseEntries root →
      ¬ e.msgid = [] → e.msgstr = [] →
      e ∈ xlf_get_untranslated (xlfParseEntries root)) ∧
    (∀ (root : XNode) (q : List (Option (List Char))),
      xlfParseEntries (xlfSave root q) =
        zipOptEntry (xlfParseEntries root) q) ∧
    (∀ (root : XNode) (q : List (Option (List Char))) (i : Nat)
      (e : TranslationEntry) (s : List Char),
      (xlfParseEntries root)[i]? = some e → q[i]? = some (some s) →
      (xlfParseEntries (xlfSave root q))[i]? =
        some { e with msgstr := s }) := by
  refine ⟨?_, ?_, ?_, ?_, ?_⟩
  · intro root
    unfold xlfParseEntries
    rw [List.length_map]
  · intro u h
    show xFindtext targetTag u.children = []
    unfold xFindtext
    rw [h]
  · intro root e he hid hstr
    refine List.mem_filter.mpr ⟨he, ?_⟩
    rcases List.mem_map.mp he with ⟨u, _, he2⟩
    have hflags : e.flags = [] := by rw [← he2]; rfl
    exact (needs_translation_eq e).mpr ⟨hid, hstr, by rw [hflags]; simp⟩
  · intro root q
    exact xlfSave_parse root q
  · intro root q i e s hp hq
    rw [xlfSave_parse root q]
    exact zipOptEntry_getElem (xlfParseEntries root) q i e s hp hq

theorem xliff_adapter_witness :
    (xlfParseEntries xlfDemo).length = (xlfUnits xlfDemo).length ∧
    ({ msgid := str "Hello", msgstr := [] } : TranslationEntry) ∈
      xlf_get_untranslated (xlfParseEntries xlfDemo) ∧
    (xlfParseEntries (xlfSave xlfDemo [some (str "Hej"), none]))[0]? =
      some { ({ msgid := str "Hello", msgstr := [] } : TranslationEntry)
             with msgstr := str "Hej" } :=
  ⟨xliff_adapter.1 xlfDemo,
   xliff_adapter.2.2.1 xlfDemo
     { msgid := str "Hello", msgstr := [] } (by decide) (by decide)
     (by decide),
   xliff_adapter.2.2.2.2 xlfDemo [some (str "Hej"), none] 0
     { msgid := str "Hello", msgstr := [] } (str "Hej") (by decide)
     (by decide)⟩

/-- C8: what saving preserves, for both adapters.  Line format: saving
re-emits the parsed entries exactly (parse of save is the identity on
well-formed escape-safe entries), so no block is dropped, reordered or
duplicated.  Qt XML: the document with every writable slot blanked — the
text and attributes of the first translation child of each context message
— is invariant under save, so saving never drops, reorders, duplicates or
otherwise alters anything outside those slots; and the slots themselves
change exactly by the positional translation writes.  Save does touch the
slot of every entry, not only explicitly-modified ones (see the
counterexample). -/
theorem save_frame :
    (∀ (root : XNode) (q : List (List Char)),
      tsBlank (tsSave root q) = tsBlank root) ∧
    (∀ (root : XNode) (q : List (List Char)),
      tsLocPairs (tsSave root q) = zipLocWrite (tsLocPairs root) q) ∧
    (∀ es : List TranslationEntry, (∀ e ∈ es, EntryWFb e) →
      (∀ e ∈ es, EntrySafe e) → poParse (poSave es) = es) :=
  ⟨tsBlank_tsSave, tsSave_locPairs, poParse_poSave⟩

theorem save_frame_witness :
    tsBlank (tsSave tsDemo [str "Oppna", str "Stang"]) = tsBlank tsDemo ∧
    poParse (poSave [{ msgid := ['a'], msgstr := ['b'] }]) =
      [{ msgid := ['a'], msgstr := ['b'] }] :=
  ⟨save_frame.1 tsDemo [str "Oppna", str "Stang"],
   save_frame.2.2 [{ msgid := ['a'], msgstr := ['b'] }] (by decide)
     (by decide)⟩

/-- C8 counterexample: saving the parsed entries back without modifying any
of them still rewrites an untouched message — a translation node with
non-empty text and the unfinished type attribute loses that attribute,
because save writes every entry's translation and deletes the marker
whenever the written text is non-empty. -/
theorem ts_save_alters_untouched :
    tsSave tsDemo2 ((tsParseEntries tsDemo2).map (fun e => e.msgstr)) =
      (.elem (str "TS") [] none (.ofList
        [.elem ctxTag [] none (.ofList
          [.elem nameTag [] (some (str "App")) .nil,
           .elem msgTag [] none (.ofList
             [.elem srcTag [] (some (str "Open")) .nil,
              .elem transTag [] (some (str "Halv")) .nil])])])) ∧
    ¬ tsSave tsDemo2 ((tsParseEntries tsDemo2).map (fun e => e.msgstr)) =
      tsDemo2 := by decide

/-- C10: every path find_files returns either passes the case-insensitive
pathlib-suffix check for .po or .ts — as every directly-named file must —
or is a directory find whose pathlib name is exactly .po or .ts: glob
matches such hidden extension-only names, and their pathlib suffix is
empty, so the claimed suffix property has exactly that exception (see the
counterexample). -/
theorem find_files_suffixes (paths : List PathSpec) (recursive : Bool) :
    ∀ f ∈ findFiles paths recursive,
      pyLower (pySuffix f) = str ".po" ∨ pyLower (pySuffix f) = str ".ts" ∨
      pyName f = str ".po" ∨ pyName f = str ".ts" := by
  intro f hf
  unfold findFiles at hf
  rcases List.mem_flatMap.mp hf with ⟨p, _, hfp⟩
  cases p with
  | file pa =>
    have hfp2 : f ∈ (if pyLower (pySuffix pa) = str ".po" ∨
        pyLower (pySuffix pa) = str ".ts" then [pa] else []) := hfp
    by_cases hcond : pyLower (pySuffix pa) = str ".po" ∨
        pyLower (pySuffix pa) = str ".ts"
    · rw [if_pos hcond] at hfp2
      have hfa : f = pa := by simpa using hfp2
      subst hfa
      rcases hcond with h | h
      · exact Or.inl h
      · exact Or.inr (Or.inl h)
    · rw [if_neg hcond] at hfp2
      simp at hfp2
  | missing pa =>
    have hfp2 : f ∈ ([] : List (List Char)) := hfp
    simp at hfp2
  | dir pa names =>
    have hfp2 : f ∈
        (globList recursive (str ".po") names).map
          (fun nm => pa ++ '/' :: nm) ++
        (globList recursive (str ".ts") names).map
          (fun nm => pa ++ '/' :: nm) := hfp
    rcases List.mem_append.mp hfp2 with hmem | hmem
    · rcases List.mem_map.mp hmem with ⟨nm, hglob, rfl⟩
      have hcond := (List.mem_filter.mp hglob).2
      rw [Bool.and_eq_true] at hcond
      have hsuf : (str ".po").isSuffixOf nm = true := hcond.1
      obtain ⟨t, ht⟩ := List.isSuffixOf_iff_suffix.mp hsuf
      have ht' : t ++ ['.', 'p', 'o'] = nm := ht
      rcases glob_suffix_case pa nm 'p' 'o' (by decide) (by decide)
          (by decide) (by decide) t ht' with h | h
      · exact Or.inl (by rw [h]; decide)
      · exact Or.inr (Or.inr (Or.inl (by rw [h]; rfl)))
    · rcases List.mem_map.mp hmem with ⟨nm, hglob, rfl⟩
      have hcond := (List.mem_filter.mp hglob).2
      rw [Bool.and_eq_true] at hcond
      have hsuf : (str ".ts").isSuffixOf nm = true := hcond.1
      obtain ⟨t, ht⟩ := List.isSuffixOf_iff_suffix.mp hsuf
      have ht' : t ++ ['.', 't', 's'] = nm := ht
      rcases glob_suffix_case pa nm 't' 's' (by decide) (by decide)
          (by decide) (by decide) t ht' with h | h
      · exact Or.inr (Or.inl (by rw [h]; decide))
      · exact Or.inr (Or.inr (Or.inr (by rw [h]; rfl)))

theorem find_files_suffixes_witness :
    pyLower (pySuffix (str "d/a.po")) = str ".po" ∨
    pyLower (pySuffix (str "d/a.po")) = str ".ts" ∨
    pyName (str "d/a.po") = str ".po" ∨
    pyName (str "d/a.po") = str ".ts" :=
  find_files_suffixes [PathSpec.dir (str "d") [str "a.po"]] true
    (str "d/a.po") (by decide)

/-- C10 counterexample: a directory containing a file named exactly .po —
pathlib's glob matches it, find_files returns it, yet its extension
(pathlib suffix) is empty, not .po or .ts. -/
theorem find_files_hidden_dot_po :
    findFiles [PathSpec.dir (str "d") [str ".po"]] true = [str "d/.po"] ∧
    ¬ pyLower (pySuffix (str "d/.po")) = str ".po" ∧
    ¬ pyLower (pySuffix (str "d/.po")) = str ".ts" := by decide

end PoTranslate
